import Mathlib

/-!
# chaintool: certificate chain assembly and trust verification

A shallow embedding of the Go package `core` of chaintool (`certparsing.go`,
`certpool.go`, `certinfo.go`, `certchain.go`) and theorems about it.

Conventions of the embedding:

* A Go function returning `(T, error)` returns `Except GoError T`.
* Package-level variables (`certPoolCache`, `certPoolSubjectSetCache`) and the
  observable side effects (bundle loads, HTTP fetches, trust-engine calls,
  lines written to stderr) live in an explicit `World` that is threaded
  through every effectful function; a Go `panic` is the `Outcome.panic` result.
* Functions of the Go standard library and of third-party packages
  (`encoding/pem`, `crypto/x509`, `crypto/tls`, `net/http`, `io/ioutil`,
  `gocertifi`) are not part of the repository: they are fields of `Env`, and
  the general theorems hold for all of them. `demoEnv` is one small instance,
  used to evaluate the definitions on concrete inputs.
* The loop of `ChainFromCertificateAndInternet` has no bound in the source; its
  embedding takes a bound on the number of iterations and returns `none` when
  the loop is still running after that many.
-/

set_option linter.dupNamespace false

namespace Chaintool

/-! ## Data model -/

/-- A byte string (`[]byte`), one natural number per byte. -/
abbrev Bytes := List Nat

/-- The visible part and the spare capacity of a non-nil Go byte slice. -/
structure GoSlice where
  /-- The bytes `s[0:len(s)]`. -/
  elems : Bytes
  /-- The bytes of the backing array between `len(s)` and `cap(s)`. -/
  spare : Bytes
deriving DecidableEq, Repr

/-- A Go `[]byte` value whose nil-ness and capacity matter; `none` is the nil slice. -/
abbrev ByteSlice := Option GoSlice

/-- The bytes `s[0:len(s)]` of a slice (none for the nil slice). -/
def ByteSlice.bytes : ByteSlice → Bytes
  | none => []
  | some s => s.elems

/-- The Go slice expression `s[:n]`: `none` when it panics (`n > cap(s)`). -/
def ByteSlice.upTo : ByteSlice → Nat → Option Bytes
  | none, n => if n = 0 then some [] else none
  | some s, n =>
    if n ≤ s.elems.length + s.spare.length then some ((s.elems ++ s.spare).take n) else none

/-- The dynamic type and value of an `x509.Certificate.PublicKey`. -/
inductive CryptoPublicKey where
  /-- The type `*rsa.PublicKey`: modulus and public exponent. -/
  | rsa (N : Int) (E : Int)
  /-- The type `*ecdsa.PublicKey`: curve name and point coordinates. -/
  | ecdsa (Curve : String) (X : Int) (Y : Int)
  /-- Any other dynamic type (DSA, Ed25519, nil). -/
  | other (kind : String)
deriving DecidableEq, Repr

/-- The type `rsa.PrivateKey`: the embedded public key and the private part. -/
structure RSAPrivateKey where
  N : Int
  E : Int
  D : Int
  Primes : List Int
deriving DecidableEq, Repr

/-- The type `ecdsa.PrivateKey`: the embedded public key and the private scalar. -/
structure ECDSAPrivateKey where
  Curve : String
  X : Int
  Y : Int
  D : Int
deriving DecidableEq, Repr

/-- The dynamic type and value of a non-nil `crypto.PrivateKey`. -/
inductive CryptoPrivateKey where
  | rsa (k : RSAPrivateKey)
  | ecdsa (k : ECDSAPrivateKey)
  | other (kind : String)
deriving DecidableEq, Repr

/-- The public component of an RSA private key (`k.PublicKey`). -/
def RSAPrivateKey.Public (k : RSAPrivateKey) : CryptoPublicKey := .rsa k.N k.E

/-- The public component of an ECDSA private key (`k.PublicKey`). -/
def ECDSAPrivateKey.Public (k : ECDSAPrivateKey) : CryptoPublicKey := .ecdsa k.Curve k.X k.Y

/-- The public component of a private key (`key.Public()`). -/
def CryptoPrivateKey.Public : CryptoPrivateKey → CryptoPublicKey
  | .rsa k => k.Public
  | .ecdsa k => k.Public
  | .other kind => .other kind

/-- The values of `x509.SignatureAlgorithm`. -/
inductive SignatureAlgorithm where
  | UnknownSignatureAlgorithm | MD2WithRSA | MD5WithRSA | SHA1WithRSA | SHA256WithRSA
  | SHA384WithRSA | SHA512WithRSA | DSAWithSHA1 | DSAWithSHA256 | ECDSAWithSHA1
  | ECDSAWithSHA256 | ECDSAWithSHA384 | ECDSAWithSHA512 | SHA256WithRSAPSS
  | SHA384WithRSAPSS | SHA512WithRSAPSS | PureEd25519
deriving DecidableEq, Repr

/-- The values of `x509.PublicKeyAlgorithm`. -/
inductive PublicKeyAlgorithm where
  | UnknownPublicKeyAlgorithm | RSA | DSA | ECDSA | Ed25519
deriving DecidableEq, Repr

/-- The fields of `x509.Certificate` that the package reads. -/
structure X509Certificate where
  Raw : Bytes
  RawSubject : Bytes
  SubjectCommonName : String
  IssuerCommonName : String
  SubjectKeyId : ByteSlice
  AuthorityKeyId : ByteSlice
  /-- The instant `NotAfter`, in nanoseconds since the epoch. -/
  NotAfter : Int
  DNSNames : List String
  SignatureAlgorithm : SignatureAlgorithm
  PublicKeyAlgorithm : PublicKeyAlgorithm
  PublicKey : CryptoPublicKey
  IssuingCertificateURL : List String
deriving DecidableEq, Repr

/-- The struct `core.Certificate`: a parsed certificate and an optional private key. -/
structure Certificate where
  Certificate : X509Certificate
  PrivateKey : Option CryptoPrivateKey
deriving DecidableEq, Repr

/-- The struct `core.CertificateChain`; `Leaf` is a pointer and may be nil. -/
structure CertificateChain where
  Leaf : Option Certificate
  Intermediates : List Certificate
deriving DecidableEq, Repr

/-- An `x509.CertPool`, represented by the certificates added to it, in order. -/
abbrev X509CertPool := List X509Certificate

/-- The function `x509.NewCertPool`. -/
def NewCertPool : X509CertPool := []

/-- The method `CertPool.AddCert`. -/
def X509CertPool.AddCert (p : X509CertPool) (c : X509Certificate) : X509CertPool := p ++ [c]

/-- The method `CertPool.Subjects`: the raw subject of every certificate of the pool. -/
def X509CertPool.Subjects (p : X509CertPool) : List Bytes := p.map (·.RawSubject)

/-- The struct `x509.VerifyOptions`, fields used by the package; the zero value of
`DNSName` is the empty string, which asks for no hostname check. -/
structure VerifyOptions where
  DNSName : String
  Intermediates : X509CertPool
  Roots : X509CertPool
  CurrentTime : Int
deriving DecidableEq, Repr

/-- A block returned by `pem.Decode`. -/
structure PemBlock where
  /-- The field `Type` of `pem.Block`. -/
  BlockType : String
  Bytes : Bytes
deriving DecidableEq, Repr

/-! ## Errors -/

/-- The non-nil errors of `x509.Certificate.Verify`, by dynamic type. -/
inductive X509VerifyError where
  /-- The type `x509.HostnameError`. -/
  | HostnameError (msg : String)
  /-- The type `x509.UnknownAuthorityError`. -/
  | UnknownAuthorityError (msg : String)
  /-- Any other dynamic type (expired, constraint violation, ...). -/
  | Other (msg : String)
deriving DecidableEq, Repr

/-- The text of a trust-engine error (`err.Error()`). -/
def X509VerifyError.Error : X509VerifyError → String
  | .HostnameError msg => msg
  | .UnknownAuthorityError msg => msg
  | .Other msg => msg

/-- A non-nil Go `error` as the package produces or forwards it, by dynamic type. -/
inductive GoError where
  /-- An untyped error: `fmt.Errorf`, `errors.New`, or a library error that no
  type switch of the package inspects. -/
  | errorString (msg : String)
  /-- A trust-engine error handed on as it is. -/
  | x509 (e : X509VerifyError)
  /-- The type `core.HostnameMismatchError`. -/
  | HostnameMismatchError (Certificate : Certificate) (Hostname : String)
  /-- The type `core.UnknownAuthorityError`. -/
  | UnknownAuthorityError
deriving DecidableEq, Repr

/-- The function `strings.Trim(s, cutset)` on character lists. -/
def trimChars (cutset : List Char) (s : List Char) : List Char :=
  ((s.dropWhile (cutset.contains ·)).reverse.dropWhile (cutset.contains ·)).reverse

/-- The function `formatVerifyError`, applied to the already formatted text. -/
def formatVerifyError (formatted : String) : String :=
  String.mk (trimChars [' ', '\n'] formatted.data)

/-- The method `Error` of every error value. -/
def GoError.Error : GoError → String
  | .errorString msg => msg
  | .x509 e => e.Error
  | .HostnameMismatchError c hostname =>
    formatVerifyError
      ("\nThe received certificate, which is valid for:\n\n"
        ++ "\n".intercalate (c.Certificate.DNSNames.map ("  - " ++ ·))
        ++ "\n\nDoesn't match the target hostname, which is:\n\n    "
        ++ hostname
        ++ "\n\nYou're probably using the wrong certificate for this use.\n")
  | .UnknownAuthorityError =>
    formatVerifyError
      ("\nUnable to verify the certificate chain up to trusted bundled root CA\n"
        ++ "certificate. This can be due to:\n\n"
        ++ "  - Using self-signed certificates\n\n"
        ++ "  - The server-side not serving the intermediate certificates needed to\n"
        ++ "    build a trust chain up to a bundled certificate\n\n"
        ++ "This should probably be corrected if you want your site to work for the\n"
        ++ "majority of users. In the second case, you might not see errors at\n"
        ++ "first, since modern browsers cache intermediate certificates, but you'll\n"
        ++ "see intermittent connection problems, so this should be solved anyway.\n")

/-! ## The library environment -/

/-- The library and operating-system functions the package calls. -/
structure Env where
  /-- The function `pem.Decode`: the next block and the rest of the input, or `none`
  when no block is found (Go then returns a nil block and the whole input). -/
  pemDecode : Bytes → Option (PemBlock × Bytes)
  /-- A found block consumes input: the rest is shorter than the input. -/
  pemDecode_shrinks : ∀ data b rest, pemDecode data = some (b, rest) → rest.length < data.length
  /-- The single-certificate DER decoder inside `x509.ParseCertificates`: the first
  certificate of the input and the bytes after it. -/
  derParseOne : Bytes → Except String (X509Certificate × Bytes)
  /-- A decoded certificate consumes input. -/
  derParseOne_shrinks : ∀ der c rest, derParseOne der = .ok (c, rest) → rest.length < der.length
  /-- The function `x509.ParsePKCS1PrivateKey`. -/
  ParsePKCS1PrivateKey : Bytes → Except String RSAPrivateKey
  /-- The function `x509.ParsePKCS8PrivateKey`. -/
  ParsePKCS8PrivateKey : Bytes → Except String CryptoPrivateKey
  /-- The function `x509.ParseECPrivateKey`. -/
  ParseECPrivateKey : Bytes → Except String ECDSAPrivateKey
  /-- The function `x509.MarshalPKCS1PrivateKey`. -/
  MarshalPKCS1PrivateKey : RSAPrivateKey → Bytes
  /-- The function `x509.MarshalECPrivateKey`. -/
  MarshalECPrivateKey : ECDSAPrivateKey → Except String Bytes
  /-- The function `pem.EncodeToMemory`, for a block without headers. -/
  pemEncodeToMemory : PemBlock → Bytes
  /-- The function `ioutil.ReadFile`. -/
  ReadFile : String → Except String Bytes
  /-- The function `http.Get`, then `ioutil.ReadAll` of the response body: the
  outer error is that of `http.Get`, the inner one that of `ReadAll`. The network
  answers a URL the same way throughout a run. -/
  httpGet : String → Except String (Except String Bytes)
  /-- The call `tls.Dial("tcp", net.JoinHostPort(host, port), config)` with the given
  `RootCAs` and `InsecureSkipVerify`, followed by `ConnectionState().PeerCertificates`. -/
  tlsDial : String → String → X509CertPool → Except String (List X509Certificate)
  /-- A completed handshake has at least one peer certificate: the client of
  `crypto/tls` fails the handshake on an empty certificate message. -/
  tlsDial_nonempty : ∀ host port roots peers, tlsDial host port roots = .ok peers → peers ≠ []
  /-- The method `x509.Certificate.Verify`, the trust engine. -/
  x509Verify : X509Certificate → VerifyOptions → Except X509VerifyError (List (List X509Certificate))
  /-- The function `gocertifi.CACerts`, the loader of the bundled roots. -/
  CACerts : Except String X509CertPool
  /-- The value of `time.Now()`, in nanoseconds since the epoch. -/
  now : Int

/-! ## Process state and effects -/

/-- The package-level variables and the record of the side effects so far. -/
structure World where
  /-- The variable `certPoolCache` (none is nil). -/
  certPoolCache : Option X509CertPool
  /-- The variable `certPoolSubjectSetCache`: the keys of the map (none is nil). -/
  certPoolSubjectSetCache : Option (List Bytes)
  /-- The number of calls of `gocertifi.CACerts` so far. -/
  loads : Nat
  /-- The URLs passed to `http.Get` so far, oldest first. -/
  fetched : List String
  /-- The calls of the trust engine so far, oldest first. -/
  verified : List (X509Certificate × VerifyOptions)
  /-- The text written to stderr so far, oldest first. -/
  stderr : List String
deriving DecidableEq, Repr

/-- The state of a fresh process. -/
def World.init : World :=
  { certPoolCache := none, certPoolSubjectSetCache := none, loads := 0,
    fetched := [], verified := [], stderr := [] }

/-- The result of running an effectful function: it returns, or it panics. -/
inductive Outcome (α : Type) where
  | ret (a : α) (w : World)
  | panic (msg : String) (w : World)
deriving Repr

/-- An effectful function of the package. -/
def Go (α : Type) : Type := World → Outcome α

/-- Return a value without any effect. -/
def Go.pure {α : Type} (a : α) : Go α := fun w => .ret a w

/-- Run `m`, then `f` on its value; a panic of `m` ends the run. -/
def Go.bind {α β : Type} (m : Go α) (f : α → Go β) : Go β := fun w =>
  match m w with
  | .ret a w1 => f a w1
  | .panic msg w1 => .panic msg w1

/-- The Go statement `panic(msg)`. -/
def Go.panic {α : Type} (msg : String) : Go α := fun w => .panic msg w

instance : Monad Go where
  pure := Go.pure
  bind := Go.bind

/-! ## Trust store (`certpool.go`) -/

/-- The function `CertPool`: the cached pool, loaded on first use. -/
def CertPool (env : Env) : Go (Except GoError X509CertPool) := fun w =>
  match w.certPoolCache with
  | some pool => .ret (.ok pool) w
  | none =>
    match env.CACerts with
    | .ok pool => .ret (.ok pool) { w with certPoolCache := some pool, loads := w.loads + 1 }
    | .error err =>
      .ret (.error (.errorString ("Unable to load certificates from built-in store: " ++ err)))
        { w with certPoolCache := none, loads := w.loads + 1 }

/-- The function `MustCertPool`: the pool, or a panic when it cannot be loaded. -/
def MustCertPool (env : Env) : Go X509CertPool := fun w =>
  match CertPool env w with
  | .ret (.ok rv) w1 => .ret rv w1
  | .ret (.error err) w1 => .panic err.Error w1
  | .panic msg w1 => .panic msg w1

/-- The statement `m[key] = struct{}{}` on the key set of a map. -/
def mapInsert (m : List Bytes) (key : Bytes) : List Bytes :=
  if key ∈ m then m else m ++ [key]

/-- The function `certPoolSubjectSet`: the cached set of raw subjects of the pool. -/
def certPoolSubjectSet (env : Env) : Go (List Bytes) := fun w =>
  match w.certPoolSubjectSetCache with
  | some set => .ret set w
  | none =>
    match MustCertPool env { w with certPoolSubjectSetCache := some [] } with
    | .panic msg w1 => .panic msg w1
    | .ret pool w1 =>
      let set := pool.Subjects.foldl mapInsert []
      .ret set { w1 with certPoolSubjectSetCache := some set }

/-- The function `certInPool`: is the raw subject a key of the subject set. -/
def certInPool (env : Env) (cert : X509Certificate) : Go Bool := fun w =>
  match certPoolSubjectSet env w with
  | .panic msg w1 => .panic msg w1
  | .ret set w1 => .ret (decide (cert.RawSubject ∈ set)) w1

/-! ## Certificate information (`certinfo.go`) -/

/-- One lower-case hexadecimal digit. -/
def hexDigit (n : Nat) : Char :=
  if n < 10 then Char.ofNat (48 + n) else Char.ofNat (87 + n)

/-- The verb `%x` of `fmt` on a byte string: two lower-case digits per byte. -/
def hexBytes (b : Bytes) : String :=
  String.mk (b.flatMap fun x => [hexDigit (x / 16 % 16), hexDigit (x % 16)])

/-- The method `Certificate.ReadableSubject`; slicing `SubjectKeyId[:4]` panics when
the slice has a capacity below four. -/
def Certificate.ReadableSubject (c : Chaintool.Certificate) : Go String :=
  match c.Certificate.SubjectKeyId.upTo 4 with
  | none => Go.panic "runtime error: slice bounds out of range"
  | some id => pure (hexBytes id ++ " (" ++ c.Certificate.SubjectCommonName ++ ")")

/-- The method `Certificate.IsBundled`. -/
def Certificate.IsBundled (env : Env) (c : Chaintool.Certificate) : Go Bool :=
  certInPool env c.Certificate

/-! ## Parsing (`certparsing.go`) -/

/-- The `for` loop of `parseCertificates`: the bodies of the `CERTIFICATE` blocks
found so far and the input left when `pem.Decode` finds no block. The first
argument bounds the number of iterations; `parseCertificates` passes more than
the loop can use. -/
def scanCertificateBlocks (env : Env) : Nat → Bytes → List Bytes → List Bytes × Bytes
  | 0, data, derCertificates => (derCertificates, data)
  | fuel + 1, data, derCertificates =>
    match env.pemDecode data with
    | none => (derCertificates, data)
    | some (block, rest) =>
      if block.BlockType ≠ "CERTIFICATE" then
        scanCertificateBlocks env fuel rest derCertificates
      else
        scanCertificateBlocks env fuel rest (derCertificates ++ [block.Bytes])

/-- The loop of the library function `x509.ParseCertificates`: decode one
certificate after the other until the input is used up. The first argument bounds
the number of iterations; `x509ParseCertificates` passes more than the loop can
use, since every decoded certificate consumes input. -/
def x509ParseCertificatesLoop (env : Env) :
    Nat → Bytes → List X509Certificate → Except String (List X509Certificate)
  | 0, _, certs => .ok certs
  | fuel + 1, der, certs =>
    if der.length > 0 then
      match env.derParseOne der with
      | .error err => .error err
      | .ok (cert, rest) => x509ParseCertificatesLoop env fuel rest (certs ++ [cert])
    else .ok certs

/-- The library function `x509.ParseCertificates`. -/
def x509ParseCertificates (env : Env) (der : Bytes) : Except String (List X509Certificate) :=
  x509ParseCertificatesLoop env (der.length + 1) der []

/-- The function `parseCertificates`. -/
def parseCertificates (env : Env) (data : Bytes) : Except GoError (List X509Certificate) :=
  let scanned := scanCertificateBlocks env (data.length + 1) data []
  let derCertificates := scanned.1
  let data1 := if derCertificates.length > 0 then derCertificates.flatten else scanned.2
  match x509ParseCertificates env data1 with
  | .error err => .error (.errorString err)
  | .ok rv => .ok rv

/-- The function `warning`: one formatted text written to stderr. -/
def warning (text : String) : Go Unit := fun w =>
  .ret () { w with stderr := w.stderr ++ ["Warning: " ++ text] }

/-- The function `parseCertificate`. -/
def parseCertificate (env : Env) (data : Bytes) : Go (Except GoError X509Certificate) :=
  match parseCertificates env data with
  | .error err => pure (.error err)
  | .ok certs =>
    match certs with
    | [] => pure (.error (.errorString "No certificates were found"))
    | first :: more =>
      if (first :: more).length > 1 then do
        warning "More than one certificate found, considering only the first"
        pure (.ok first)
      else pure (.ok first)

/-- The function `strings.HasSuffix`. -/
def HasSuffix (s suffix : String) : Bool := suffix.data.isSuffixOf s.data

/-- The function `parsePrivateKey`. -/
def parsePrivateKey (env : Env) (data : Bytes) : Except GoError CryptoPrivateKey :=
  let unwrapped : Except GoError Bytes :=
    match env.pemDecode data with
    | some (pemBlock, _) =>
      if !HasSuffix pemBlock.BlockType "PRIVATE KEY" then
        .error (.errorString "Found non-key PEM block.")
      else .ok pemBlock.Bytes
    | none => .ok data
  match unwrapped with
  | .error err => .error err
  | .ok data1 =>
    match env.ParsePKCS1PrivateKey data1 with
    | .ok key => .ok (.rsa key)
    | .error _ =>
      match env.ParsePKCS8PrivateKey data1 with
      | .ok (.rsa key) => .ok (.rsa key)
      | .ok (.ecdsa key) => .ok (.ecdsa key)
      | .ok (.other _) =>
        .error (.errorString "Found unknown private key type in PKCS#8 wrapping.")
      | .error _ =>
        match env.ParseECPrivateKey data1 with
        | .ok key => .ok (.ecdsa key)
        | .error _ => .error (.errorString "Failed to parse private key.")

/-- The method `LoadCertificateFromFile`; the value returned without error is the
one the method stores in the field `Certificate` of its receiver. -/
def LoadCertificateFromFile (env : Env) (certPath : String) : Go (Except GoError X509Certificate) :=
  match env.ReadFile certPath with
  | .error err => pure (.error (.errorString err))
  | .ok certData => parseCertificate env certData

/-- The method `LoadCertificateFromURL`; the value returned without error is the
one the method stores in the field `Certificate` of its receiver. -/
def LoadCertificateFromURL (env : Env) (url : String) : Go (Except GoError X509Certificate) :=
  fun w =>
    let w1 := { w with fetched := w.fetched ++ [url] }
    match env.httpGet url with
    | .error err =>
      .ret (.error (.errorString ("Unable to fetch certificate from " ++ url ++ ": " ++ err))) w1
    | .ok (.error err) =>
      .ret (.error (.errorString ("Unable to fetch certificate from " ++ url ++ ": " ++ err))) w1
    | .ok (.ok certData) =>
      match parseCertificate env certData w1 with
      | .panic msg w2 => .panic msg w2
      | .ret (.error err) w2 =>
        .ret (.error (.errorString
          ("Unable to parse certificate from " ++ url ++ ": " ++ err.Error))) w2
      | .ret (.ok x509Cert) w2 => .ret (.ok x509Cert) w2

/-- The method `LoadPrivateKeyFromFile`; the value returned without error is the
one the method stores in the field `PrivateKey` of its receiver. -/
def LoadPrivateKeyFromFile (env : Env) (keyPath : String) : Except GoError CryptoPrivateKey :=
  match env.ReadFile keyPath with
  | .error err => .error (.errorString err)
  | .ok keyData => parsePrivateKey env keyData

/-- The method `Certificate.EnsureCertificateAndKeyMatch`; `none` is the nil error. -/
def Certificate.EnsureCertificateAndKeyMatch (c : Chaintool.Certificate) : Option GoError :=
  match c.Certificate.PublicKey with
  | .rsa N _ =>
    match c.PrivateKey with
    | some (.rsa rsaPrivateKey) =>
      if N ≠ rsaPrivateKey.N then
        some (.errorString "Private RSA key doesn't match public RSA key")
      else none
    | _ => some (.errorString "Public key is *rsa.PublicKey but private key is *rsa.PrivateKey")
  | .ecdsa _ X Y =>
    match c.PrivateKey with
    | some (.ecdsa ecdsaPrivateKey) =>
      if X ≠ ecdsaPrivateKey.X ∨ Y ≠ ecdsaPrivateKey.Y then
        some (.errorString "Private ECDSA key doesn't match public ECDSA key")
      else none
    | _ =>
      some (.errorString "Public key is *ecdsa.PublicKey but private key is *ecdsa.PrivateKey")
  | .other _ => some (.errorString "Unknown key algorithm")

/-- The function `CertificateWithKeyFromFiles`. -/
def CertificateWithKeyFromFiles (env : Env) (certPath keyPath : String) :
    Go (Except GoError Certificate) := fun w =>
  match LoadCertificateFromFile env certPath w with
  | .panic msg w1 => .panic msg w1
  | .ret (.error err) w1 => .ret (.error err) w1
  | .ret (.ok x509Cert) w1 =>
    match LoadPrivateKeyFromFile env keyPath with
    | .error err => .ret (.error err) w1
    | .ok privateKey =>
      let rv : Certificate := { Certificate := x509Cert, PrivateKey := some privateKey }
      match rv.EnsureCertificateAndKeyMatch with
      | some err => .ret (.error err) w1
      | none => .ret (.ok rv) w1

/-- The function `CertificateFromURL`. -/
def CertificateFromURL (env : Env) (url : String) : Go (Except GoError Certificate) := fun w =>
  match LoadCertificateFromURL env url w with
  | .panic msg w1 => .panic msg w1
  | .ret (.error err) w1 => .ret (.error err) w1
  | .ret (.ok x509Cert) w1 => .ret (.ok { Certificate := x509Cert, PrivateKey := none }) w1

/-! ## Chain building and verification (`certchain.go`) -/

/-- The call `cert.Verify(opts)` of the trust engine, recorded in the world. -/
def x509CertificateVerify (env : Env) (cert : X509Certificate) (opts : VerifyOptions) :
    Go (Except X509VerifyError (List (List X509Certificate))) := fun w =>
  .ret (env.x509Verify cert opts) { w with verified := w.verified ++ [(cert, opts)] }

/-- The function `FetchCertificateChain`. -/
def FetchCertificateChain (env : Env) (host port : String) :
    Go (Except GoError CertificateChain) := fun w =>
  match MustCertPool env w with
  | .panic msg w1 => .panic msg w1
  | .ret roots w1 =>
    match env.tlsDial host port roots with
    | .error err =>
      .ret (.error (.errorString ("Unable to establish connection to server: " ++ err))) w1
    | .ok peerCertificates =>
      match peerCertificates with
      | [] => .ret (.ok { Leaf := none, Intermediates := [] }) w1
      | cert :: more =>
        .ret (.ok { Leaf := some { Certificate := cert, PrivateKey := none },
                    Intermediates := more.map fun x => { Certificate := x, PrivateKey := none } }) w1

/-- The fields of `iam.ServerCertificate` that `ChainFromAWS` reads; `none` is nil. -/
structure ServerCertificate where
  CertificateBody : Option Bytes
  CertificateChain : Option Bytes
deriving DecidableEq, Repr

/-- The function `ChainFromAWS`. -/
def ChainFromAWS (env : Env) (awsCertificate : ServerCertificate) :
    Go (Except GoError CertificateChain) := fun w =>
  match awsCertificate.CertificateBody with
  | none => .ret (.error (.errorString "AWS Certificate doesn't have a body.")) w
  | some body =>
    match parseCertificate env body w with
    | .panic msg w1 => .panic msg w1
    | .ret (.error err) w1 =>
      .ret (.error (.errorString ("Unable to parse certificate body: " ++ err.Error))) w1
    | .ret (.ok leafX509) w1 =>
      let leaf : Certificate := { Certificate := leafX509, PrivateKey := none }
      match awsCertificate.CertificateChain with
      | none => .ret (.ok { Leaf := some leaf, Intermediates := [] }) w1
      | some chain =>
        match parseCertificates env chain with
        | .error err =>
          .ret (.error (.errorString
            ("Unable to parse intermediate certificates: " ++ err.Error))) w1
        | .ok intermediatesX509 =>
          .ret (.ok { Leaf := some leaf,
                      Intermediates := intermediatesX509.map fun x =>
                        { Certificate := x, PrivateKey := none } }) w1

/-- The second `for` loop of `ChainFromCertificateAndIntermediatesData`, after the
leaf has been skipped: append certificates until one is bundled. -/
def collectIntermediates (env : Env) : List X509Certificate → List Certificate → Go (List Certificate)
  | [], intermediates => pure intermediates
  | x509Cert :: more, intermediates => fun w =>
    let cert : Certificate := { Certificate := x509Cert, PrivateKey := none }
    match cert.IsBundled env w with
    | .panic msg w1 => .panic msg w1
    | .ret true w1 => .ret intermediates w1
    | .ret false w1 => collectIntermediates env more (intermediates ++ [cert]) w1

/-- The function `ChainFromCertificateAndIntermediatesData`. -/
def ChainFromCertificateAndIntermediatesData (env : Env) (leaf : Certificate)
    (intermediatesData : Bytes) : Go (Except GoError CertificateChain) := fun w =>
  match parseCertificates env intermediatesData with
  | .error err =>
    .ret (.error (.errorString ("Unable to parse intermediate certificates: " ++ err.Error))) w
  | .ok intermediatesX509 =>
    let intermediatesPool := intermediatesX509.foldl X509CertPool.AddCert NewCertPool
    match MustCertPool env w with
    | .panic msg w1 => .panic msg w1
    | .ret roots w1 =>
      match x509CertificateVerify env leaf.Certificate
          { Roots := roots, CurrentTime := env.now, Intermediates := intermediatesPool,
            DNSName := "" } w1 with
      | .panic msg w2 => .panic msg w2
      | .ret (.error (.UnknownAuthorityError _)) w2 => .ret (.error .UnknownAuthorityError) w2
      | .ret (.error err) w2 =>
        .ret (.error (.errorString ("Unable to verify certificate chain: " ++ err.Error))) w2
      | .ret (.ok verifiedChains) w2 =>
        match verifiedChains with
        | [] => .panic "runtime error: index out of range" w2
        | first :: _ =>
          match collectIntermediates env first.tail [] w2 with
          | .panic msg w3 => .panic msg w3
          | .ret intermediates w3 =>
            .ret (.ok { Leaf := some leaf, Intermediates := intermediates }) w3

/-- The inner `for` loop of `ChainFromCertificateAndInternet`: fetch from each URL in
turn until one fetch succeeds; `err` is the error of the last failed fetch. -/
def fetchFirst (env : Env) : List String → GoError → Go (Except GoError Certificate)
  | [], err => pure (.error err)
  | url :: more, _ => fun w =>
    match CertificateFromURL env url w with
    | .panic msg w1 => .panic msg w1
    | .ret (.ok cert) w1 => .ret (.ok cert) w1
    | .ret (.error err) w1 => fetchFirst env more err w1

/-- The outer `for` loop of `ChainFromCertificateAndInternet`. The loop has no bound
of its own: the first argument bounds the number of iterations, and `none` means
that the loop is still running after that many. -/
def internetWalk (env : Env) :
    Nat → Certificate → Bool → CertificateChain → World →
      Option (Outcome (Except GoError CertificateChain))
  | 0, _, _, _, _ => none
  | fuel + 1, currentCert, isLeafCert, rv, w =>
    match currentCert.IsBundled env w with
    | .panic msg w1 => some (.panic msg w1)
    | .ret true w1 => some (.ret (.ok rv) w1)
    | .ret false w1 =>
      let rv1 : CertificateChain :=
        if !isLeafCert then { rv with Intermediates := rv.Intermediates ++ [currentCert] } else rv
      if currentCert.Certificate.IssuingCertificateURL.length = 0 then
        match currentCert.ReadableSubject w1 with
        | .panic msg w2 => some (.panic msg w2)
        | .ret subject w2 =>
          some (.ret (.error (.errorString
            ("Error fetching intermediates: cert for " ++ subject
              ++ " doesn't point to parent"))) w2)
      else
        match currentCert.ReadableSubject w1 with
        | .panic msg w2 => some (.panic msg w2)
        | .ret subject w2 =>
          match fetchFirst env currentCert.Certificate.IssuingCertificateURL
              (.errorString ("Error fetching intermediates: cert for " ++ subject
                ++ " doesn't point to parent")) w2 with
          | .panic msg w3 => some (.panic msg w3)
          | .ret (.error err) w3 =>
            some (.ret (.error (.errorString
              ("Unable to fetch next cert in chain: " ++ err.Error))) w3)
          | .ret (.ok nextCert) w3 => internetWalk env fuel nextCert false rv1 w3

/-- The function `ChainFromCertificateAndInternet`, run for at most `fuel` iterations
of its loop. -/
def ChainFromCertificateAndInternet (env : Env) (fuel : Nat) (leaf : Certificate) :
    World → Option (Outcome (Except GoError CertificateChain)) :=
  internetWalk env fuel leaf true { Leaf := some leaf, Intermediates := [] }

/-- The function `ChainFromFullChainData`. -/
def ChainFromFullChainData (env : Env) (chainData : Bytes) : Except GoError CertificateChain :=
  match parseCertificates env chainData with
  | .error err => .error (.errorString ("Unable to parse certificates: " ++ err.Error))
  | .ok certsX509 =>
    match certsX509 with
    | [] => .error (.errorString "Found no certificates in the given file.")
    | first :: more =>
      .ok { Leaf := some { Certificate := first, PrivateKey := none },
            Intermediates := more.map fun x => { Certificate := x, PrivateKey := none } }

/-- The method `CertificateChain.Verify`; `none` is the nil error. -/
def CertificateChain.Verify (env : Env) (c : CertificateChain) (dnsName : String) :
    Go (Option GoError) := fun w =>
  match MustCertPool env w with
  | .panic msg w1 => .panic msg w1
  | .ret roots w1 =>
    let verifyOptions : VerifyOptions :=
      { Roots := roots, CurrentTime := env.now, Intermediates := NewCertPool, DNSName := "" }
    let verifyOptions1 : VerifyOptions :=
      if dnsName ≠ "" then { verifyOptions with DNSName := dnsName } else verifyOptions
    let verifyOptions2 : VerifyOptions :=
      { verifyOptions1 with
        Intermediates := c.Intermediates.foldl (fun pool cert => pool.AddCert cert.Certificate)
          verifyOptions1.Intermediates }
    match c.Leaf with
    | none => .panic "runtime error: invalid memory address or nil pointer dereference" w1
    | some leaf =>
      match x509CertificateVerify env leaf.Certificate verifyOptions2 w1 with
      | .panic msg w2 => .panic msg w2
      | .ret (.ok _) w2 => .ret none w2
      | .ret (.error (.HostnameError _)) w2 =>
        .ret (some (.HostnameMismatchError leaf dnsName)) w2
      | .ret (.error (.UnknownAuthorityError _)) w2 => .ret (some .UnknownAuthorityError) w2
      | .ret (.error err) w2 => .ret (some (.x509 err)) w2

/-! ## Time and float64 arithmetic (`time`, IEEE 754)

A finite `float64` value is the rational number it stands for, and an operation
on `float64` values is the exact operation followed by rounding to the nearest
value with 53 significant bits, ties to even. The magnitudes that occur below
are far from the overflow and underflow thresholds of the format. -/

/-- Round to the nearest integer, ties to the even one. -/
def roundHalfEven (x : ℚ) : ℤ :=
  if x - ⌊x⌋ < 1 / 2 then ⌊x⌋
  else if 1 / 2 < x - ⌊x⌋ then ⌊x⌋ + 1
  else if ⌊x⌋ % 2 = 0 then ⌊x⌋ else ⌊x⌋ + 1

/-- Round to `float64`: keep 53 significant bits, round to nearest, ties to even. -/
def f64 (x : ℚ) : ℚ :=
  if x = 0 then 0
  else roundHalfEven (x / 2 ^ (Int.log 2 |x| - 52)) * 2 ^ (Int.log 2 |x| - 52)

/-- The method `Time.Sub` on instants given in nanoseconds since the epoch, neither
with a monotonic clock reading: the difference, held to the range of `int64`. -/
def timeSub (t u : Int) : Int :=
  if t - u < -(2 ^ 63) then -(2 ^ 63)
  else if 2 ^ 63 - 1 < t - u then 2 ^ 63 - 1
  else t - u

/-- The method `Duration.Hours`: `float64(hour) + float64(nsec)/(60*60*1e9)` with
`hour := d / Hour` and `nsec := d % Hour`, both truncating toward zero. -/
def durationHours (d : Int) : ℚ :=
  f64 (f64 (d.tdiv 3600000000000) + f64 (f64 (d.tmod 3600000000000) / 3600000000000))

/-- The method `Certificate.DaysToExpire`. -/
def Certificate.DaysToExpire (env : Env) (c : Chaintool.Certificate) : ℚ :=
  f64 (durationHours (timeSub c.Certificate.NotAfter env.now) / 24)

/-! ## Warnings (`certwarning.go`) -/

/-- The interface `Warning` with its three implementations. -/
inductive Warning where
  | ExpirationWarning (c : Certificate)
  | ObsoleteAlgorithmWarning (c : Certificate)
  | KeyTooShortWarning (c : Certificate)
deriving DecidableEq

/-- The method `big.Int.BitLen`: the length of the absolute value in bits. -/
def BitLen (n : Int) : Nat := Nat.size n.natAbs

/-- The function `TryExpirationWarning`; `none` is the nil interface. -/
def TryExpirationWarning (env : Env) (c : Certificate) : Option Warning :=
  if c.DaysToExpire env < 90 then some (.ExpirationWarning c) else none

/-- The function `TryObsoleteAlgorithmWarning`. -/
def TryObsoleteAlgorithmWarning (env : Env) (c : Certificate) : Go (Option Warning) := fun w =>
  let isObsoleteAlgorithm : Bool :=
    match c.Certificate.SignatureAlgorithm with
    | .SHA1WithRSA | .DSAWithSHA1 | .ECDSAWithSHA1 | .MD2WithRSA | .MD5WithRSA => true
    | _ => false
  match c.IsBundled env w with
  | .panic msg w1 => .panic msg w1
  | .ret bundled w1 =>
    if !bundled && isObsoleteAlgorithm then .ret (some (.ObsoleteAlgorithmWarning c)) w1
    else .ret none w1

/-- The function `TryKeyTooShortWarning`; `IsBundled` is called only for an RSA key
shorter than 2048 bits, as `&&` evaluates its right operand only then. -/
def TryKeyTooShortWarning (env : Env) (c : Certificate) : Go (Option Warning) := fun w =>
  match c.Certificate.PublicKey with
  | .rsa N _ =>
    if BitLen N < 2048 then
      match c.IsBundled env w with
      | .panic msg w1 => .panic msg w1
      | .ret bundled w1 =>
        if !bundled then .ret (some (.KeyTooShortWarning c)) w1 else .ret none w1
    else .ret none w
  | _ => .ret none w

/-- The variable `warningTriers`. -/
def warningTriers (env : Env) : List (Certificate → Go (Option Warning)) :=
  [fun c => pure (TryExpirationWarning env c),
   TryObsoleteAlgorithmWarning env,
   TryKeyTooShortWarning env]

/-- The `for` loop of `Certificate.Warnings` over the remaining triers. -/
def warningsLoop : List (Certificate → Go (Option Warning)) → Certificate → List Warning →
    Go (List Warning)
  | [], _, rv => pure rv
  | trier :: more, c, rv => fun w =>
    match trier c w with
    | .panic msg w1 => .panic msg w1
    | .ret (some x) w1 => warningsLoop more c (rv ++ [x]) w1
    | .ret none w1 => warningsLoop more c rv w1

/-- The method `Certificate.Warnings`. -/
def Certificate.Warnings (env : Env) (c : Chaintool.Certificate) : Go (List Warning) :=
  warningsLoop (warningTriers env) c []

/-! ## PEM output (`certpem.go`) -/

/-- The method `Certificate.PrivateKeyToPEM`. -/
def Certificate.PrivateKeyToPEM (env : Env) (c : Chaintool.Certificate) : Except GoError Bytes :=
  match c.PrivateKey with
  | some (.ecdsa pKey) =>
    match env.MarshalECPrivateKey pKey with
    | .error err => .error (.errorString err)
    | .ok der => .ok (env.pemEncodeToMemory { BlockType := "EC" ++ " PRIVATE KEY", Bytes := der })
  | some (.rsa pKey) =>
    .ok (env.pemEncodeToMemory
      { BlockType := "RSA" ++ " PRIVATE KEY", Bytes := env.MarshalPKCS1PrivateKey pKey })
  | some (.other kind) => .error (.errorString ("Unknown private key type: " ++ kind))
  | none => .error (.errorString "Unknown private key type: <nil>")

/-- The method `Certificate.CertificateToPEM`. -/
def Certificate.CertificateToPEM (env : Env) (c : Chaintool.Certificate) : Bytes :=
  env.pemEncodeToMemory { BlockType := "CERTIFICATE", Bytes := c.Certificate.Raw }

/-- The method `CertificateChain.IntermediatesToPEM`. -/
def CertificateChain.IntermediatesToPEM (env : Env) (c : CertificateChain) : Bytes :=
  c.Intermediates.foldl (fun buf cert => buf ++ cert.CertificateToPEM env) []

/-! ## Readable output (`certinfo.go`, `certwarning.go`, `lines.go`, `util.go`) -/

/-- The formatting functions of the libraries whose text the package prints as it is. -/
structure Formatters where
  /-- The verb `%.2f` of `fmt` on a float64. -/
  float2 : ℚ → String
  /-- The method `time.Time.String`, on an instant in nanoseconds since the epoch. -/
  timeString : Int → String
  /-- The method `x509.SignatureAlgorithm.String`. -/
  signatureAlgorithmString : SignatureAlgorithm → String
  /-- The function `wordwrap.WrapString`. -/
  WrapString : String → Nat → String

/-- The method `Certificate.ReadableIssuer`; slicing `AuthorityKeyId[:4]` panics when
the slice has a capacity below four. -/
def Certificate.ReadableIssuer (c : Chaintool.Certificate) : Go String :=
  match c.Certificate.AuthorityKeyId with
  | none => pure "Unsigned"
  | some _ =>
    if c.Certificate.AuthorityKeyId.bytes = c.Certificate.SubjectKeyId.bytes then
      pure "Self-signed"
    else
      match c.Certificate.AuthorityKeyId.upTo 4 with
      | none => Go.panic "runtime error: slice bounds out of range"
      | some id => pure (hexBytes id ++ " (" ++ c.Certificate.IssuerCommonName ++ ")")

/-- The method `Certificate.ReadableExpiration`. -/
def Certificate.ReadableExpiration (fmt : Formatters) (env : Env) (c : Chaintool.Certificate) :
    String :=
  fmt.float2 (c.DaysToExpire env) ++ " days (" ++ fmt.timeString c.Certificate.NotAfter ++ ")"

/-- The method `Certificate.ReadableSignatureAlgorithm`. -/
def Certificate.ReadableSignatureAlgorithm (fmt : Formatters) (c : Chaintool.Certificate) :
    String :=
  fmt.signatureAlgorithmString c.Certificate.SignatureAlgorithm

/-- The method `Certificate.ReadablePublicKeyAlgorithm`. -/
def Certificate.ReadablePublicKeyAlgorithm (c : Chaintool.Certificate) : String :=
  match c.Certificate.PublicKeyAlgorithm with
  | .RSA => "RSA"
  | .DSA => "DSA"
  | .ECDSA => "ECDSA"
  | _ => "Unknown algorithm"

/-- The method `Certificate.ReadableKeyBitLength`; the verb `%d` on an `int` gives its
decimal digits. -/
def Certificate.ReadableKeyBitLength (c : Chaintool.Certificate) : String :=
  match c.Certificate.PublicKey with
  | .rsa N _ => Nat.repr (BitLen N)
  | .ecdsa _ X _ => Nat.repr (BitLen X)
  | .other _ => "[error: unsupported signature algorithm]"

/-- The struct `core.Lines`. -/
structure Lines where
  Lines : List String
deriving DecidableEq, Repr

/-- The function `NewLines`. -/
def NewLines : Lines := { Lines := [] }

/-- The method `Lines.Print`, applied to the already formatted text. -/
def Lines.Print (l : Chaintool.Lines) (formatted : String) : Chaintool.Lines :=
  { Lines := l.Lines ++ [formatted] }

/-- The method `Lines.AppendLines`. -/
def Lines.AppendLines (l otherLines : Chaintool.Lines) : Chaintool.Lines :=
  { Lines := l.Lines ++ otherLines.Lines }

/-- The method `Lines.Indent`. -/
def Lines.Indent (l : Chaintool.Lines) (indent : String) : Chaintool.Lines :=
  { Lines := l.Lines.map fun line => indent ++ line }

/-- The method `Lines.Clone`. -/
def Lines.Clone (l : Chaintool.Lines) : Chaintool.Lines :=
  { Lines := NewLines.Lines ++ l.Lines }

/-- The method `Lines.IndentedBy`. -/
def Lines.IndentedBy (l : Chaintool.Lines) (indent : String) : Chaintool.Lines :=
  (l.Clone).Indent indent

/-- The function `strings.Split(s, "\n")` on character lists. -/
def splitNewlines : List Char → List (List Char)
  | [] => [[]]
  | ch :: more =>
    if ch = '\n' then [] :: splitNewlines more
    else
      match splitNewlines more with
      | [] => [[ch]]
      | first :: others => (ch :: first) :: others

/-- The function `wordWrapLines`; the conversion `uint(lineLength)` wraps a negative
length around. -/
def wordWrapLines (fmt : Formatters) (msg : String) (lineLength : Int) : List String :=
  (splitNewlines (fmt.WrapString msg (lineLength % 2 ^ 64).toNat).data).map String.mk

/-- The function `formatDescription`, applied to the already formatted text:
`strings.Trim(text, " \n")`, then every newline replaced by a space. -/
def formatDescription (formatted : String) : String :=
  String.mk ((trimChars [' ', '\n'] formatted.data).map fun ch => if ch = '\n' then ' ' else ch)

/-- The verb `%d` of `fmt` on an operand of type `string`: the verb does not fit the
type, and `fmt` prints the verb, the type and the value in its place. -/
def sprintfBadVerbD (operand : String) : String :=
  "%!d(string=" ++ operand ++ ")"

/-- The method `Description` of the three warnings. -/
def Warning.Description (fmt : Formatters) (env : Env) : Warning → String
  | .ExpirationWarning c =>
    formatDescription
      ("\nThis certificate is set to expire in " ++ fmt.float2 (c.DaysToExpire env)
        ++ " days, which is less than 3\n"
        ++ "months. You should probably prepare to renew this certificate (or any\n"
        ++ "descendant certificate) soon.\n")
  | .ObsoleteAlgorithmWarning c =>
    formatDescription
      ("\nThis certificate was signed using " ++ c.ReadableSignatureAlgorithm fmt
        ++ ", which is considered a broken/weak\n"
        ++ "algorithm. Modern browsers will tend to reject certificates signed in\n"
        ++ "this manner, and you should consider replacing this certificate.\n")
  | .KeyTooShortWarning c =>
    formatDescription
      ("\nThis certificate has a key that's too short ("
        ++ sprintfBadVerbD c.ReadableKeyBitLength
        ++ " bits) for today's\n"
        ++ "standards. RSA keys should have at least 2048 bits, and ECDSA curves\n"
        ++ "should respect the requirements established by the CA/B forum. You\n"
        ++ "should probably replace this certificate.\n")

/-- The loop of `domainLines`: one line per name, the first with the label. -/
def domainLinesLoop : List String → String → Lines → Lines
  | [], _, lines => lines
  | name :: more, prefix1, lines =>
    domainLinesLoop more "             " (lines.Print (prefix1 ++ name))

/-- The method `Certificate.domainLines`. -/
def Certificate.domainLines (c : Chaintool.Certificate) (_wrapLength : Int) : Lines :=
  domainLinesLoop c.Certificate.DNSNames "Valid for:   " NewLines

/-- The inner loop of `warningLines`: the wrapped lines of one description, the first
behind a dash. -/
def wrappedLinesLoop : List String → String → Lines → Lines
  | [], _, lines => lines
  | line :: more, subIndent, lines =>
    wrappedLinesLoop more "    " (lines.Print (subIndent ++ line))

/-- The outer loop of `warningLines`. -/
def warningLinesLoop (fmt : Formatters) (env : Env) (wrapLength : Int) :
    List Warning → Lines → Lines
  | [], lines => lines
  | warning :: more, lines =>
    warningLinesLoop fmt env wrapLength more
      (wrappedLinesLoop (wordWrapLines fmt (warning.Description fmt env) (wrapLength - 4))
        "  - " lines)

/-- The method `Certificate.warningLines`. -/
def Certificate.warningLines (fmt : Formatters) (env : Env) (c : Chaintool.Certificate)
    (wrapLength : Int) : Go Lines := fun w =>
  let lines := NewLines.Print "Warnings:"
  match c.Warnings env w with
  | .panic msg w1 => .panic msg w1
  | .ret warnings w1 =>
    if warnings.length ≤ 0 then .ret (lines.Print "  - None. Yay!") w1
    else .ret (warningLinesLoop fmt env wrapLength warnings lines) w1

/-- The method `Certificate.InfoLines`. -/
def Certificate.InfoLines (fmt : Formatters) (env : Env) (c : Chaintool.Certificate)
    (wrapLength : Int) : Go Lines := fun w =>
  let lines := NewLines
  match c.ReadableSubject w with
  | .panic msg w1 => .panic msg w1
  | .ret subject w1 =>
    let lines := lines.Print ("Subject:     " ++ subject)
    match c.ReadableIssuer w1 with
    | .panic msg w2 => .panic msg w2
    | .ret issuer w2 =>
      let lines := lines.Print ("Issuer:      " ++ issuer)
      let lines := lines.Print "Bundled in"
      match c.IsBundled env w2 with
      | .panic msg w3 => .panic msg w3
      | .ret bundled w3 =>
        let lines := lines.Print ("browsers?    " ++ toString bundled)
        let lines := lines.Print ("Expires in:  " ++ c.ReadableExpiration fmt env)
        let lines := lines.Print ("Sig. Algo.:  " ++ c.ReadableSignatureAlgorithm fmt)
        let lines := lines.Print ("Key Algo.:   " ++ c.ReadablePublicKeyAlgorithm)
        let lines := lines.Print ("Bit Length:  " ++ c.ReadableKeyBitLength)
        let lines := lines.AppendLines (c.domainLines wrapLength)
        match c.warningLines fmt env wrapLength w3 with
        | .panic msg w4 => .panic msg w4
        | .ret warningLines w4 => .ret (lines.AppendLines warningLines) w4

/-- The loop of `CertificateChain.InfoLines` over the intermediates; `index` counts
from zero. -/
def intermediatesInfoLoop (fmt : Formatters) (env : Env) (wrapLength : Int) :
    List Certificate → Nat → Lines → Go Lines
  | [], _, lines => pure lines
  | cert :: more, index, lines => fun w =>
    let lines := lines.Print ("Intermediate #" ++ Nat.repr (index + 1) ++ ":")
    match cert.InfoLines fmt env (wrapLength - 2) w with
    | .panic msg w1 => .panic msg w1
    | .ret info w1 =>
      intermediatesInfoLoop fmt env wrapLength more (index + 1)
        (lines.AppendLines (info.IndentedBy "  ")) w1

/-- The method `CertificateChain.InfoLines`. -/
def CertificateChain.InfoLines (fmt : Formatters) (env : Env) (c : CertificateChain)
    (wrapLength : Int) : Go Lines := fun w =>
  let lines := NewLines
  match c.Leaf with
  | some leaf =>
    let lines := lines.Print "Leaf Certificate:"
    match leaf.InfoLines fmt env (wrapLength - 2) w with
    | .panic msg w1 => .panic msg w1
    | .ret info w1 =>
      intermediatesInfoLoop fmt env wrapLength c.Intermediates 0
        (lines.AppendLines (info.IndentedBy "  ")) w1
  | none =>
    intermediatesInfoLoop fmt env wrapLength c.Intermediates 0
      (lines.Print "No Leaf Certificate Present") w

/-! ## Specification vocabulary -/

/-- The certificate is a bundled root: its raw subject is, byte for byte, the raw
subject of a certificate of the bundle that `gocertifi.CACerts` loads. -/
def Env.isBundledRoot (env : Env) (cert : X509Certificate) : Bool :=
  match env.CACerts with
  | .ok bundle => decide (cert.RawSubject ∈ bundle.Subjects)
  | .error _ => false

/-- The caches of a running process agree with the bundle loader: a cached pool is
the loaded bundle, and a cached subject set is the one built from it. This holds
in a fresh process (`World.init_coherent`) and is kept by the functions of the
package when they return (see `certInPool_ok`, `MustCertPool_ok`). -/
def World.Coherent (env : Env) (w : World) : Prop :=
  (∀ pool, w.certPoolCache = some pool → env.CACerts = .ok pool) ∧
  (∀ set, w.certPoolSubjectSetCache = some set →
    ∃ pool, env.CACerts = .ok pool ∧ set = pool.Subjects.foldl mapInsert [])

/-- Two worlds have the same record of fetches, engine calls and stderr output. -/
def World.SameRecord (w w1 : World) : Prop :=
  w1.fetched = w.fetched ∧ w1.verified = w.verified ∧ w1.stderr = w.stderr

/-- The world after a call of `certInPool`: unchanged when the subject set was cached,
and otherwise with the pool and the subject set cached. -/
def World.afterSubjectSet (bundle : X509CertPool) (w : World) : World :=
  if w.certPoolSubjectSetCache.isSome then w
  else { w with certPoolCache := some bundle,
                loads := if w.certPoolCache.isSome then w.loads else w.loads + 1,
                certPoolSubjectSetCache := some (bundle.Subjects.foldl mapInsert []) }

/-- The certificate carries an RSA public key whose modulus is shorter than 2048 bits. -/
def Certificate.hasShortRsaKey (c : Chaintool.Certificate) : Bool :=
  match c.Certificate.PublicKey with
  | .rsa N _ => decide (BitLen N < 2048)
  | _ => false

/-- The certificate that fetching `url` yields, when the fetch succeeds: the request
and the reading of the body succeed and the body parses to at least one
certificate, of which the first is taken. -/
def Env.fetchCertificate (env : Env) (url : String) : Option X509Certificate :=
  match env.httpGet url with
  | .ok (.ok certData) =>
    match parseCertificates env certData with
    | .ok (first :: _) => some first
    | _ => none
  | _ => none

/-- The certificate of the first issuer URL of `c`, in listed order, whose fetch
succeeds. -/
def Env.nextCertificate (env : Env) (c : X509Certificate) : Option X509Certificate :=
  c.IssuingCertificateURL.findSome? env.fetchCertificate

/-- The URLs of a list up to and including the first one whose fetch succeeds (all
of them when none does). -/
def Env.hopFetches (env : Env) : List String → List String
  | [] => []
  | url :: more =>
    if (env.fetchCertificate url).isSome then [url] else url :: env.hopFetches more

/-- The certificates reached by the internet walk that starts at `leaf`: the leaf,
and the next certificate of every reached certificate that is not a bundled root. -/
inductive Env.Reaches (env : Env) (leaf : X509Certificate) : X509Certificate → Prop where
  | start : env.Reaches leaf leaf
  | hop (c next : X509Certificate) : env.Reaches leaf c → env.isBundledRoot c = false →
      env.nextCertificate c = some next → env.Reaches leaf next

/-- A completed walk: from `c` the walk passes the certificates `visited`, none of
them a bundled root and `c` first, each followed by its next certificate, and
stops at the bundled root `root`. -/
inductive Env.WalkTo (env : Env) : X509Certificate → List X509Certificate → X509Certificate → Prop where
  | done (c : X509Certificate) : env.isBundledRoot c = true → env.WalkTo c [] c
  | hop (c next : X509Certificate) (visited : List X509Certificate) (root : X509Certificate) :
      env.isBundledRoot c = false → env.nextCertificate c = some next →
      env.WalkTo next visited root → env.WalkTo c (c :: visited) root

/-- A failed walk: from `c` the walk passes the certificates `visited`, none of them
a bundled root and `c` first, each followed by its next certificate, and the last
one has no issuer URL whose fetch succeeds. -/
inductive Env.WalkStuck (env : Env) : X509Certificate → List X509Certificate → Prop where
  | stuck (c : X509Certificate) : env.isBundledRoot c = false → env.nextCertificate c = none →
      env.WalkStuck c [c]
  | hop (c next : X509Certificate) (visited : List X509Certificate) :
      env.isBundledRoot c = false → env.nextCertificate c = some next →
      env.WalkStuck next visited → env.WalkStuck c (c :: visited)

/-- The URLs fetched while the walk passes the certificates `visited`. -/
def Env.walkFetches (env : Env) (visited : List X509Certificate) : List String :=
  visited.flatMap fun c => env.hopFetches c.IssuingCertificateURL

/-- A fetched certificate as the walk stores it: without a private key. -/
def Certificate.ofX509 (x : X509Certificate) : Chaintool.Certificate :=
  { Certificate := x, PrivateKey := none }

/-- The PEM scan of an input: the blocks that successive calls of `pem.Decode` find,
in order, and the input that is left when no further block is found. -/
inductive Env.PemScan (env : Env) : Bytes → List PemBlock → Bytes → Prop where
  | stop (data : Bytes) : env.pemDecode data = none → env.PemScan data [] data
  | block (data rest final : Bytes) (b : PemBlock) (blocks : List PemBlock) :
      env.pemDecode data = some (b, rest) → env.PemScan rest blocks final →
      env.PemScan data (b :: blocks) final

/-- The bodies of the blocks of type `CERTIFICATE`, in order. -/
def certificateBodies (blocks : List PemBlock) : List Bytes :=
  (blocks.filter fun b => b.BlockType = "CERTIFICATE").map (·.Bytes)

/-- The byte string `body` is the DER encoding of `cert`: the decoder reads exactly
`body` and yields `cert`, whatever follows. -/
def Env.IsDerOf (env : Env) (body : Bytes) (cert : X509Certificate) : Prop :=
  ∀ tail, env.derParseOne (body ++ tail) = .ok (cert, tail)

/-- The key decoders applied to key bytes, in the order PKCS#1, PKCS#8, SEC1: the
part of `parsePrivateKey` after the PEM block has been unwrapped. -/
def Env.decodeKeyBytes (env : Env) (der : Bytes) : Except GoError CryptoPrivateKey :=
  match env.ParsePKCS1PrivateKey der with
  | .ok key => .ok (.rsa key)
  | .error _ =>
    match env.ParsePKCS8PrivateKey der with
    | .ok (.rsa key) => .ok (.rsa key)
    | .ok (.ecdsa key) => .ok (.ecdsa key)
    | .ok (.other _) =>
      .error (.errorString "Found unknown private key type in PKCS#8 wrapping.")
    | .error _ =>
      match env.ParseECPrivateKey der with
      | .ok key => .ok (.ecdsa key)
      | .error _ => .error (.errorString "Failed to parse private key.")

/-- The key bytes of an input: the whole input when it holds no PEM block, and the
body of its first PEM block when the type of that block ends in `PRIVATE KEY`. -/
def Env.KeyBytes (env : Env) (data der : Bytes) : Prop :=
  (env.pemDecode data = none ∧ der = data) ∨
  ∃ block rest, env.pemDecode data = some (block, rest) ∧
    HasSuffix block.BlockType "PRIVATE KEY" = true ∧ der = block.Bytes

/-- A fact of `crypto/x509`: the PKCS#8 and the SEC1 structures differ in their second
element, so bytes that decode as PKCS#8 with a key of another kind than RSA or
ECDSA do not decode as a SEC1 key. -/
def Env.Pkcs8OtherIsNotSec1 (env : Env) : Prop :=
  ∀ der kind, env.ParsePKCS8PrivateKey der = .ok (.other kind) →
    ∃ err, env.ParseECPrivateKey der = .error err

/-- A fact of `encoding/pem` about one block: decoding what `pem.EncodeToMemory`
wrote for the block, followed by any bytes, gives back the block and leaves
those bytes. -/
def Env.PemInverse (env : Env) (block : PemBlock) : Prop :=
  ∀ tail, env.pemDecode (env.pemEncodeToMemory block ++ tail) = some (block, tail)

/-- A fact of `crypto/x509` about one RSA key: the PKCS#1 decoder reads back what the
PKCS#1 encoder wrote. -/
def Env.Pkcs1Inverse (env : Env) (k : RSAPrivateKey) : Prop :=
  env.ParsePKCS1PrivateKey (env.MarshalPKCS1PrivateKey k) = .ok k

/-- A fact of `crypto/x509` about one ECDSA key: the SEC1 encoder writes `der`, the
SEC1 decoder reads the key back from it, and neither the PKCS#1 nor the PKCS#8
decoder accepts it (a SEC1 structure has an octet string where those two have an
integer and a sequence). -/
def Env.Sec1Inverse (env : Env) (k : ECDSAPrivateKey) (der : Bytes) : Prop :=
  env.MarshalECPrivateKey k = .ok der ∧
  (∃ err, env.ParsePKCS1PrivateKey der = .error err) ∧
  (∃ err, env.ParsePKCS8PrivateKey der = .error err) ∧
  env.ParseECPrivateKey der = .ok k

/-- A fact of `crypto/x509`: the field `Raw` of a decoded certificate is its DER
encoding. -/
def Env.RawIsDer (env : Env) : Prop :=
  ∀ der c rest, env.derParseOne der = .ok (c, rest) → env.IsDerOf c.Raw c

/-- A fact of `encoding/pem` about decoded certificates: a `CERTIFICATE` block that
holds the DER encoding of a decoded certificate is read back as it was
written. -/
def Env.CertificatePemInverse (env : Env) : Prop :=
  ∀ der c rest, env.derParseOne der = .ok (c, rest) →
    env.PemInverse { BlockType := "CERTIFICATE", Bytes := c.Raw }

/-- A call of one of the three functions of the trust store. -/
inductive PoolCall where
  | CertPool
  | MustCertPool
  | certPoolSubjectSet
deriving DecidableEq, Repr

/-- What a call of the trust store returned. -/
inductive PoolAnswer where
  | pool (r : Except GoError X509CertPool)
  | must (pool : X509CertPool)
  | subjects (set : List Bytes)

/-- Run one call of the trust store. -/
def PoolCall.run (env : Env) : PoolCall → Go PoolAnswer
  | .CertPool => fun w =>
    match Chaintool.CertPool env w with
    | .ret r w1 => .ret (.pool r) w1
    | .panic msg w1 => .panic msg w1
  | .MustCertPool => fun w =>
    match Chaintool.MustCertPool env w with
    | .ret r w1 => .ret (.must r) w1
    | .panic msg w1 => .panic msg w1
  | .certPoolSubjectSet => fun w =>
    match Chaintool.certPoolSubjectSet env w with
    | .ret r w1 => .ret (.subjects r) w1
    | .panic msg w1 => .panic msg w1

/-- Run a sequence of calls of the trust store, one after the other; a panic ends
the run. -/
def runPoolCalls (env : Env) : List PoolCall → Go (List PoolAnswer)
  | [] => fun w => .ret [] w
  | call :: more => fun w =>
    match call.run env w with
    | .panic msg w1 => .panic msg w1
    | .ret a w1 =>
      match runPoolCalls env more w1 with
      | .panic msg w2 => .panic msg w2
      | .ret answers w2 => .ret (a :: answers) w2

/-- The answer of a call when the pool is `bundle`: the pool itself, or the set of
its raw subjects. -/
def PoolCall.answer (bundle : X509CertPool) : PoolCall → PoolAnswer
  | .CertPool => .pool (.ok bundle)
  | .MustCertPool => .must bundle
  | .certPoolSubjectSet => .subjects (bundle.Subjects.foldl mapInsert [])

/-- The variables of the loop of `ChainFromCertificateAndInternet` at the start of an
iteration, with the process state. -/
structure WalkState where
  currentCert : Certificate
  isLeafCert : Bool
  rv : CertificateChain
  world : World

/-- One iteration of the loop of `ChainFromCertificateAndInternet` that ends at the
bottom of the loop body: the variables at the start of the next iteration, and
`none` when the iteration returns or panics instead (`internetWalk_of_step`,
`internetWalk_of_no_step`). -/
def internetWalkStep (env : Env) (s : WalkState) : Option WalkState :=
  match s.currentCert.IsBundled env s.world with
  | .panic _ _ => none
  | .ret true _ => none
  | .ret false w1 =>
    if s.currentCert.Certificate.IssuingCertificateURL.length = 0 then none
    else
      match s.currentCert.ReadableSubject w1 with
      | .panic _ _ => none
      | .ret subject w2 =>
        match fetchFirst env s.currentCert.Certificate.IssuingCertificateURL
            (.errorString ("Error fetching intermediates: cert for " ++ subject
              ++ " doesn't point to parent")) w2 with
        | .ret (.ok nextCert) w3 =>
          some { currentCert := nextCert, isLeafCert := false,
                 rv := if !s.isLeafCert then
                         { s.rv with Intermediates := s.rv.Intermediates ++ [s.currentCert] }
                       else s.rv,
                 world := w3 }
        | _ => none

/-- The variables of the loop after `n` more iterations, when none of them returns or
panics. -/
def internetWalkStates (env : Env) : Nat → WalkState → Option WalkState
  | 0, s => some s
  | n + 1, s =>
    match internetWalkStep env s with
    | none => none
    | some s1 => internetWalkStates env n s1

/-- The variables of the loop when `ChainFromCertificateAndInternet` enters it. -/
def WalkState.start (leaf : Certificate) (w : World) : WalkState :=
  { currentCert := leaf, isLeafCert := true, rv := { Leaf := some leaf, Intermediates := [] },
    world := w }

/-! ## A small concrete environment

A three-certificate world used to evaluate the definitions: a leaf, one
intermediate and one bundled root, a toy framing in place of PEM and a one-byte
encoding in place of DER. -/

/-- A certificate with the given one-byte identity, key identifier and issuer URLs. -/
def demoCert (id : Nat) (skid : ByteSlice) (urls : List String) : X509Certificate :=
  { Raw := [id], RawSubject := [id], SubjectCommonName := "cn", IssuerCommonName := "ca",
    SubjectKeyId := skid, AuthorityKeyId := none, NotAfter := 0,
    DNSNames := ["example.org"], SignatureAlgorithm := .SHA256WithRSA,
    PublicKeyAlgorithm := .RSA, PublicKey := .rsa 35 3, IssuingCertificateURL := urls }

/-- The leaf: two issuer URLs, of which the first cannot be fetched. -/
def demoLeaf : X509Certificate := demoCert 1 (some ⟨[0, 0, 0, 1], []⟩) ["u1", "u2"]

/-- The intermediate, issued by the root. -/
def demoMid : X509Certificate := demoCert 2 (some ⟨[0, 0, 0, 2], []⟩) ["u3"]

/-- The bundled root. -/
def demoRoot : X509Certificate := demoCert 3 (some ⟨[0, 0, 0, 3], []⟩) []

/-- The leaf again, without a subject key identifier extension. -/
def demoLeafNoSkid : X509Certificate := demoCert 4 none ["u1", "u2"]

/-- The leaf again, signed with SHA-1. -/
def demoSha1Leaf : X509Certificate := { demoLeaf with SignatureAlgorithm := .SHA1WithRSA }

/-- The bundled root again, signed with SHA-1. -/
def demoSha1Root : X509Certificate := { demoRoot with SignatureAlgorithm := .SHA1WithRSA }

/-- A certificate whose two issuer URLs both fail to fetch. -/
def demoOrphan : X509Certificate := demoCert 5 (some ⟨[0, 0, 0, 5], []⟩) ["u1", "u9"]

/-- The toy framing: byte 45, a type byte (0 for `CERTIFICATE`) and one body byte. -/
def demoPemDecode : Bytes → Option (PemBlock × Bytes)
  | 45 :: t :: b :: rest =>
    some ({ BlockType := if t = 0 then "CERTIFICATE" else if t = 2 then "EC PRIVATE KEY"
                          else "RSA PRIVATE KEY",
            Bytes := [b] }, rest)
  | _ => none

/-- The toy DER decoder: one byte names one certificate. -/
def demoDerParseOne : Bytes → Except String (X509Certificate × Bytes)
  | 1 :: rest => .ok (demoLeaf, rest)
  | 2 :: rest => .ok (demoMid, rest)
  | 3 :: rest => .ok (demoRoot, rest)
  | 4 :: rest => .ok (demoLeafNoSkid, rest)
  | _ => .error "asn1: structure error"

/-- The RSA key of the demo certificates. -/
def demoKey : RSAPrivateKey := { N := 35, E := 3, D := 11, Primes := [5, 7] }

/-- An ECDSA key. -/
def demoEcKey : ECDSAPrivateKey := { Curve := "P-256", X := 1, Y := 2, D := 9 }

/-- The toy framing of a block with a one-byte body (the inverse of `demoPemDecode`). -/
def demoPemEncode (b : PemBlock) : Bytes :=
  match b.Bytes with
  | [x] =>
    [45, if b.BlockType = "CERTIFICATE" then 0 else if b.BlockType = "EC PRIVATE KEY" then 2
         else 1, x]
  | _ => []

/-- The concrete environment. -/
def demoEnv : Env :=
  { pemDecode := demoPemDecode
    pemDecode_shrinks := by
      intro data b rest h
      unfold demoPemDecode at h
      split at h
      · simp only [Option.some.injEq, Prod.mk.injEq] at h
        rw [← h.2]
        simp only [List.length_cons]
        omega
      · cases h
    derParseOne := demoDerParseOne
    derParseOne_shrinks := by
      intro der c rest h
      unfold demoDerParseOne at h
      split at h <;> first
        | (simp only [Except.ok.injEq, Prod.mk.injEq] at h
           rw [← h.2]
           simp only [List.length_cons]
           omega)
        | cases h
    ParsePKCS1PrivateKey := fun data => if data = [7] then .ok demoKey else .error "asn1"
    ParsePKCS8PrivateKey := fun data =>
      if data = [9] then .ok (.other "ed25519.PrivateKey")
      else if data = [6] then .ok (.ecdsa demoEcKey)
      else .error "asn1"
    ParseECPrivateKey := fun data => if data = [8] then .ok demoEcKey else .error "asn1"
    MarshalPKCS1PrivateKey := fun _ => [7]
    MarshalECPrivateKey := fun _ => .ok [8]
    pemEncodeToMemory := demoPemEncode
    ReadFile := fun path =>
      if path = "cert.pem" then .ok [45, 0, 1]
      else if path = "key.pem" then .ok [45, 1, 7]
      else .error "no such file"
    httpGet := fun url =>
      if url = "u2" then .ok (.ok [2])
      else if url = "u3" then .ok (.ok [45, 0, 3])
      else .error "connection refused"
    tlsDial := fun host _ _ =>
      if host = "example.org" then .ok [demoLeaf, demoMid, demoRoot] else .error "no such host"
    tlsDial_nonempty := by
      intro host port roots peers h
      by_cases hh : host = "example.org"
      · simp only [hh, if_true, Except.ok.injEq] at h
        rw [← h]
        simp
      · simp only [hh, if_false] at h
        cases h
    x509Verify := fun cert opts =>
      if opts.DNSName ≠ "" ∧ opts.DNSName ∉ cert.DNSNames then
        .error (.HostnameError "x509: certificate is not valid for the name")
      else if cert.RawSubject = [1] ∧ demoMid ∈ opts.Intermediates ∧ demoRoot ∈ opts.Roots then
        .ok [[cert, demoMid, demoRoot]]
      else .error (.UnknownAuthorityError "x509: certificate signed by unknown authority")
    CACerts := .ok [demoRoot]
    now := 0 }

/-- The concrete environment again, with a network in which the second issuer URL of
the leaf returns the leaf itself. -/
def loopEnv : Env :=
  { demoEnv with
    httpGet := fun url => if url = "u2" then .ok (.ok [1]) else .error "connection refused" }

/-- The leaf again, with an authority key identifier of one byte in a slice without
spare capacity. -/
def demoShortAki : X509Certificate := { demoLeaf with AuthorityKeyId := some ⟨[171], []⟩ }

/-- The leaf again, with an authority key identifier of one byte in a slice that is
followed in memory by the bytes 48, 130, 1. -/
def demoShortAkiSpare : X509Certificate :=
  { demoLeaf with AuthorityKeyId := some ⟨[171], [48, 130, 1]⟩ }

/-- Formatting functions for the concrete environment. -/
def demoFormatters : Formatters :=
  { float2 := fun _ => "0.00", timeString := fun _ => "1970-01-01 00:00:00 +0000 UTC",
    signatureAlgorithmString := fun _ => "SHA256-RSA", WrapString := fun text _ => text }

/-- The leaf again, with an RSA key whose modulus is 2 ^ 1023, a number of 1024
bits. -/
def demoRsa1024 : X509Certificate := { demoLeaf with PublicKey := .rsa (2 ^ 1023) 65537 }

/-- The concrete environment again, with a network in which the second issuer URL of
the leaf without a key identifier returns that same certificate. -/
def loopNoSkidEnv : Env :=
  { demoEnv with
    httpGet := fun url => if url = "u2" then .ok (.ok [4]) else .error "connection refused" }

/-! ## Theorems -/

@[simp] theorem Go.bind_apply {α β : Type} (m : Go α) (f : α → Go β) (w : World) :
    (m >>= f) w = match m w with
      | .ret a w1 => f a w1
      | .panic msg w1 => .panic msg w1 := rfl

@[simp] theorem Go.pure_apply {α : Type} (a : α) (w : World) :
    (Pure.pure a : Go α) w = .ret a w := rfl

theorem World.init_coherent (env : Env) : World.init.Coherent env := by
  constructor <;> intro x hx <;> simp [World.init] at hx

theorem mem_foldl_mapInsert (l : List Bytes) (acc : List Bytes) (k : Bytes) :
    k ∈ l.foldl mapInsert acc ↔ k ∈ acc ∨ k ∈ l := by
  induction l generalizing acc with
  | nil => simp
  | cons x xs ih =>
    simp only [List.foldl_cons, ih, mapInsert, List.mem_cons]
    by_cases hx : x ∈ acc
    · simp only [hx, if_true]
      constructor
      · rintro (h | h)
        · exact Or.inl h
        · exact Or.inr (Or.inr h)
      · rintro (h | h | h)
        · exact Or.inl h
        · exact Or.inl (h ▸ hx)
        · exact Or.inr h
    · simp only [hx, if_false, List.mem_append, List.mem_singleton]
      tauto

/-- With a loadable bundle and a pool cache that agrees with it, `MustCertPool`
returns the bundle, caches it, and counts one load when the cache was empty. -/
theorem MustCertPool_eq (env : Env) (bundle : X509CertPool) (w : World)
    (hw : ∀ pool, w.certPoolCache = some pool → env.CACerts = .ok pool)
    (hb : env.CACerts = .ok bundle) :
    MustCertPool env w = .ret bundle
      { w with certPoolCache := some bundle,
               loads := if w.certPoolCache.isSome then w.loads else w.loads + 1 } := by
  unfold MustCertPool CertPool
  cases hc : w.certPoolCache with
  | some pool =>
    have := hw pool hc
    rw [hb] at this
    cases this
    cases w
    simp_all
  | none => simp [hb]

/-- In a coherent world with a loadable bundle, `MustCertPool` returns the bundle and
changes nothing but the pool cache and the load counter. -/
theorem MustCertPool_ok (env : Env) (bundle : X509CertPool) (w : World)
    (hw : w.Coherent env) (hb : env.CACerts = .ok bundle) :
    ∃ w1, MustCertPool env w = .ret bundle w1 ∧ w1.Coherent env ∧ w.SameRecord w1 := by
  refine ⟨_, MustCertPool_eq env bundle w hw.1 hb, ⟨?_, ?_⟩, ⟨rfl, rfl, rfl⟩⟩
  · intro pool hp
    simp at hp
    rw [hb, hp]
  · intro set hs
    exact hw.2 set hs

/-- When the bundle cannot be loaded, `MustCertPool` panics in every coherent world. -/
theorem MustCertPool_panic (env : Env) (err : String) (w : World)
    (hw : ∀ pool, w.certPoolCache = some pool → env.CACerts = .ok pool)
    (hb : env.CACerts = .error err) :
    ∃ msg w1, MustCertPool env w = .panic msg w1 := by
  unfold MustCertPool CertPool
  cases hc : w.certPoolCache with
  | some pool =>
    have := hw pool hc
    rw [hb] at this
    cases this
  | none => simp [hb]

/-- In a coherent world with a loadable bundle, `certInPool` returns whether the
certificate is a bundled root and adds nothing to the record. -/
theorem certInPool_ok (env : Env) (bundle : X509CertPool) (cert : X509Certificate) (w : World)
    (hw : w.Coherent env) (hb : env.CACerts = .ok bundle) :
    ∃ w1, certInPool env cert w = .ret (env.isBundledRoot cert) w1 ∧ w1.Coherent env ∧
      w.SameRecord w1 := by
  have hmem : ∀ set : List Bytes, set = bundle.Subjects.foldl mapInsert [] →
      decide (cert.RawSubject ∈ set) = env.isBundledRoot cert := by
    intro set hset
    simp [Env.isBundledRoot, hb, hset, mem_foldl_mapInsert]
  unfold certInPool certPoolSubjectSet
  cases hc : w.certPoolSubjectSetCache with
  | some set =>
    obtain ⟨pool, hp, hset⟩ := hw.2 set hc
    rw [hb] at hp
    cases hp
    exact ⟨w, by simp [hmem set hset], hw, ⟨rfl, rfl, rfl⟩⟩
  | none =>
    simp only []
    rw [MustCertPool_eq env bundle { w with certPoolSubjectSetCache := some [] } hw.1 hb]
    simp only [hmem _ rfl]
    refine ⟨_, rfl, ⟨?_, ?_⟩, ⟨rfl, rfl, rfl⟩⟩
    · intro pool hp
      simp at hp
      rw [hb, hp]
    · intro set hs
      simp at hs
      exact ⟨bundle, hb, hs.symm⟩

/-- When the bundle cannot be loaded, `certInPool` panics in every coherent world. -/
theorem certInPool_panic (env : Env) (err : String) (cert : X509Certificate) (w : World)
    (hw : w.Coherent env) (hb : env.CACerts = .error err) :
    ∃ msg w1, certInPool env cert w = .panic msg w1 := by
  unfold certInPool certPoolSubjectSet
  cases hc : w.certPoolSubjectSetCache with
  | some set =>
    obtain ⟨pool, hp, _⟩ := hw.2 set hc
    rw [hb] at hp
    cases hp
  | none =>
    obtain ⟨msg, w1, h⟩ := MustCertPool_panic env err
      { w with certPoolSubjectSetCache := some [] } hw.1 hb
    simp only [h]
    exact ⟨_, _, rfl⟩

/-! ### Chain verification -/

theorem foldl_AddCert (l : List Certificate) (pool : X509CertPool) :
    l.foldl (fun pool cert => pool.AddCert cert.Certificate) pool
      = pool ++ l.map (·.Certificate) := by
  induction l generalizing pool with
  | nil => simp
  | cons x xs ih =>
    rw [List.foldl_cons, ih]
    simp only [X509CertPool.AddCert, List.map_cons, List.append_assoc, List.singleton_append]

/-- C1: in a running process whose bundle loads, `CertificateChain.Verify` returns
after exactly one call of the trust engine, made on the Leaf with the bundle as
roots, the chain's Intermediates as intermediate pool, the current time, and the
hostname as required name only when it is not empty; engine success gives the nil
error, a hostname error gives `HostnameMismatchError` with the Leaf and the given
hostname, an unknown-authority error gives `UnknownAuthorityError`, and any other
engine error comes back unchanged. -/
theorem verify_calls_engine_once_and_classifies (env : Env) (bundle : X509CertPool)
    (c : CertificateChain) (leaf : Certificate) (dnsName : String) (w : World)
    (hw : w.Coherent env) (hb : env.CACerts = .ok bundle) (hleaf : c.Leaf = some leaf) :
    ∃ w1 : World,
      c.Verify env dnsName w =
        .ret (match env.x509Verify leaf.Certificate
                { DNSName := if dnsName ≠ "" then dnsName else "",
                  Intermediates := c.Intermediates.map (·.Certificate),
                  Roots := bundle, CurrentTime := env.now } with
              | .ok _ => none
              | .error (.HostnameError _) => some (.HostnameMismatchError leaf dnsName)
              | .error (.UnknownAuthorityError _) => some .UnknownAuthorityError
              | .error (.Other msg) => some (.x509 (.Other msg))) w1 ∧
      w1.verified = w.verified ++
        [(leaf.Certificate,
          { DNSName := if dnsName ≠ "" then dnsName else "",
            Intermediates := c.Intermediates.map (·.Certificate),
            Roots := bundle, CurrentTime := env.now })] ∧
      w1.fetched = w.fetched ∧ w1.Coherent env := by
  obtain ⟨w1, hm, hc1, hr1⟩ := MustCertPool_ok env bundle w hw hb
  refine ⟨{ w1 with verified := w1.verified ++
      [(leaf.Certificate,
        { DNSName := if dnsName ≠ "" then dnsName else "",
          Intermediates := c.Intermediates.map (·.Certificate),
          Roots := bundle, CurrentTime := env.now })] }, ?_, ?_, hr1.1, ⟨hc1.1, hc1.2⟩⟩
  · unfold CertificateChain.Verify
    simp only [hm, hleaf, x509CertificateVerify, foldl_AddCert]
    by_cases hd : dnsName = ""
    · subst hd
      simp only [ne_eq, not_true_eq_false, if_false, NewCertPool, List.nil_append]
      cases env.x509Verify leaf.Certificate _ with
      | ok chains => rfl
      | error e => cases e <;> rfl
    · simp only [ne_eq, hd, not_false_eq_true, if_true, NewCertPool, List.nil_append]
      cases env.x509Verify leaf.Certificate _ with
      | ok chains => rfl
      | error e => cases e <;> rfl
  · simp only [hr1.2.1]

theorem verify_calls_engine_once_and_classifies_witness :
    ∃ w1 : World,
      CertificateChain.Verify demoEnv ⟨some ⟨demoLeaf, none⟩, [⟨demoMid, none⟩]⟩ "wrong.org"
          World.init
        = .ret (some (.HostnameMismatchError ⟨demoLeaf, none⟩ "wrong.org")) w1 ∧
      w1.verified = [(demoLeaf, ⟨"wrong.org", [demoMid], [demoRoot], 0⟩)] := by
  obtain ⟨w1, h1, h2, _, _⟩ := verify_calls_engine_once_and_classifies demoEnv [demoRoot]
    ⟨some ⟨demoLeaf, none⟩, [⟨demoMid, none⟩]⟩ ⟨demoLeaf, none⟩ "wrong.org" World.init
    (World.init_coherent _) rfl rfl
  exact ⟨w1, h1, h2⟩

/-! ### Fetching -/

/-- The value of `parseCertificate` depends on the input alone, and the call changes
nothing but stderr. -/
theorem parseCertificate_spec (env : Env) (data : Bytes) (w : World) :
    ∃ w1, parseCertificate env data w =
        .ret (match parseCertificates env data with
              | .error err => .error err
              | .ok [] => .error (.errorString "No certificates were found")
              | .ok (first :: _) => .ok first) w1 ∧
      w1.fetched = w.fetched ∧ w1.verified = w.verified ∧
      w1.certPoolCache = w.certPoolCache ∧
      w1.certPoolSubjectSetCache = w.certPoolSubjectSetCache := by
  unfold parseCertificate
  cases parseCertificates env data with
  | error err => exact ⟨w, rfl, rfl, rfl, rfl, rfl⟩
  | ok certs =>
    cases certs with
    | nil => exact ⟨w, rfl, rfl, rfl, rfl, rfl⟩
    | cons first more =>
      by_cases hlen : (first :: more).length > 1
      · simp only [hlen, if_true]
        exact ⟨{ w with stderr := w.stderr ++
          ["Warning: More than one certificate found, considering only the first"] },
          rfl, rfl, rfl, rfl, rfl⟩
      · simp only [hlen, if_false]
        exact ⟨w, rfl, rfl, rfl, rfl, rfl⟩

/-- One call of `CertificateFromURL` records one fetch and returns the fetched
certificate, without a key, exactly when the fetch succeeds. -/
theorem CertificateFromURL_spec (env : Env) (url : String) (w : World) :
    ∃ r w1, CertificateFromURL env url w = .ret r w1 ∧
      w1.fetched = w.fetched ++ [url] ∧ w1.verified = w.verified ∧
      w1.certPoolCache = w.certPoolCache ∧
      w1.certPoolSubjectSetCache = w.certPoolSubjectSetCache ∧
      (∀ c, env.fetchCertificate url = some c → r = .ok { Certificate := c, PrivateKey := none }) ∧
      (env.fetchCertificate url = none → ∃ msg, r = .error (.errorString msg)) := by
  unfold CertificateFromURL LoadCertificateFromURL Env.fetchCertificate
  cases hg : env.httpGet url with
  | error err => exact ⟨_, _, rfl, rfl, rfl, rfl, rfl, by simp, fun _ => ⟨_, rfl⟩⟩
  | ok body =>
    cases body with
    | error err => exact ⟨_, _, rfl, rfl, rfl, rfl, rfl, by simp, fun _ => ⟨_, rfl⟩⟩
    | ok certData =>
      obtain ⟨w1, hp, h1, h2, h3, h4⟩ :=
        parseCertificate_spec env certData { w with fetched := w.fetched ++ [url] }
      simp only [hp]
      cases hpc : parseCertificates env certData with
      | error err => exact ⟨_, _, rfl, h1, h2, h3, h4, by simp, fun _ => ⟨_, rfl⟩⟩
      | ok certs =>
        cases certs with
        | nil => exact ⟨_, _, rfl, h1, h2, h3, h4, by simp, fun _ => ⟨_, rfl⟩⟩
        | cons first more =>
          refine ⟨_, _, rfl, h1, h2, h3, h4, ?_, ?_⟩
          · intro c hc
            simp only [Option.some.injEq] at hc
            rw [hc]
          · intro hc
            simp at hc

theorem hopFetches_of_findSome (env : Env) (urls : List String) :
    (env.hopFetches urls).filterMap env.fetchCertificate
      = (urls.findSome? env.fetchCertificate).toList := by
  induction urls with
  | nil => rfl
  | cons url more ih =>
    unfold Env.hopFetches
    cases hf : env.fetchCertificate url with
    | some c => simp [hf, List.findSome?]
    | none => simp [hf, List.findSome?, ih]

/-- The inner loop fetches the URLs in listed order up to the first success, and no
URL after it; it returns the certificate of that first success, or an untyped
error when every fetch fails. -/
theorem fetchFirst_spec (env : Env) (urls : List String) (err0 : String) (w : World) :
    ∃ r w1, fetchFirst env urls (.errorString err0) w = .ret r w1 ∧
      w1.fetched = w.fetched ++ env.hopFetches urls ∧ w1.verified = w.verified ∧
      w1.certPoolCache = w.certPoolCache ∧
      w1.certPoolSubjectSetCache = w.certPoolSubjectSetCache ∧
      (∀ c, urls.findSome? env.fetchCertificate = some c →
        r = .ok { Certificate := c, PrivateKey := none }) ∧
      (urls.findSome? env.fetchCertificate = none → ∃ msg, r = .error (.errorString msg)) := by
  induction urls generalizing err0 w with
  | nil =>
    exact ⟨_, w, rfl, by simp [Env.hopFetches], rfl, rfl, rfl, by simp, fun _ => ⟨_, rfl⟩⟩
  | cons url more ih =>
    obtain ⟨r, w1, hr, h1, h2, h3, h4, hok, herr⟩ := CertificateFromURL_spec env url w
    unfold fetchFirst
    simp only [hr]
    cases hf : env.fetchCertificate url with
    | some c =>
      rw [hok c hf]
      refine ⟨_, w1, rfl, ?_, h2, h3, h4, ?_, ?_⟩
      · simp [Env.hopFetches, hf, h1]
      · intro c1 hc1
        simp only [List.findSome?, hf, Option.some.injEq] at hc1
        rw [hc1]
      · intro hnone
        simp [List.findSome?, hf] at hnone
    | none =>
      obtain ⟨msg, hmsg⟩ := herr hf
      rw [hmsg]
      obtain ⟨r2, w2, hr2, g1, g2, g3, g4, gok, gerr⟩ := ih msg w1
      refine ⟨r2, w2, hr2, ?_, ?_, ?_, ?_, ?_, ?_⟩
      · simp [Env.hopFetches, hf, g1, h1]
      · rw [g2, h2]
      · rw [g3, h3]
      · rw [g4, h4]
      · intro c hc
        simp only [List.findSome?, hf] at hc
        exact gok c hc
      · intro hn
        simp only [List.findSome?, hf] at hn
        exact gerr hn

/-! ### The internet walk -/

theorem IsBundled_ok (env : Env) (bundle : X509CertPool) (c : Certificate) (w : World)
    (hw : w.Coherent env) (hb : env.CACerts = .ok bundle) :
    ∃ w1, c.IsBundled env w = .ret (env.isBundledRoot c.Certificate) w1 ∧ w1.Coherent env ∧
      w.SameRecord w1 :=
  certInPool_ok env bundle c.Certificate w hw hb

theorem coherent_of_caches (env : Env) (w w1 : World) (hw : w.Coherent env)
    (h1 : w1.certPoolCache = w.certPoolCache)
    (h2 : w1.certPoolSubjectSetCache = w.certPoolSubjectSetCache) : w1.Coherent env := by
  refine ⟨?_, ?_⟩
  · intro pool hp
    exact hw.1 pool (by rw [← h1]; exact hp)
  · intro set hs
    exact hw.2 set (by rw [← h2]; exact hs)

/-- Whenever the loop of the walk returns, it has either completed a walk to a bundled
root and returns the chain extended by the certificates passed (the starting
certificate left out when it is the leaf), or it is stuck at a certificate
without a fetchable issuer and returns an untyped error; the URLs fetched are
those of the hops made, in order. -/
theorem internetWalk_ret (env : Env) (bundle : X509CertPool) (hb : env.CACerts = .ok bundle)
    (fuel : Nat) : ∀ (cur : Certificate) (isLeaf : Bool) (rv : CertificateChain) (w : World)
      (r : Except GoError CertificateChain) (w1 : World),
      w.Coherent env → (isLeaf = false → cur.PrivateKey = none) →
      internetWalk env fuel cur isLeaf rv w = some (.ret r w1) →
      w1.Coherent env ∧ w1.verified = w.verified ∧
      ((∃ visited root, env.WalkTo cur.Certificate visited root ∧
          r = .ok { rv with Intermediates := rv.Intermediates ++
            (if isLeaf then visited.tail else visited).map Certificate.ofX509 } ∧
          w1.fetched = w.fetched ++ env.walkFetches visited) ∨
       (∃ visited msg, env.WalkStuck cur.Certificate visited ∧
          r = .error (.errorString msg) ∧
          w1.fetched = w.fetched ++ env.walkFetches visited)) := by
  induction fuel with
  | zero =>
    intro cur isLeaf rv w r w1 _ _ h
    simp [internetWalk] at h
  | succ n ih =>
    intro cur isLeaf rv w r w1 hw hkey h
    obtain ⟨wb, hbun, hcb, hrb⟩ := IsBundled_ok env bundle cur w hw hb
    unfold internetWalk at h
    simp only [hbun] at h
    cases hroot : env.isBundledRoot cur.Certificate with
    | true =>
      simp only [hroot, Option.some.injEq, Outcome.ret.injEq] at h
      obtain ⟨hr, hw1⟩ := h
      subst hw1
      refine ⟨hcb, hrb.2.1, Or.inl ⟨[], cur.Certificate, .done _ hroot, ?_, ?_⟩⟩
      · rw [← hr]
        simp
      · simp [Env.walkFetches, hrb.1]
    | false =>
      simp only [hroot] at h
      cases hskid : cur.Certificate.SubjectKeyId.upTo 4 with
      | none =>
        simp only [Certificate.ReadableSubject, hskid, Go.panic] at h
        split at h <;> simp at h
      | some id =>
        simp only [Certificate.ReadableSubject, hskid, Go.pure_apply] at h
        by_cases hlen : cur.Certificate.IssuingCertificateURL.length = 0
        · simp only [hlen, if_true, Option.some.injEq, Outcome.ret.injEq] at h
          obtain ⟨hr, hw1⟩ := h
          subst hw1
          have hnil : cur.Certificate.IssuingCertificateURL = [] := List.length_eq_zero.mp hlen
          have hnext : env.nextCertificate cur.Certificate = none := by
            simp [Env.nextCertificate, hnil]
          refine ⟨hcb, hrb.2.1, Or.inr ⟨[cur.Certificate], _, .stuck _ hroot hnext, hr.symm, ?_⟩⟩
          simp [Env.walkFetches, hnil, Env.hopFetches, hrb.1]
        · simp only [hlen, if_false] at h
          obtain ⟨rf, wf, hf, f1, f2, f3, f4, fok, ferr⟩ :=
            fetchFirst_spec env cur.Certificate.IssuingCertificateURL
              ("Error fetching intermediates: cert for "
                ++ (hexBytes id ++ " (" ++ cur.Certificate.SubjectCommonName ++ ")")
                ++ " doesn't point to parent") wb
          simp only [hf] at h
          have hcf : wf.Coherent env := coherent_of_caches env wb wf hcb f3 f4
          cases hnext : env.nextCertificate cur.Certificate with
          | none =>
            obtain ⟨msg, hmsg⟩ := ferr hnext
            subst hmsg
            simp only [Option.some.injEq, Outcome.ret.injEq] at h
            obtain ⟨hr, hw1⟩ := h
            subst hw1
            refine ⟨hcf, by rw [f2, hrb.2.1],
              Or.inr ⟨[cur.Certificate], _, .stuck _ hroot hnext, hr.symm, ?_⟩⟩
            simp [Env.walkFetches, f1, hrb.1]
          | some next =>
            have hrf := fok next hnext
            subst hrf
            simp only [] at h
            obtain ⟨hc1, hv1, hcases⟩ := ih _ false _ wf r w1 hcf (fun _ => rfl) h
            refine ⟨hc1, by rw [hv1, f2, hrb.2.1], ?_⟩
            rcases hcases with ⟨visited, root, hwalk, hr, hfet⟩ | ⟨visited, msg, hwalk, hr, hfet⟩
            · refine Or.inl ⟨cur.Certificate :: visited, root,
                .hop _ next _ _ hroot hnext hwalk, ?_, ?_⟩
              · rw [hr]
                cases isLeaf with
                | true => simp
                | false =>
                  have hk := hkey rfl
                  have hcur : cur = Certificate.ofX509 cur.Certificate := by
                    cases cur
                    simp_all [Certificate.ofX509]
                  simp
                  exact hcur
              · rw [hfet, f1, hrb.1]
                simp [Env.walkFetches]
            · refine Or.inr ⟨cur.Certificate :: visited, msg,
                .hop _ next _ hroot hnext hwalk, hr, ?_⟩
              rw [hfet, f1, hrb.1]
              simp [Env.walkFetches]

/-! ### The builder from a stored certificate and an intermediates blob -/

/-- The collecting loop appends the certificates before the first bundled root, each
without a private key, and stops there. -/
theorem collectIntermediates_spec (env : Env) (bundle : X509CertPool)
    (hb : env.CACerts = .ok bundle) (xs : List X509Certificate) :
    ∀ (acc : List Certificate) (w : World), w.Coherent env →
      ∃ w1, collectIntermediates env xs acc w =
          .ret (acc ++ (xs.takeWhile fun x => !env.isBundledRoot x).map Certificate.ofX509) w1 ∧
        w1.Coherent env ∧ w.SameRecord w1 := by
  induction xs with
  | nil =>
    intro acc w hw
    exact ⟨w, by simp [collectIntermediates], hw, ⟨rfl, rfl, rfl⟩⟩
  | cons x more ih =>
    intro acc w hw
    obtain ⟨wb, hbun, hcb, hrb⟩ := IsBundled_ok env bundle (Certificate.ofX509 x) w hw hb
    unfold collectIntermediates
    simp only [Certificate.ofX509] at hbun
    simp only [hbun]
    cases hroot : env.isBundledRoot x with
    | true => exact ⟨wb, by simp [List.takeWhile, hroot], hcb, hrb⟩
    | false =>
      obtain ⟨w2, h2, hc2, hr2⟩ := ih (acc ++ [{ Certificate := x, PrivateKey := none }]) wb hcb
      refine ⟨w2, ?_, hc2, ?_⟩
      · simp only [h2, List.takeWhile, hroot, Bool.not_false, List.map_cons, Certificate.ofX509,
          List.append_assoc, List.singleton_append]
      · exact ⟨by rw [hr2.1, hrb.1], by rw [hr2.2.1, hrb.2.1], by rw [hr2.2.2, hrb.2.2]⟩

/-- Every return of `ChainFromCertificateAndIntermediatesData` with a chain comes from
a parsed blob, a loaded bundle and a successful engine call with at least one
verified path, and the chain is the leaf with the root-free prefix of that path. -/
theorem chainFromIntermediatesData_ret (env : Env) (leaf : Certificate) (data : Bytes)
    (w w1 : World) (chain : CertificateChain) (hw : w.Coherent env)
    (h : ChainFromCertificateAndIntermediatesData env leaf data w = .ret (.ok chain) w1) :
    ∃ bundle intermediatesX509 first more,
      env.CACerts = .ok bundle ∧
      parseCertificates env data = .ok intermediatesX509 ∧
      env.x509Verify leaf.Certificate
        { DNSName := "", Intermediates := intermediatesX509, Roots := bundle,
          CurrentTime := env.now } = .ok (first :: more) ∧
      chain = { Leaf := some leaf,
                Intermediates :=
                  (first.tail.takeWhile fun x => !env.isBundledRoot x).map Certificate.ofX509 } ∧
      w1.Coherent env ∧ w1.fetched = w.fetched := by
  unfold ChainFromCertificateAndIntermediatesData at h
  cases hp : parseCertificates env data with
  | error err => simp [hp] at h
  | ok inter =>
    simp only [hp] at h
    cases hca : env.CACerts with
    | error err =>
      obtain ⟨msg, wp, hpanic⟩ := MustCertPool_panic env err w hw.1 hca
      simp [hpanic] at h
    | ok bundle =>
      obtain ⟨wm, hm, hcm, hrm⟩ := MustCertPool_ok env bundle w hw hca
      have hpool : inter.foldl X509CertPool.AddCert NewCertPool = inter := by
        have : ∀ (l : List X509Certificate) (p : X509CertPool),
            l.foldl X509CertPool.AddCert p = p ++ l := by
          intro l
          induction l with
          | nil => simp
          | cons x xs ih =>
            intro p
            rw [List.foldl_cons, ih]
            simp [X509CertPool.AddCert]
        simpa [NewCertPool] using this inter []
      simp only [hm, x509CertificateVerify, hpool] at h
      cases hv : env.x509Verify leaf.Certificate
          { DNSName := "", Intermediates := inter, Roots := bundle, CurrentTime := env.now } with
      | error e =>
        rw [hv] at h
        cases e <;> simp at h
      | ok chains =>
        rw [hv] at h
        cases chains with
        | nil => simp at h
        | cons first more =>
          simp only [] at h
          have hcv : World.Coherent env
              { wm with verified := wm.verified ++
                [(leaf.Certificate, { DNSName := "", Intermediates := inter, Roots := bundle,
                                      CurrentTime := env.now })] } := ⟨hcm.1, hcm.2⟩
          obtain ⟨w3, h3, hc3, hr3⟩ := collectIntermediates_spec env bundle hca first.tail [] _ hcv
          rw [h3] at h
          simp only [Outcome.ret.injEq, Except.ok.injEq, List.nil_append] at h
          refine ⟨bundle, inter, first, more, rfl, rfl, hv, h.1.symm, ?_, ?_⟩
          · rw [← h.2]
            exact hc3
          · rw [← h.2, hr3.1]
            exact hrm.1

/-- C3: when `ChainFromCertificateAndIntermediatesData` returns a chain, its Leaf is
the given leaf, private key included, and its Intermediates are the first
verified path of the trust engine without its first element, cut at the first
bundled root: they are the longest prefix free of bundled roots, each stored
without a key, and what is dropped is empty or starts with a bundled root. -/
theorem chainFromIntermediatesData_stops_at_first_root (env : Env) (leaf : Certificate)
    (data : Bytes) (w w1 : World) (chain : CertificateChain) (hw : w.Coherent env)
    (h : ChainFromCertificateAndIntermediatesData env leaf data w = .ret (.ok chain) w1) :
    chain.Leaf = some leaf ∧
    ∃ bundle intermediatesX509 first more dropped,
      env.CACerts = .ok bundle ∧
      parseCertificates env data = .ok intermediatesX509 ∧
      env.x509Verify leaf.Certificate
        { DNSName := "", Intermediates := intermediatesX509, Roots := bundle,
          CurrentTime := env.now } = .ok (first :: more) ∧
      chain.Intermediates =
        (first.tail.takeWhile fun x => !env.isBundledRoot x).map Certificate.ofX509 ∧
      first.tail = chain.Intermediates.map (·.Certificate) ++ dropped ∧
      (∀ c ∈ chain.Intermediates, env.isBundledRoot c.Certificate = false ∧ c.PrivateKey = none) ∧
      (∀ x, dropped.head? = some x → env.isBundledRoot x = true) := by
  obtain ⟨bundle, inter, first, more, hca, hp, hv, hchain, _, _⟩ :=
    chainFromIntermediatesData_ret env leaf data w w1 chain hw h
  subst hchain
  refine ⟨rfl, bundle, inter, first, more,
    first.tail.dropWhile (fun x => !env.isBundledRoot x), hca, hp, hv, rfl, ?_, ?_, ?_⟩
  · simp only [List.map_map]
    have hid : (fun x : Certificate => x.Certificate) ∘ Certificate.ofX509 = id := by
      funext x
      rfl
    rw [hid, List.map_id, List.takeWhile_append_dropWhile]
  · intro c hc
    simp only [List.mem_map] at hc
    obtain ⟨x, hx, hxc⟩ := hc
    have := List.mem_takeWhile_imp hx
    subst hxc
    simp only [Bool.not_eq_true'] at this
    exact ⟨this, rfl⟩
  · intro x hx
    have := List.head?_dropWhile_not (fun x => !env.isBundledRoot x) first.tail
    rw [hx] at this
    simpa using this

theorem chainFromIntermediatesData_stops_at_first_root_witness :
    ChainFromCertificateAndIntermediatesData demoEnv ⟨demoLeaf, some (.rsa demoKey)⟩ [45, 0, 2]
        World.init
      = .ret (.ok ⟨some ⟨demoLeaf, some (.rsa demoKey)⟩, [⟨demoMid, none⟩]⟩)
          { certPoolCache := some [demoRoot], certPoolSubjectSetCache := some [[3]], loads := 1,
            fetched := [],
            verified := [(demoLeaf, { DNSName := "", Intermediates := [demoMid],
                                      Roots := [demoRoot], CurrentTime := 0 })],
            stderr := [] } ∧
    (⟨some ⟨demoLeaf, some (.rsa demoKey)⟩, [⟨demoMid, none⟩]⟩ : CertificateChain).Leaf
      = some ⟨demoLeaf, some (.rsa demoKey)⟩ :=
  ⟨rfl,
   (chainFromIntermediatesData_stops_at_first_root demoEnv ⟨demoLeaf, some (.rsa demoKey)⟩ [45, 0, 2]
      World.init _ _ (World.init_coherent _) rfl).1⟩

/-! ### The chain invariant across the five builders -/

theorem WalkTo_not_bundled (env : Env) (c root : X509Certificate) (visited : List X509Certificate)
    (h : env.WalkTo c visited root) : ∀ x ∈ visited, env.isBundledRoot x = false := by
  induction h with
  | done c _ => simp
  | hop c next visited root hc _ _ ih =>
    intro x hx
    rcases List.mem_cons.mp hx with rfl | hx
    · exact hc
    · exact ih x hx

theorem WalkTo_root_bundled (env : Env) (c root : X509Certificate) (visited : List X509Certificate)
    (h : env.WalkTo c visited root) : env.isBundledRoot root = true := by
  induction h with
  | done c hc => exact hc
  | hop _ _ _ _ _ _ _ ih => exact ih

/-- Every return of `ChainFromCertificateAndInternet` with a chain comes from a
completed walk from the leaf: the chain is the leaf with the certificates passed
after it, and the fetches are those of the hops. -/
theorem chainFromInternet_ok (env : Env) (fuel : Nat) (leaf : Certificate) (w w1 : World)
    (chain : CertificateChain) (hw : w.Coherent env)
    (h : ChainFromCertificateAndInternet env fuel leaf w = some (.ret (.ok chain) w1)) :
    ∃ visited root, env.WalkTo leaf.Certificate visited root ∧
      chain = { Leaf := some leaf, Intermediates := visited.tail.map Certificate.ofX509 } ∧
      w1.fetched = w.fetched ++ env.walkFetches visited ∧ w1.Coherent env := by
  cases hca : env.CACerts with
  | error err =>
    exfalso
    cases fuel with
    | zero => simp [ChainFromCertificateAndInternet, internetWalk] at h
    | succ n =>
      obtain ⟨msg, wp, hpanic⟩ := certInPool_panic env err leaf.Certificate w hw hca
      unfold ChainFromCertificateAndInternet internetWalk at h
      simp [Certificate.IsBundled, hpanic] at h
  | ok bundle =>
    obtain ⟨hc1, _, hcases⟩ := internetWalk_ret env bundle hca fuel leaf true _ w _ w1 hw
      (fun hf => by cases hf) h
    rcases hcases with ⟨visited, root, hwalk, hr, hfet⟩ | ⟨visited, msg, _, hr, _⟩
    · refine ⟨visited, root, hwalk, ?_, hfet, hc1⟩
      simp only [Except.ok.injEq, if_true, List.nil_append] at hr
      exact hr
    · cases hr

/-- C2, counterexample: the full-chain builder, the AWS builder and the handshake
builder each return a chain whose Intermediates hold a bundled root. -/
theorem builders_keep_bundled_root :
    demoEnv.isBundledRoot demoRoot = true ∧
    ChainFromFullChainData demoEnv [45, 0, 1, 45, 0, 3]
      = .ok { Leaf := some ⟨demoLeaf, none⟩, Intermediates := [⟨demoRoot, none⟩] } ∧
    ChainFromAWS demoEnv { CertificateBody := some [45, 0, 1], CertificateChain := some [2, 3] }
        World.init
      = .ret (.ok { Leaf := some ⟨demoLeaf, none⟩,
                    Intermediates := [⟨demoMid, none⟩, ⟨demoRoot, none⟩] }) World.init ∧
    FetchCertificateChain demoEnv "example.org" "443" World.init
      = .ret (.ok { Leaf := some ⟨demoLeaf, none⟩,
                    Intermediates := [⟨demoMid, none⟩, ⟨demoRoot, none⟩] })
          { World.init with certPoolCache := some [demoRoot], loads := 1 } :=
  ⟨rfl, rfl, rfl, rfl⟩

/-- C2, amended: every chain returned without error by one of the five builders has
its Leaf set. A chain returned by `ChainFromCertificateAndIntermediatesData` or by
`ChainFromCertificateAndInternet` has the given leaf as Leaf and no bundled root
among its Intermediates; `ChainFromFullChainData`, `ChainFromAWS` and
`FetchCertificateChain` keep as Intermediates every certificate after the first
(for AWS: every certificate of the chain blob), bundled roots included. -/
theorem builders_leaf_set_and_root_filtering (env : Env) (w : World) (hw : w.Coherent env) :
    (∀ leaf data chain w1,
      ChainFromCertificateAndIntermediatesData env leaf data w = .ret (.ok chain) w1 →
      chain.Leaf = some leaf ∧ ∀ c ∈ chain.Intermediates, env.isBundledRoot c.Certificate = false) ∧
    (∀ fuel leaf chain w1,
      ChainFromCertificateAndInternet env fuel leaf w = some (.ret (.ok chain) w1) →
      chain.Leaf = some leaf ∧ ∀ c ∈ chain.Intermediates, env.isBundledRoot c.Certificate = false) ∧
    (∀ data chain, ChainFromFullChainData env data = .ok chain →
      ∃ first more, parseCertificates env data = .ok (first :: more) ∧
        chain.Leaf = some (Certificate.ofX509 first) ∧
        chain.Intermediates = more.map Certificate.ofX509) ∧
    (∀ aws chain w1, ChainFromAWS env aws w = .ret (.ok chain) w1 →
      ∃ leaf, chain.Leaf = some leaf ∧
        ((aws.CertificateChain = none ∧ chain.Intermediates = []) ∨
          ∃ blob certs, aws.CertificateChain = some blob ∧
            parseCertificates env blob = .ok certs ∧
            chain.Intermediates = certs.map Certificate.ofX509)) ∧
    (∀ host port chain w1, FetchCertificateChain env host port w = .ret (.ok chain) w1 →
      ∃ bundle first more, env.CACerts = .ok bundle ∧
        env.tlsDial host port bundle = .ok (first :: more) ∧
        chain.Leaf = some (Certificate.ofX509 first) ∧
        chain.Intermediates = more.map Certificate.ofX509) := by
  refine ⟨?_, ?_, ?_, ?_, ?_⟩
  · intro leaf data chain w1 h
    obtain ⟨bundle, inter, first, more, _, _, _, hchain, _, _⟩ :=
      chainFromIntermediatesData_ret env leaf data w w1 chain hw h
    subst hchain
    refine ⟨rfl, ?_⟩
    intro c hc
    simp only [List.mem_map] at hc
    obtain ⟨x, hx, hxc⟩ := hc
    have := List.mem_takeWhile_imp hx
    subst hxc
    simpa using this
  · intro fuel leaf chain w1 h
    obtain ⟨visited, root, hwalk, hchain, _, _⟩ := chainFromInternet_ok env fuel leaf w w1 chain hw h
    subst hchain
    refine ⟨rfl, ?_⟩
    intro c hc
    simp only [List.mem_map] at hc
    obtain ⟨x, hx, hxc⟩ := hc
    subst hxc
    exact WalkTo_not_bundled env _ _ _ hwalk x (List.mem_of_mem_tail hx)
  · intro data chain h
    unfold ChainFromFullChainData at h
    cases hp : parseCertificates env data with
    | error err => simp [hp] at h
    | ok certs =>
      cases certs with
      | nil => simp [hp] at h
      | cons first more =>
        simp only [hp, Except.ok.injEq] at h
        subst h
        exact ⟨first, more, rfl, rfl, rfl⟩
  · intro aws chain w1 h
    unfold ChainFromAWS at h
    cases hbody : aws.CertificateBody with
    | none => simp [hbody] at h
    | some body =>
      obtain ⟨wp, hpc, _⟩ := parseCertificate_spec env body w
      simp only [hbody, hpc] at h
      split at h
      · cases h
      · simp at h
      · rename_i leafX509 w2 heq
        cases hchain : aws.CertificateChain with
        | none =>
          simp only [hchain, Outcome.ret.injEq, Except.ok.injEq] at h
          refine ⟨{ Certificate := leafX509, PrivateKey := none }, ?_, Or.inl ⟨rfl, ?_⟩⟩
          · rw [← h.1]
          · rw [← h.1]
        | some blob =>
          simp only [hchain] at h
          cases hpb : parseCertificates env blob with
          | error err => simp [hpb] at h
          | ok certs =>
            simp only [hpb, Outcome.ret.injEq, Except.ok.injEq] at h
            refine ⟨{ Certificate := leafX509, PrivateKey := none }, ?_,
              Or.inr ⟨blob, certs, rfl, hpb, ?_⟩⟩
            · rw [← h.1]
            · rw [← h.1]
              rfl
  · intro host port chain w1 h
    unfold FetchCertificateChain at h
    cases hca : env.CACerts with
    | error err =>
      obtain ⟨msg, wp, hpanic⟩ := MustCertPool_panic env err w hw.1 hca
      simp [hpanic] at h
    | ok bundle =>
      obtain ⟨wm, hm, _, _⟩ := MustCertPool_ok env bundle w hw hca
      simp only [hm] at h
      cases hd : env.tlsDial host port bundle with
      | error err => simp [hd] at h
      | ok peers =>
        cases peers with
        | nil => exact absurd rfl (env.tlsDial_nonempty host port bundle [] hd)
        | cons cert more =>
          simp only [hd, Outcome.ret.injEq, Except.ok.injEq] at h
          refine ⟨bundle, cert, more, rfl, hd, ?_, ?_⟩
          · rw [← h.1]
            rfl
          · rw [← h.1]
            rfl

theorem builders_leaf_set_and_root_filtering_witness :
    ChainFromCertificateAndInternet demoEnv 3 ⟨demoLeaf, some (.rsa demoKey)⟩ World.init
      = some (.ret (.ok ⟨some ⟨demoLeaf, some (.rsa demoKey)⟩, [⟨demoMid, none⟩]⟩)
          { certPoolCache := some [demoRoot], certPoolSubjectSetCache := some [[3]], loads := 1,
            fetched := ["u1", "u2", "u3"], verified := [], stderr := [] }) ∧
    ∀ c ∈ [(⟨demoMid, none⟩ : Certificate)], demoEnv.isBundledRoot c.Certificate = false :=
  ⟨rfl,
   ((builders_leaf_set_and_root_filtering demoEnv World.init (World.init_coherent _)).2.1
      3 ⟨demoLeaf, some (.rsa demoKey)⟩ ⟨some ⟨demoLeaf, some (.rsa demoKey)⟩, [⟨demoMid, none⟩]⟩
      _ rfl).2⟩

/-! ### What the internet walk collects -/

theorem WalkTo_deterministic (env : Env) (c root : X509Certificate)
    (visited : List X509Certificate) (h : env.WalkTo c visited root) :
    ∀ visited2 root2, env.WalkTo c visited2 root2 → visited2 = visited := by
  induction h with
  | done c hc =>
    intro visited2 root2 h2
    cases h2 with
    | done _ _ => rfl
    | hop _ _ _ _ hc2 _ _ => rw [hc] at hc2; cases hc2
  | hop c next visited root hc hnext _ ih =>
    intro visited2 root2 h2
    cases h2 with
    | done _ hc2 => rw [hc] at hc2; cases hc2
    | hop _ next2 visited3 _ _ hnext2 hwalk2 =>
      rw [hnext] at hnext2
      cases hnext2
      rw [ih visited3 root2 hwalk2]

theorem WalkTo_from_visited (env : Env) (c root : X509Certificate)
    (visited : List X509Certificate) (h : env.WalkTo c visited root) :
    ∀ x ∈ visited, ∃ visited2, env.WalkTo x visited2 root ∧ visited2.length ≤ visited.length := by
  induction h with
  | done c _ => simp
  | hop c next visited root hc hnext hwalk ih =>
    intro x hx
    rcases List.mem_cons.mp hx with rfl | hx
    · exact ⟨x :: visited, .hop _ next _ _ hc hnext hwalk, le_refl _⟩
    · obtain ⟨visited2, h2, hlen⟩ := ih x hx
      exact ⟨visited2, h2, by simp only [List.length_cons]; omega⟩

/-- The certificates fetched on a completed walk are the certificates passed after
the first, followed by the root. -/
theorem WalkTo_fetched (env : Env) (c root : X509Certificate) (visited : List X509Certificate)
    (h : env.WalkTo c visited root) :
    c :: (env.walkFetches visited).filterMap env.fetchCertificate = visited ++ [root] := by
  induction h with
  | done c _ => simp [Env.walkFetches]
  | hop c next visited root _ hnext _ ih =>
    have : env.walkFetches (c :: visited)
        = env.hopFetches c.IssuingCertificateURL ++ env.walkFetches visited := by
      simp [Env.walkFetches]
    rw [this, List.filterMap_append, hopFetches_of_findSome]
    unfold Env.nextCertificate at hnext
    rw [hnext]
    simp only [Option.toList, List.singleton_append, List.nil_append, ih, List.cons_append]

theorem takeWhile_append_singleton {α : Type} (p : α → Bool) (l : List α) (r : α)
    (hl : ∀ x ∈ l, p x = true) (hr : p r = false) : (l ++ [r]).takeWhile p = l := by
  induction l with
  | nil => simp [List.takeWhile, hr]
  | cons x xs ih =>
    have hx := hl x (List.mem_cons_self _ _)
    have ih2 := ih (fun y hy => hl y (List.mem_cons_of_mem _ hy))
    simp only [List.cons_append, List.takeWhile_cons, hx, if_true, ih2]

/-- C4: when `ChainFromCertificateAndInternet` returns a chain, its Leaf is the given
leaf and its Intermediates are the certificates fetched by the call, in fetch
order, up to but excluding the first one that is a bundled root, each stored
without a key; no Intermediate is the leaf's certificate; and for a leaf that is
itself a bundled root the builder returns the leaf with no Intermediates and
fetches nothing. -/
theorem chainFromInternet_collects_fetched (env : Env) (w : World) (hw : w.Coherent env) :
    (∀ fuel leaf chain w1,
      ChainFromCertificateAndInternet env fuel leaf w = some (.ret (.ok chain) w1) →
      chain.Leaf = some leaf ∧
      (∀ c ∈ chain.Intermediates, c.Certificate ≠ leaf.Certificate) ∧
      ∃ urls, w1.fetched = w.fetched ++ urls ∧
        chain.Intermediates =
          ((urls.filterMap env.fetchCertificate).takeWhile fun c => !env.isBundledRoot c).map
            Certificate.ofX509) ∧
    (∀ fuel leaf, env.isBundledRoot leaf.Certificate = true →
      ∃ w1, ChainFromCertificateAndInternet env (fuel + 1) leaf w
          = some (.ret (.ok { Leaf := some leaf, Intermediates := [] }) w1) ∧
        w1.fetched = w.fetched) := by
  constructor
  · intro fuel leaf chain w1 h
    obtain ⟨visited, root, hwalk, hchain, hfet, _⟩ :=
      chainFromInternet_ok env fuel leaf w w1 chain hw h
    subst hchain
    refine ⟨rfl, ?_, env.walkFetches visited, hfet, ?_⟩
    · intro c hc heq
      simp only [List.mem_map] at hc
      obtain ⟨x, hx, hxc⟩ := hc
      subst hxc
      simp only [Certificate.ofX509] at heq
      cases hwalk with
      | done _ _ => simp at hx
      | hop _ next visited2 _ hroot hnext hwalk2 =>
        simp only [List.tail_cons] at hx
        obtain ⟨visited3, h3, hlen⟩ := WalkTo_from_visited env _ _ _ hwalk2 x hx
        rw [heq] at h3
        have := WalkTo_deterministic env _ _ _ (.hop _ next _ _ hroot hnext hwalk2) visited3 root h3
        rw [this] at hlen
        simp only [List.length_cons] at hlen
        omega
    · have hf := WalkTo_fetched env _ _ _ hwalk
      cases hwalk with
      | done _ _ => simp [Env.walkFetches]
      | hop _ next visited2 _ hroot hnext hwalk2 =>
        simp only [List.cons_append, List.cons.injEq, true_and] at hf
        rw [hf, List.tail_cons]
        rw [takeWhile_append_singleton]
        · intro x hx
          simp [WalkTo_not_bundled env _ _ _ hwalk2 x hx]
        · simp [WalkTo_root_bundled env _ _ _ hwalk2]
  · intro fuel leaf hroot
    cases hca : env.CACerts with
    | error err => simp [Env.isBundledRoot, hca] at hroot
    | ok bundle =>
      obtain ⟨wb, hbun, _, hrb⟩ := IsBundled_ok env bundle leaf w hw hca
      refine ⟨wb, ?_, hrb.1⟩
      unfold ChainFromCertificateAndInternet internetWalk
      simp only [hbun, hroot]

theorem chainFromInternet_collects_fetched_witness :
    ChainFromCertificateAndInternet demoEnv 3 ⟨demoLeaf, some (.rsa demoKey)⟩ World.init
      = some (.ret (.ok ⟨some ⟨demoLeaf, some (.rsa demoKey)⟩, [⟨demoMid, none⟩]⟩)
          { certPoolCache := some [demoRoot], certPoolSubjectSetCache := some [[3]], loads := 1,
            fetched := ["u1", "u2", "u3"], verified := [], stderr := [] }) ∧
    (["u1", "u2", "u3"].filterMap demoEnv.fetchCertificate = [demoMid, demoRoot]) ∧
    ∀ c ∈ [(⟨demoMid, none⟩ : Certificate)], c.Certificate ≠ demoLeaf :=
  ⟨rfl, rfl,
   ((chainFromInternet_collects_fetched demoEnv World.init (World.init_coherent _)).1
      3 ⟨demoLeaf, some (.rsa demoKey)⟩ ⟨some ⟨demoLeaf, some (.rsa demoKey)⟩, [⟨demoMid, none⟩]⟩
      _ rfl).2.1⟩

/-! ### When the internet walk fails -/

theorem Reaches_of_next (env : Env) (c next x : X509Certificate)
    (hc : env.isBundledRoot c = false) (hnext : env.nextCertificate c = some next)
    (h : env.Reaches next x) : env.Reaches c x := by
  induction h with
  | start => exact .hop c next .start hc hnext
  | hop a b _ ha hb ih => exact .hop a b ih ha hb

theorem WalkTo_reaches (env : Env) (c root : X509Certificate) (visited : List X509Certificate)
    (h : env.WalkTo c visited root) :
    env.Reaches c root ∧ ∀ x ∈ visited, env.Reaches c x := by
  induction h with
  | done c _ => exact ⟨.start, by simp⟩
  | hop c next visited root hc hnext _ ih =>
    refine ⟨Reaches_of_next env c next root hc hnext ih.1, ?_⟩
    intro x hx
    rcases List.mem_cons.mp hx with rfl | hx
    · exact .start
    · exact Reaches_of_next env c next x hc hnext (ih.2 x hx)

theorem WalkTo_chain (env : Env) (c root : X509Certificate) (visited : List X509Certificate)
    (h : env.WalkTo c visited root) :
    List.Chain' (fun a b => env.nextCertificate a = some b) visited ∧
      ∀ x, visited.head? = some x → x = c := by
  induction h with
  | done c _ => simp
  | hop c next visited root _ hnext _ ih =>
    refine ⟨List.chain'_cons'.mpr ⟨?_, ih.1⟩, by simp⟩
    intro y hy
    rw [ih.2 y hy]
    exact hnext

theorem WalkTo_nodup (env : Env) (c root : X509Certificate) (visited : List X509Certificate)
    (h : env.WalkTo c visited root) : visited.Nodup := by
  induction h with
  | done c _ => simp
  | hop c next visited root hc hnext hwalk ih =>
    refine List.nodup_cons.mpr ⟨?_, ih⟩
    intro hmem
    obtain ⟨visited2, h2, hlen⟩ := WalkTo_from_visited env _ _ _ hwalk c hmem
    have := WalkTo_deterministic env _ _ _ (.hop _ next _ _ hc hnext hwalk) visited2 root h2
    rw [this] at hlen
    simp only [List.length_cons] at hlen
    omega

/-- On a completed walk every certificate reached is the root or has a next certificate. -/
theorem WalkTo_reached_has_next (env : Env) (c root : X509Certificate)
    (visited : List X509Certificate) (h : env.WalkTo c visited root) :
    ∀ x, env.Reaches c x → env.isBundledRoot x = false → ∃ n, env.nextCertificate x = some n := by
  have hstep : ∀ (a r : X509Certificate) (vs : List X509Certificate), env.WalkTo a vs r →
      (a ∈ vs ∨ a = r) ∧ (∀ x ∈ vs, ∃ n, env.nextCertificate x = some n ∧ (n ∈ vs ∨ n = r)) := by
    intro a r vs hw
    induction hw with
    | done c _ => exact ⟨Or.inr rfl, by simp⟩
    | hop c next visited root _ hnext _ ih =>
      refine ⟨Or.inl (List.mem_cons_self _ _), ?_⟩
      intro x hx
      rcases List.mem_cons.mp hx with rfl | hx
      · refine ⟨next, hnext, ?_⟩
        rcases ih.1 with h1 | h1
        · exact Or.inl (List.mem_cons_of_mem _ h1)
        · exact Or.inr h1
      · obtain ⟨n, hn, hmem⟩ := ih.2 x hx
        refine ⟨n, hn, ?_⟩
        rcases hmem with h1 | h1
        · exact Or.inl (List.mem_cons_of_mem _ h1)
        · exact Or.inr h1
  have hroot := WalkTo_root_bundled env _ _ _ h
  have hmem : ∀ x, env.Reaches c x → x ∈ visited ∨ x = root := by
    intro x hx
    induction hx with
    | start => exact (hstep _ _ _ h).1
    | hop a b _ ha hb ih =>
      rcases ih with h1 | h1
      · obtain ⟨n, hn, hmem⟩ := (hstep _ _ _ h).2 a h1
        rw [hb] at hn
        cases hn
        exact hmem
      · rw [h1, hroot] at ha
        cases ha
  intro x hx hxb
  rcases hmem x hx with h1 | h1
  · obtain ⟨n, hn, _⟩ := (hstep _ _ _ h).2 x h1
    exact ⟨n, hn⟩
  · rw [h1, hroot] at hxb
    cases hxb

theorem WalkStuck_deterministic (env : Env) (c : X509Certificate)
    (visited : List X509Certificate) (h : env.WalkStuck c visited) :
    ∀ visited2, env.WalkStuck c visited2 → visited2 = visited := by
  induction h with
  | stuck c _ hnext =>
    intro visited2 h2
    cases h2 with
    | stuck _ _ _ => rfl
    | hop _ _ _ _ hnext2 _ => rw [hnext] at hnext2; cases hnext2
  | hop c next visited _ hnext _ ih =>
    intro visited2 h2
    cases h2 with
    | stuck _ _ hnext2 => rw [hnext] at hnext2; cases hnext2
    | hop _ next2 visited3 _ hnext2 hwalk2 =>
      rw [hnext] at hnext2
      cases hnext2
      rw [ih visited3 hwalk2]

theorem WalkStuck_from_visited (env : Env) (c : X509Certificate)
    (visited : List X509Certificate) (h : env.WalkStuck c visited) :
    ∀ x ∈ visited, ∃ visited2, env.WalkStuck x visited2 ∧ visited2.length ≤ visited.length := by
  induction h with
  | stuck c hc hnext =>
    intro x hx
    rw [List.mem_singleton] at hx
    subst hx
    exact ⟨[x], .stuck _ hc hnext, le_refl _⟩
  | hop c next visited hc hnext hwalk ih =>
    intro x hx
    rcases List.mem_cons.mp hx with rfl | hx
    · exact ⟨x :: visited, .hop _ next _ hc hnext hwalk, le_refl _⟩
    · obtain ⟨visited2, h2, hlen⟩ := ih x hx
      exact ⟨visited2, h2, by simp only [List.length_cons]; omega⟩

theorem WalkStuck_nodup (env : Env) (c : X509Certificate) (visited : List X509Certificate)
    (h : env.WalkStuck c visited) : visited.Nodup := by
  induction h with
  | stuck c _ _ => simp
  | hop c next visited hc hnext hwalk ih =>
    refine List.nodup_cons.mpr ⟨?_, ih⟩
    intro hmem
    obtain ⟨visited2, h2, hlen⟩ := WalkStuck_from_visited env _ _ hwalk c hmem
    have := WalkStuck_deterministic env _ _ (.hop _ next _ hc hnext hwalk) visited2 h2
    rw [this] at hlen
    simp only [List.length_cons] at hlen
    omega

theorem WalkStuck_facts (env : Env) (c : X509Certificate) (visited : List X509Certificate)
    (h : env.WalkStuck c visited) :
    (∀ x ∈ visited, env.Reaches c x ∧ env.isBundledRoot x = false) ∧
    (List.Chain' (fun a b => env.nextCertificate a = some b) visited ∧
      ∀ x, visited.head? = some x → x = c) ∧
    ∃ before last, visited = before ++ [last] ∧ env.nextCertificate last = none := by
  induction h with
  | stuck c hc hnext =>
    refine ⟨?_, ⟨List.chain'_singleton _, by simp⟩, [], c, rfl, hnext⟩
    intro x hx
    rw [List.mem_singleton] at hx
    subst hx
    exact ⟨.start, hc⟩
  | hop c next visited hc hnext _ ih =>
    obtain ⟨hall, ⟨hchain, hhead⟩, before, last, hsplit, hlast⟩ := ih
    refine ⟨?_, ⟨List.chain'_cons'.mpr ⟨?_, hchain⟩, by simp⟩, c :: before, last, ?_, hlast⟩
    · intro x hx
      rcases List.mem_cons.mp hx with rfl | hx
      · exact ⟨.start, hc⟩
      · exact ⟨Reaches_of_next env _ next x hc hnext (hall x hx).1, (hall x hx).2⟩
    · intro y hy
      rw [hhead y hy]
      exact hnext
    · rw [hsplit]
      rfl

theorem hopFetches_initial_segment (env : Env) (urls : List String) : env.hopFetches urls <+: urls := by
  induction urls with
  | nil => exact List.prefix_refl _
  | cons url more ih =>
    unfold Env.hopFetches
    by_cases h : (env.fetchCertificate url).isSome
    · simp only [h, if_true]
      exact ⟨more, rfl⟩
    · simp only [h]
      exact (List.prefix_cons_inj url).mpr ih

theorem hopFetches_all_fail (env : Env) (urls : List String)
    (h : ∀ url ∈ urls, env.fetchCertificate url = none) : env.hopFetches urls = urls := by
  induction urls with
  | nil => rfl
  | cons url more ih =>
    unfold Env.hopFetches
    have h1 := h url (List.mem_cons_self _ _)
    simp only [h1, Option.isSome_none, Bool.false_eq_true, if_false]
    rw [ih (fun u hu => h u (List.mem_cons_of_mem _ hu))]

/-- Every return of `ChainFromCertificateAndInternet` with an error comes from a walk
that got stuck, and the fetches are those of the hops made. -/
theorem chainFromInternet_error (env : Env) (fuel : Nat) (leaf : Certificate) (w w1 : World)
    (err : GoError) (hw : w.Coherent env)
    (h : ChainFromCertificateAndInternet env fuel leaf w = some (.ret (.error err) w1)) :
    ∃ visited msg, env.WalkStuck leaf.Certificate visited ∧ err = .errorString msg ∧
      w1.fetched = w.fetched ++ env.walkFetches visited := by
  cases hca : env.CACerts with
  | error e =>
    exfalso
    cases fuel with
    | zero => simp [ChainFromCertificateAndInternet, internetWalk] at h
    | succ n =>
      obtain ⟨msg, wp, hpanic⟩ := certInPool_panic env e leaf.Certificate w hw hca
      unfold ChainFromCertificateAndInternet internetWalk at h
      simp [Certificate.IsBundled, hpanic] at h
  | ok bundle =>
    obtain ⟨_, _, hcases⟩ := internetWalk_ret env bundle hca fuel leaf true _ w _ w1 hw
      (fun hf => by cases hf) h
    rcases hcases with ⟨visited, root, _, hr, _⟩ | ⟨visited, msg, hwalk, hr, hfet⟩
    · cases hr
    · simp only [Except.error.injEq] at hr
      exact ⟨visited, msg, hwalk, hr, hfet⟩

/-- C6: whenever `ChainFromCertificateAndInternet` returns, it returns an error if and
only if some certificate reached by the walk is not a bundled root and has no
issuer URL or only issuer URLs whose fetch fails. The certificates at which the
walk made a hop are reached, not bundled, in walk order and pairwise distinct
(no hop is made twice); the URLs fetched are, hop after hop, an initial segment
of the certificate's URL list (each listed URL at most once); and when an error
is returned the last hop has tried the whole list, all fetches failed, and
nothing is fetched after it. -/
theorem chainFromInternet_error_iff_dead_end (env : Env) (fuel : Nat) (leaf : Certificate)
    (w w1 : World) (r : Except GoError CertificateChain) (hw : w.Coherent env)
    (h : ChainFromCertificateAndInternet env fuel leaf w = some (.ret r w1)) :
    ((∃ err, r = .error err) ↔
      ∃ c, env.Reaches leaf.Certificate c ∧ env.isBundledRoot c = false ∧
        (c.IssuingCertificateURL = [] ∨
          ∀ url ∈ c.IssuingCertificateURL, env.fetchCertificate url = none)) ∧
    ∃ visited : List X509Certificate,
      (∀ c ∈ visited, env.Reaches leaf.Certificate c ∧ env.isBundledRoot c = false) ∧
      List.Chain' (fun a b => env.nextCertificate a = some b) visited ∧
      visited.Nodup ∧
      w1.fetched = w.fetched ++
        visited.flatMap (fun c => env.hopFetches c.IssuingCertificateURL) ∧
      (∀ c ∈ visited, env.hopFetches c.IssuingCertificateURL <+: c.IssuingCertificateURL) ∧
      ((∃ err, r = .error err) →
        ∃ before last, visited = before ++ [last] ∧
          (∀ url ∈ last.IssuingCertificateURL, env.fetchCertificate url = none) ∧
          w1.fetched = w.fetched ++
            before.flatMap (fun c => env.hopFetches c.IssuingCertificateURL) ++
            last.IssuingCertificateURL) := by
  cases r with
  | ok chain =>
    obtain ⟨visited, root, hwalk, _, hfet, _⟩ :=
      chainFromInternet_ok env fuel leaf w w1 chain hw h
    refine ⟨⟨?_, ?_⟩, visited, ?_, (WalkTo_chain env _ _ _ hwalk).1,
      WalkTo_nodup env _ _ _ hwalk, hfet, fun c _ => hopFetches_initial_segment env _, ?_⟩
    · rintro ⟨err, herr⟩
      cases herr
    · rintro ⟨c, hreach, hroot, hurls⟩
      exfalso
      obtain ⟨n, hn⟩ := WalkTo_reached_has_next env _ _ _ hwalk c hreach hroot
      have hnone : env.nextCertificate c = none := by
        unfold Env.nextCertificate
        rw [List.findSome?_eq_none_iff]
        rcases hurls with h0 | hall
        · rw [h0]
          simp
        · exact hall
      rw [hnone] at hn
      cases hn
    · intro c hc
      exact ⟨(WalkTo_reaches env _ _ _ hwalk).2 c hc, WalkTo_not_bundled env _ _ _ hwalk c hc⟩
    · rintro ⟨err, herr⟩
      cases herr
  | error err =>
    obtain ⟨visited, msg, hwalk, _, hfet⟩ := chainFromInternet_error env fuel leaf w w1 err hw h
    obtain ⟨hall, ⟨hchain, _⟩, before, last, hsplit, hlast⟩ := WalkStuck_facts env _ _ hwalk
    have hfail : ∀ url ∈ last.IssuingCertificateURL, env.fetchCertificate url = none := by
      unfold Env.nextCertificate at hlast
      exact List.findSome?_eq_none_iff.mp hlast
    have hlastmem : last ∈ visited := by
      rw [hsplit]
      simp
    refine ⟨⟨fun _ => ⟨last, (hall last hlastmem).1, (hall last hlastmem).2, Or.inr hfail⟩,
      fun _ => ⟨err, rfl⟩⟩, visited, hall, hchain, WalkStuck_nodup env _ _ hwalk, hfet,
      fun c _ => hopFetches_initial_segment env _, ?_⟩
    intro _
    refine ⟨before, last, hsplit, hfail, ?_⟩
    rw [hfet, hsplit]
    simp [Env.walkFetches, hopFetches_all_fail env _ hfail]

theorem chainFromInternet_error_iff_dead_end_witness :
    ∃ c, demoEnv.Reaches demoOrphan c ∧ demoEnv.isBundledRoot c = false ∧
      (c.IssuingCertificateURL = [] ∨
        ∀ url ∈ c.IssuingCertificateURL, demoEnv.fetchCertificate url = none) :=
  (chainFromInternet_error_iff_dead_end demoEnv 3 ⟨demoOrphan, none⟩ World.init
      { certPoolCache := some [demoRoot], certPoolSubjectSetCache := some [[3]], loads := 1,
        fetched := ["u1", "u9"], verified := [], stderr := [] }
      (.error (.errorString ("Unable to fetch next cert in chain: "
        ++ "Unable to fetch certificate from u9: connection refused")))
      (World.init_coherent _) rfl).1.mp ⟨_, rfl⟩

/-! ### One hop of the internet walk -/

theorem hopFetches_first_success (env : Env) (before after : List String) (url : String)
    (next : X509Certificate) (hfail : ∀ u ∈ before, env.fetchCertificate u = none)
    (hok : env.fetchCertificate url = some next) :
    env.hopFetches (before ++ url :: after) = before ++ [url] ∧
      (before ++ url :: after).findSome? env.fetchCertificate = some next := by
  induction before with
  | nil => simp [Env.hopFetches, hok, List.findSome?]
  | cons b more ih =>
    have hb := hfail b (List.mem_cons_self _ _)
    obtain ⟨h1, h2⟩ := ih (fun u hu => hfail u (List.mem_cons_of_mem _ hu))
    simp [Env.hopFetches, hb, List.findSome?, h1, h2]

/-- A hop at a certificate that is not a bundled root and whose key identifier can
be sliced: when the fetches of the URLs `before` fail and the fetch of `url`
succeeds, the walk goes on with the certificate of `url`, having fetched
`before` and `url` and none of the URLs `after`. -/
theorem internetWalk_hop (env : Env) (bundle : X509CertPool) (hb : env.CACerts = .ok bundle)
    (fuel : Nat) (cur : Certificate) (isLeaf : Bool) (rv : CertificateChain) (w : World)
    (hw : w.Coherent env) (hroot : env.isBundledRoot cur.Certificate = false)
    (id : Bytes) (hskid : cur.Certificate.SubjectKeyId.upTo 4 = some id)
    (before after : List String) (url : String) (next : X509Certificate)
    (hurls : cur.Certificate.IssuingCertificateURL = before ++ url :: after)
    (hfail : ∀ u ∈ before, env.fetchCertificate u = none)
    (hok : env.fetchCertificate url = some next) :
    ∃ w2, internetWalk env (fuel + 1) cur isLeaf rv w
        = internetWalk env fuel (Certificate.ofX509 next) false
            (if !isLeaf then { rv with Intermediates := rv.Intermediates ++ [cur] } else rv) w2 ∧
      w2.fetched = w.fetched ++ before ++ [url] ∧ w2.Coherent env := by
  obtain ⟨wb, hbun, hcb, hrb⟩ := IsBundled_ok env bundle cur w hw hb
  obtain ⟨hhop, hfind⟩ := hopFetches_first_success env before after url next hfail hok
  rw [← hurls] at hhop hfind
  have hlen : ¬ cur.Certificate.IssuingCertificateURL.length = 0 := by
    rw [hurls]
    simp
  obtain ⟨rf, wf, hf, f1, _, f3, f4, fok, _⟩ :=
    fetchFirst_spec env cur.Certificate.IssuingCertificateURL
      ("Error fetching intermediates: cert for "
        ++ (hexBytes id ++ " (" ++ cur.Certificate.SubjectCommonName ++ ")")
        ++ " doesn't point to parent") wb
  have hrf := fok next hfind
  subst hrf
  refine ⟨wf, ?_, ?_, coherent_of_caches env wb wf hcb f3 f4⟩
  · conv => lhs; unfold internetWalk
    simp only [hbun, hroot, hlen, if_false, Certificate.ReadableSubject, hskid, Go.pure_apply, hf]
    rfl
  · rw [f1, hhop, hrb.1, List.append_assoc]

/-- C5, the code at the failing input: a leaf that is not a bundled root, carries no
subject key identifier and lists two issuer URLs, of which the first fails and
the second returns the parent. The walk panics before it fetches anything. -/
theorem walk_panics_on_leaf_without_key_identifier :
    demoEnv.isBundledRoot demoLeafNoSkid = false ∧
    demoLeafNoSkid.SubjectKeyId = none ∧
    demoLeafNoSkid.IssuingCertificateURL = ["u1", "u2"] ∧
    demoEnv.fetchCertificate "u1" = none ∧
    demoEnv.fetchCertificate "u2" = some demoMid ∧
    ChainFromCertificateAndInternet demoEnv 3 ⟨demoLeafNoSkid, none⟩ World.init
      = some (.panic "runtime error: slice bounds out of range"
          { certPoolCache := some [demoRoot], certPoolSubjectSetCache := some [[3]], loads := 1,
            fetched := [], verified := [], stderr := [] }) :=
  ⟨rfl, rfl, rfl, rfl, rfl, rfl⟩

/-! ### Parsing certificates -/

/-- Every input has a PEM scan. -/
theorem PemScan_total (env : Env) (data : Bytes) : ∃ blocks final, env.PemScan data blocks final := by
  have key : ∀ (n : Nat) (data : Bytes), data.length < n →
      ∃ blocks final, env.PemScan data blocks final := by
    intro n
    induction n with
    | zero =>
      intro data hlen
      omega
    | succ n ih =>
      intro data hlen
      cases hd : env.pemDecode data with
      | none => exact ⟨[], data, .stop data hd⟩
      | some p =>
        obtain ⟨b, rest⟩ := p
        have hlt := env.pemDecode_shrinks data b rest hd
        obtain ⟨blocks, final, hscan⟩ := ih rest (by omega)
        exact ⟨b :: blocks, final, .block data rest final b blocks hd hscan⟩
  exact key (data.length + 1) data (Nat.lt_succ_self _)

/-- The scanning loop collects the bodies of the `CERTIFICATE` blocks of the scan and
ends with the input left after the last block. -/
theorem scanCertificateBlocks_spec (env : Env) (data final : Bytes) (blocks : List PemBlock)
    (hscan : env.PemScan data blocks final) :
    ∀ (fuel : Nat) (acc : List Bytes), data.length < fuel →
      scanCertificateBlocks env fuel data acc = (acc ++ certificateBodies blocks, final) := by
  induction hscan with
  | stop data hd =>
    intro fuel acc hfuel
    cases fuel with
    | zero => omega
    | succ n => simp [scanCertificateBlocks, hd, certificateBodies]
  | block data rest final b blocks hd _ ih =>
    intro fuel acc hfuel
    cases fuel with
    | zero => omega
    | succ n =>
      have hlt := env.pemDecode_shrinks data b rest hd
      unfold scanCertificateBlocks
      simp only [hd]
      by_cases ht : b.BlockType = "CERTIFICATE"
      · simp only [ht, ne_eq, not_true_eq_false, if_false]
        rw [ih n _ (by omega)]
        simp [certificateBodies, ht]
      · simp only [ne_eq, ht, not_false_eq_true, if_true]
        rw [ih n _ (by omega)]
        simp [certificateBodies, ht]

/-- The decoding loop, on the concatenation of the DER encodings of `certs`, returns
`certs` in order. -/
theorem x509ParseCertificatesLoop_concat (env : Env) (bodies : List Bytes)
    (certs : List X509Certificate) (h : List.Forall₂ env.IsDerOf bodies certs) :
    ∀ (fuel : Nat) (acc : List X509Certificate), bodies.flatten.length < fuel →
      x509ParseCertificatesLoop env fuel bodies.flatten acc = .ok (acc ++ certs) := by
  induction h with
  | nil =>
    intro fuel acc hfuel
    cases fuel with
    | zero => omega
    | succ n => simp [x509ParseCertificatesLoop]
  | @cons body cert bodies certs hder _ ih =>
    intro fuel acc hfuel
    cases fuel with
    | zero => omega
    | succ n =>
      have hone := hder bodies.flatten
      have hlt := env.derParseOne_shrinks _ _ _ hone
      have hpos : (body ++ bodies.flatten).length > 0 := by omega
      simp only [List.flatten_cons] at hfuel ⊢
      unfold x509ParseCertificatesLoop
      simp only [hpos, if_true, hone]
      rw [ih n _ (by omega)]
      simp

/-- The function `parseCertificates` hands to the DER decoder the concatenated bodies
of the `CERTIFICATE` blocks when there is one, and otherwise what is left of the
input after the last PEM block; its result is the decoder's. -/
theorem parseCertificates_eq (env : Env) (data final : Bytes) (blocks : List PemBlock)
    (hscan : env.PemScan data blocks final) :
    parseCertificates env data =
      match x509ParseCertificates env
          (if certificateBodies blocks = [] then final else (certificateBodies blocks).flatten) with
      | .ok certs => .ok certs
      | .error err => .error (.errorString err) := by
  unfold parseCertificates
  rw [scanCertificateBlocks_spec env data final blocks hscan _ _ (Nat.lt_succ_self _)]
  simp only [List.nil_append]
  by_cases hb : certificateBodies blocks = []
  · simp only [hb, List.length_nil, gt_iff_lt, lt_self_iff_false, if_false, if_true]
    cases x509ParseCertificates env final <;> rfl
  · have hlen : (certificateBodies blocks).length > 0 := List.length_pos.mpr hb
    simp only [hlen, if_true, hb, if_false]
    cases x509ParseCertificates env (certificateBodies blocks).flatten <;> rfl

/-- C7: for an input whose PEM scan holds at least one block of type `CERTIFICATE`,
interleaved in any way with blocks of other types, the DER decoder receives
exactly the concatenation of the bodies of the `CERTIFICATE` blocks, in input
order, and `parseCertificates` returns the decoder's result; when each of those
bodies is the DER encoding of one certificate, the result is exactly those
certificates in input order. -/
theorem parseCertificates_returns_certificate_blocks (env : Env) (data final : Bytes)
    (blocks : List PemBlock) (hscan : env.PemScan data blocks final)
    (hN : 1 ≤ (certificateBodies blocks).length) :
    (parseCertificates env data =
      match x509ParseCertificates env (certificateBodies blocks).flatten with
      | .ok certs => .ok certs
      | .error err => .error (.errorString err)) ∧
    ∀ certs, List.Forall₂ env.IsDerOf (certificateBodies blocks) certs →
      parseCertificates env data = .ok certs ∧ certs.length = (certificateBodies blocks).length := by
  have hne : certificateBodies blocks ≠ [] := by
    intro h0
    rw [h0] at hN
    simp at hN
  have heq := parseCertificates_eq env data final blocks hscan
  simp only [hne, if_false] at heq
  refine ⟨heq, ?_⟩
  intro certs hder
  rw [heq]
  unfold x509ParseCertificates
  rw [x509ParseCertificatesLoop_concat env _ certs hder _ _ (Nat.lt_succ_self _)]
  exact ⟨rfl, hder.length_eq.symm⟩

theorem parseCertificates_returns_certificate_blocks_witness :
    parseCertificates demoEnv [45, 1, 7, 45, 0, 1, 45, 1, 7, 45, 0, 2] = .ok [demoLeaf, demoMid] ∧
      [demoLeaf, demoMid].length
        = (certificateBodies [⟨"RSA PRIVATE KEY", [7]⟩, ⟨"CERTIFICATE", [1]⟩,
            ⟨"RSA PRIVATE KEY", [7]⟩, ⟨"CERTIFICATE", [2]⟩]).length :=
  (parseCertificates_returns_certificate_blocks demoEnv
    [45, 1, 7, 45, 0, 1, 45, 1, 7, 45, 0, 2] []
    [⟨"RSA PRIVATE KEY", [7]⟩, ⟨"CERTIFICATE", [1]⟩, ⟨"RSA PRIVATE KEY", [7]⟩, ⟨"CERTIFICATE", [2]⟩]
    (.block _ _ _ _ _ rfl (.block _ _ _ _ _ rfl (.block _ _ _ _ _ rfl (.block _ _ _ _ _ rfl
      (.stop _ rfl)))))
    (by decide)).2 [demoLeaf, demoMid]
    (.cons (fun _ => rfl) (.cons (fun _ => rfl) .nil))

theorem x509ParseCertificatesLoop_length (env : Env) (fuel : Nat) :
    ∀ (der : Bytes) (acc certs : List X509Certificate), der.length < fuel →
      x509ParseCertificatesLoop env fuel der acc = .ok certs →
      acc.length + (if der = [] then 0 else 1) ≤ certs.length := by
  induction fuel with
  | zero =>
    intro der acc certs hfuel
    omega
  | succ n ih =>
    intro der acc certs hfuel h
    unfold x509ParseCertificatesLoop at h
    by_cases hpos : der.length > 0
    · simp only [hpos, if_true] at h
      have hne : der ≠ [] := List.length_pos.mp hpos
      cases hone : env.derParseOne der with
      | error err => simp [hone] at h
      | ok p =>
        obtain ⟨cert, rest⟩ := p
        have hlt := env.derParseOne_shrinks der cert rest hone
        simp only [hone] at h
        have := ih rest (acc ++ [cert]) certs (by omega) h
        simp only [List.length_append, List.length_singleton] at this
        simp only [hne, if_false]
        omega
    · simp only [hpos, if_false, Except.ok.injEq] at h
      have hnil : der = [] := by
        cases der with
        | nil => rfl
        | cons x xs => simp at hpos
      subst h
      simp [hnil]

/-- The library decoder returns no certificate and no error exactly on the empty input. -/
theorem x509ParseCertificates_nil_iff (env : Env) (der : Bytes) :
    x509ParseCertificates env der = .ok [] ↔ der = [] := by
  constructor
  · intro h
    by_contra hne
    have := x509ParseCertificatesLoop_length env (der.length + 1) der [] [] (Nat.lt_succ_self _) h
    simp [hne] at this
  · intro h
    subst h
    rfl

/-- C8, counterexample: on the empty input, and on an input that holds one PEM block
of another type and nothing else, `parseCertificates` returns the empty sequence
and no error. -/
theorem parseCertificates_empty_without_error :
    parseCertificates demoEnv [] = .ok [] ∧ parseCertificates demoEnv [45, 1, 7] = .ok [] :=
  ⟨rfl, rfl⟩

/-- C8, amended: `parseCertificates` returns an error exactly when the DER decoder
rejects the bytes handed to it (the joined bodies of the `CERTIFICATE` blocks,
or what is left after the last PEM block when there is none). It returns the
empty sequence without an error exactly when those bytes are empty, as on the
empty input for every decoder; it is `parseCertificate` that then fails with
"No certificates were found". -/
theorem parseCertificates_fails_iff_decoder_fails (env : Env) :
    parseCertificates env [] = .ok [] ∧
    ∀ data blocks final, env.PemScan data blocks final →
      (∀ err, parseCertificates env data = .error err ↔
        ∃ msg, x509ParseCertificates env
            (if certificateBodies blocks = [] then final
              else (certificateBodies blocks).flatten) = .error msg ∧
          err = .errorString msg) ∧
      (parseCertificates env data = .ok [] ↔
        (if certificateBodies blocks = [] then final
          else (certificateBodies blocks).flatten) = []) ∧
      (parseCertificates env data = .ok [] →
        ∀ w, parseCertificate env data w
          = .ret (.error (.errorString "No certificates were found")) w) := by
  have hempty : ∀ data : Bytes, data = [] → env.pemDecode data = none := by
    intro data hd
    cases h : env.pemDecode data with
    | none => rfl
    | some p =>
      have := env.pemDecode_shrinks data p.1 p.2 h
      rw [hd] at this
      simp at this
  refine ⟨?_, ?_⟩
  · have := parseCertificates_eq env [] [] [] (.stop [] (hempty [] rfl))
    rw [this]
    rfl
  · intro data blocks final hscan
    have heq := parseCertificates_eq env data final blocks hscan
    refine ⟨?_, ?_, ?_⟩
    · intro err
      rw [heq]
      cases x509ParseCertificates env _ with
      | ok certs => simp
      | error msg =>
        simp only [Except.error.injEq]
        constructor
        · intro h
          exact ⟨msg, rfl, h.symm⟩
        · rintro ⟨m, hm, he⟩
          rw [he, hm]
    · rw [heq, ← x509ParseCertificates_nil_iff env]
      cases x509ParseCertificates env _ with
      | ok certs => simp
      | error msg => simp
    · intro h w
      unfold parseCertificate
      rw [h]
      rfl

theorem parseCertificates_fails_iff_decoder_fails_witness :
    parseCertificates demoEnv [45, 1, 7, 3] = .ok [demoRoot] ∧
    ∀ w, parseCertificate demoEnv [45, 1, 7] w
      = .ret (.error (.errorString "No certificates were found")) w :=
  ⟨rfl,
   ((parseCertificates_fails_iff_decoder_fails demoEnv).2 [45, 1, 7]
      [⟨"RSA PRIVATE KEY", [7]⟩] [] (.block _ _ _ _ _ rfl (.stop _ rfl))).2.2 rfl⟩

/-! ### Matching a private key to a certificate -/

/-- C9, counterexample: an RSA key with the certificate's modulus and another public
exponent is accepted, an ECDSA key with the certificate's point on another curve
is accepted, and a key equal to the certificate's key of a third kind is refused. -/
theorem ensure_match_ignores_exponent_and_curve :
    ((⟨demoLeaf, some (.rsa { N := 35, E := 5, D := 5, Primes := [5, 7] })⟩ : Certificate)
        |>.EnsureCertificateAndKeyMatch) = none ∧
    (CryptoPrivateKey.rsa { N := 35, E := 5, D := 5, Primes := [5, 7] }).Public
      ≠ demoLeaf.PublicKey ∧
    ((⟨{ demoLeaf with PublicKey := .ecdsa "P-256" 1 2 },
        some (.ecdsa { Curve := "P-384", X := 1, Y := 2, D := 9 })⟩ : Certificate)
        |>.EnsureCertificateAndKeyMatch) = none ∧
    (CryptoPrivateKey.ecdsa { Curve := "P-384", X := 1, Y := 2, D := 9 }).Public
      ≠ .ecdsa "P-256" 1 2 ∧
    ((⟨{ demoLeaf with PublicKey := .other "ed25519" }, some (.other "ed25519")⟩ : Certificate)
        |>.EnsureCertificateAndKeyMatch) ≠ none ∧
    (CryptoPrivateKey.other "ed25519").Public = .other "ed25519" := by
  refine ⟨rfl, by decide, rfl, by decide, by decide, rfl⟩

/-- The key check passes exactly for an RSA pair with equal modulus and for an ECDSA
pair with equal point coordinates. -/
theorem EnsureCertificateAndKeyMatch_eq_none_iff (c : Certificate) :
    c.EnsureCertificateAndKeyMatch = none ↔
      (∃ N E k, c.Certificate.PublicKey = .rsa N E ∧ c.PrivateKey = some (.rsa k) ∧ N = k.N) ∨
      (∃ curve X Y k, c.Certificate.PublicKey = .ecdsa curve X Y ∧
        c.PrivateKey = some (.ecdsa k) ∧ X = k.X ∧ Y = k.Y) := by
  unfold Certificate.EnsureCertificateAndKeyMatch
  cases hpub : c.Certificate.PublicKey with
  | rsa N E =>
    cases hkey : c.PrivateKey with
    | none => simp
    | some key =>
      cases key with
      | rsa k =>
        by_cases hN : N = k.N
        · simp [hN]
        · simp [hN]
      | ecdsa k => simp
      | other kind => simp
  | ecdsa curve X Y =>
    cases hkey : c.PrivateKey with
    | none => simp
    | some key =>
      cases key with
      | rsa k => simp
      | ecdsa k =>
        by_cases hX : X = k.X
        · by_cases hY : Y = k.Y
          · simp [hX, hY]
          · simp [hX, hY]
        · simp [hX]
      | other kind => simp
  | other kind => simp

/-- C9, amended: `EnsureCertificateAndKeyMatch` succeeds exactly when certificate
and key are both RSA with equal modulus or both ECDSA with equal X and equal Y;
the public exponent and the curve are not compared, and no other kind of key is
accepted. So a key whose public component equals an RSA or ECDSA certificate key
is accepted, and every Certificate returned by `CertificateWithKeyFromFiles`
carries a key whose modulus, or whose X and Y, are those of the certificate's
public key. -/
theorem ensure_match_compares_modulus_or_point (env : Env) :
    (∀ c : Certificate, c.EnsureCertificateAndKeyMatch = none ↔
      (∃ N E k, c.Certificate.PublicKey = .rsa N E ∧ c.PrivateKey = some (.rsa k) ∧ N = k.N) ∨
      (∃ curve X Y k, c.Certificate.PublicKey = .ecdsa curve X Y ∧
        c.PrivateKey = some (.ecdsa k) ∧ X = k.X ∧ Y = k.Y)) ∧
    (∀ (c : Certificate) (key : CryptoPrivateKey), c.PrivateKey = some key →
      key.Public = c.Certificate.PublicKey →
      ((∃ N E, c.Certificate.PublicKey = .rsa N E) ∨
        (∃ curve X Y, c.Certificate.PublicKey = .ecdsa curve X Y)) →
      c.EnsureCertificateAndKeyMatch = none) ∧
    (∀ certPath keyPath w rv w1,
      CertificateWithKeyFromFiles env certPath keyPath w = .ret (.ok rv) w1 →
      (∃ N E k, rv.Certificate.PublicKey = .rsa N E ∧ rv.PrivateKey = some (.rsa k) ∧ N = k.N) ∨
      (∃ curve X Y k, rv.Certificate.PublicKey = .ecdsa curve X Y ∧
        rv.PrivateKey = some (.ecdsa k) ∧ X = k.X ∧ Y = k.Y)) := by
  refine ⟨EnsureCertificateAndKeyMatch_eq_none_iff, ?_, ?_⟩
  · intro c key hkey hpub hkind
    rw [EnsureCertificateAndKeyMatch_eq_none_iff]
    rcases hkind with ⟨N, E, hc⟩ | ⟨curve, X, Y, hc⟩
    · rw [hc] at hpub
      cases key with
      | rsa k =>
        simp only [CryptoPrivateKey.Public, RSAPrivateKey.Public, CryptoPublicKey.rsa.injEq] at hpub
        exact Or.inl ⟨N, E, k, hc, hkey, hpub.1.symm⟩
      | ecdsa k => simp [CryptoPrivateKey.Public, ECDSAPrivateKey.Public] at hpub
      | other kind => simp [CryptoPrivateKey.Public] at hpub
    · rw [hc] at hpub
      cases key with
      | rsa k => simp [CryptoPrivateKey.Public, RSAPrivateKey.Public] at hpub
      | ecdsa k =>
        simp only [CryptoPrivateKey.Public, ECDSAPrivateKey.Public,
          CryptoPublicKey.ecdsa.injEq] at hpub
        exact Or.inr ⟨curve, X, Y, k, hc, hkey, hpub.2.1.symm, hpub.2.2.symm⟩
      | other kind => simp [CryptoPrivateKey.Public] at hpub
  · intro certPath keyPath w rv w1 h
    rw [← EnsureCertificateAndKeyMatch_eq_none_iff]
    unfold CertificateWithKeyFromFiles at h
    split at h
    · cases h
    · simp at h
    · rename_i x509Cert w2 _
      cases hk : LoadPrivateKeyFromFile env keyPath with
      | error err => simp [hk] at h
      | ok privateKey =>
        simp only [hk] at h
        cases he : Certificate.EnsureCertificateAndKeyMatch
            { Certificate := x509Cert, PrivateKey := some privateKey } with
        | some err => simp [he] at h
        | none =>
          simp only [he, Outcome.ret.injEq, Except.ok.injEq] at h
          rw [← h.1]
          exact he

theorem ensure_match_compares_modulus_or_point_witness :
    CertificateWithKeyFromFiles demoEnv "cert.pem" "key.pem" World.init
      = .ret (.ok ⟨demoLeaf, some (.rsa demoKey)⟩) World.init ∧
    ((∃ N E k, demoLeaf.PublicKey = .rsa N E ∧
        some (CryptoPrivateKey.rsa demoKey) = some (.rsa k) ∧ N = k.N) ∨
      (∃ curve X Y k, demoLeaf.PublicKey = .ecdsa curve X Y ∧
        some (CryptoPrivateKey.rsa demoKey) = some (.ecdsa k) ∧ X = k.X ∧ Y = k.Y)) :=
  ⟨rfl,
   (ensure_match_compares_modulus_or_point demoEnv).2.2 "cert.pem" "key.pem" World.init
     ⟨demoLeaf, some (.rsa demoKey)⟩ World.init rfl⟩

/-- C10: `EnsureCertificateAndKeyMatch` succeeds exactly when the certificate key and
the private key are both RSA with equal modulus, or both ECDSA with equal X and
equal Y; it returns an error for every RSA certificate with an ECDSA key, for
every ECDSA certificate with an RSA key, for an absent private key, and for
every certificate whose public key is neither RSA nor ECDSA, whatever the key. -/
theorem ensure_match_iff_same_kind_and_equal_numbers (c : Certificate) :
    (c.EnsureCertificateAndKeyMatch = none ↔
      (∃ N E k, c.Certificate.PublicKey = .rsa N E ∧ c.PrivateKey = some (.rsa k) ∧ N = k.N) ∨
      (∃ curve X Y k, c.Certificate.PublicKey = .ecdsa curve X Y ∧
        c.PrivateKey = some (.ecdsa k) ∧ X = k.X ∧ Y = k.Y)) ∧
    (∀ N E k, c.Certificate.PublicKey = .rsa N E → c.PrivateKey = some (.ecdsa k) →
      ∃ msg, c.EnsureCertificateAndKeyMatch = some (.errorString msg)) ∧
    (∀ curve X Y k, c.Certificate.PublicKey = .ecdsa curve X Y → c.PrivateKey = some (.rsa k) →
      ∃ msg, c.EnsureCertificateAndKeyMatch = some (.errorString msg)) ∧
    (c.PrivateKey = none → ∃ msg, c.EnsureCertificateAndKeyMatch = some (.errorString msg)) ∧
    (∀ kind, c.Certificate.PublicKey = .other kind →
      ∃ msg, c.EnsureCertificateAndKeyMatch = some (.errorString msg)) := by
  refine ⟨EnsureCertificateAndKeyMatch_eq_none_iff c, ?_, ?_, ?_, ?_⟩
  · intro N E k hpub hkey
    unfold Certificate.EnsureCertificateAndKeyMatch
    simp only [hpub, hkey]
    exact ⟨_, rfl⟩
  · intro curve X Y k hpub hkey
    unfold Certificate.EnsureCertificateAndKeyMatch
    simp only [hpub, hkey]
    exact ⟨_, rfl⟩
  · intro hkey
    unfold Certificate.EnsureCertificateAndKeyMatch
    cases hpub : c.Certificate.PublicKey with
    | rsa N E => simp only [hkey]; exact ⟨_, rfl⟩
    | ecdsa curve X Y => simp only [hkey]; exact ⟨_, rfl⟩
    | other kind => exact ⟨_, rfl⟩
  · intro kind hpub
    unfold Certificate.EnsureCertificateAndKeyMatch
    simp only [hpub]
    exact ⟨_, rfl⟩

theorem ensure_match_iff_same_kind_and_equal_numbers_witness :
    (∃ msg, (⟨demoLeaf, none⟩ : Certificate).EnsureCertificateAndKeyMatch
      = some (.errorString msg)) ∧
    (⟨demoLeaf, some (.rsa demoKey)⟩ : Certificate).EnsureCertificateAndKeyMatch = none :=
  ⟨(ensure_match_iff_same_kind_and_equal_numbers ⟨demoLeaf, none⟩).2.2.2.1 rfl,
   (ensure_match_iff_same_kind_and_equal_numbers ⟨demoLeaf, some (.rsa demoKey)⟩).1.mpr
     (Or.inl ⟨35, 3, demoKey, rfl, rfl, rfl⟩)⟩

/-! ### The bound of the walk -/

/-- One more iteration does not change a result the walk has already produced. -/
theorem internetWalk_fuel_succ (env : Env) (fuel : Nat) :
    ∀ (cur : Certificate) (isLeaf : Bool) (rv : CertificateChain) (w : World)
      (out : Outcome (Except GoError CertificateChain)),
      internetWalk env fuel cur isLeaf rv w = some out →
      internetWalk env (fuel + 1) cur isLeaf rv w = some out := by
  induction fuel with
  | zero =>
    intro cur isLeaf rv w out h
    simp [internetWalk] at h
  | succ n ih =>
    intro cur isLeaf rv w out h
    rw [internetWalk] at h
    rw [internetWalk]
    cases hb : cur.IsBundled env w with
    | panic msg w1 =>
      simp only [hb] at h ⊢
      exact h
    | ret b w1 =>
      cases b with
      | true =>
        simp only [hb] at h ⊢
        exact h
      | false =>
        simp only [hb] at h ⊢
        by_cases hlen : cur.Certificate.IssuingCertificateURL.length = 0
        · simp only [hlen, if_true] at h ⊢
          exact h
        · simp only [hlen, if_false] at h ⊢
          cases hs : cur.ReadableSubject w1 with
          | panic msg w2 =>
            simp only [hs] at h ⊢
            exact h
          | ret subject w2 =>
            simp only [hs] at h ⊢
            cases hf : fetchFirst env cur.Certificate.IssuingCertificateURL
                (.errorString ("Error fetching intermediates: cert for " ++ subject
                  ++ " doesn't point to parent")) w2 with
            | panic msg w3 =>
              simp only [hf] at h ⊢
              exact h
            | ret rf w3 =>
              cases rf with
              | error err =>
                simp only [hf] at h ⊢
                exact h
              | ok nextCert =>
                simp only [hf] at h ⊢
                exact ih _ _ _ _ _ h

/-- A result of the walk does not depend on the bound: every larger bound gives the
same result. -/
theorem internetWalk_fuel_mono (env : Env) (fuel more : Nat) (cur : Certificate) (isLeaf : Bool)
    (rv : CertificateChain) (w : World) (out : Outcome (Except GoError CertificateChain))
    (h : internetWalk env fuel cur isLeaf rv w = some out) :
    internetWalk env (fuel + more) cur isLeaf rv w = some out := by
  induction more with
  | zero => exact h
  | succ m ih => exact internetWalk_fuel_succ env (fuel + m) cur isLeaf rv w out ih

/-! ### Membership in the bundled pool -/

/-- A call of `certInPool` that finds the subject set cached answers from it and
leaves the world as it is. -/
theorem certInPool_cached (env : Env) (cert : X509Certificate) (w : World) (set : List Bytes)
    (h : w.certPoolSubjectSetCache = some set) :
    certInPool env cert w = .ret (decide (cert.RawSubject ∈ set)) w := by
  unfold certInPool certPoolSubjectSet
  simp only [h]

theorem certInPool_eq (env : Env) (bundle : X509CertPool) (cert : X509Certificate) (w : World)
    (hw : w.Coherent env) (hb : env.CACerts = .ok bundle) :
    certInPool env cert w = .ret (env.isBundledRoot cert) (w.afterSubjectSet bundle) := by
  have hmem : ∀ set : List Bytes, set = bundle.Subjects.foldl mapInsert [] →
      decide (cert.RawSubject ∈ set) = env.isBundledRoot cert := by
    intro set hset
    simp [Env.isBundledRoot, hb, hset, mem_foldl_mapInsert]
  cases hc : w.certPoolSubjectSetCache with
  | some set =>
    obtain ⟨pool, hp, hset⟩ := hw.2 set hc
    rw [hb] at hp
    cases hp
    rw [certInPool_cached env cert w set hc, hmem set hset]
    simp [World.afterSubjectSet, hc]
  | none =>
    unfold certInPool certPoolSubjectSet
    simp only [hc]
    rw [MustCertPool_eq env bundle { w with certPoolSubjectSetCache := some [] } hw.1 hb]
    simp only [hmem _ rfl]
    simp [World.afterSubjectSet, hc]

theorem isBundledRoot_iff (env : Env) (bundle : X509CertPool) (hb : env.CACerts = .ok bundle)
    (cert : X509Certificate) :
    env.isBundledRoot cert = true ↔ ∃ root ∈ bundle, root.RawSubject = cert.RawSubject := by
  simp only [Env.isBundledRoot, hb, X509CertPool.Subjects, decide_eq_true_eq, List.mem_map]

theorem afterSubjectSet_facts (env : Env) (bundle : X509CertPool) (w : World)
    (hw : w.Coherent env) (hb : env.CACerts = .ok bundle) :
    (w.afterSubjectSet bundle).Coherent env ∧
    (w.afterSubjectSet bundle).certPoolSubjectSetCache
      = some (bundle.Subjects.foldl mapInsert []) ∧
    (w.afterSubjectSet bundle).afterSubjectSet bundle = w.afterSubjectSet bundle ∧
    w.SameRecord (w.afterSubjectSet bundle) := by
  cases hc : w.certPoolSubjectSetCache with
  | some set =>
    obtain ⟨pool, hp, hset⟩ := hw.2 set hc
    rw [hb] at hp
    cases hp
    have hself : w.afterSubjectSet bundle = w := by simp [World.afterSubjectSet, hc]
    rw [hself]
    exact ⟨hw, by rw [hc, hset], hself, ⟨rfl, rfl, rfl⟩⟩
  | none =>
    have hnew : w.afterSubjectSet bundle =
        { w with certPoolCache := some bundle,
                 loads := if w.certPoolCache.isSome then w.loads else w.loads + 1,
                 certPoolSubjectSetCache := some (bundle.Subjects.foldl mapInsert []) } := by
      simp [World.afterSubjectSet, hc]
    rw [hnew]
    refine ⟨⟨?_, ?_⟩, rfl, by simp [World.afterSubjectSet], ⟨rfl, rfl, rfl⟩⟩
    · intro pool hp
      simp at hp
      rw [hb, hp]
    · intro set hs
      simp at hs
      exact ⟨bundle, hb, hs.symm⟩

/-- C11: in a running process whose bundle is `bundle`, `IsBundled` (`certInPool`)
returns true if and only if the raw subject of the certificate is, byte for byte,
the raw subject of some certificate of the bundle. A certificate with the same
raw subject gets the same answer whatever its other fields. The call leaves the
subject set cached, and every later call reads the cached set, changes nothing
and loads nothing, and answers by the same rule, so the certificate gets the
same answer again. -/
theorem isBundled_iff_raw_subject_in_bundle (env : Env) (bundle : X509CertPool)
    (c : Certificate) (w : World) (hw : w.Coherent env) (hb : env.CACerts = .ok bundle) :
    ∃ (b : Bool) (w1 : World),
      c.IsBundled env w = .ret b w1 ∧
      (b = true ↔ ∃ root ∈ bundle, root.RawSubject = c.Certificate.RawSubject) ∧
      (∀ c2 : Certificate, c2.Certificate.RawSubject = c.Certificate.RawSubject →
        c2.IsBundled env w = .ret b w1) ∧
      w1.certPoolSubjectSetCache = some (bundle.Subjects.foldl mapInsert []) ∧
      c.IsBundled env w1 = .ret b w1 ∧
      (∀ c2 : Certificate, ∃ b2 : Bool, c2.IsBundled env w1 = .ret b2 w1 ∧
        (b2 = true ↔ ∃ root ∈ bundle, root.RawSubject = c2.Certificate.RawSubject)) := by
  obtain ⟨hc1, hcache, hfix, _⟩ := afterSubjectSet_facts env bundle w hw hb
  have hlater : ∀ x : X509Certificate,
      certInPool env x (w.afterSubjectSet bundle)
        = .ret (env.isBundledRoot x) (w.afterSubjectSet bundle) := by
    intro x
    have := certInPool_eq env bundle x (w.afterSubjectSet bundle) hc1 hb
    rw [hfix] at this
    exact this
  refine ⟨env.isBundledRoot c.Certificate, w.afterSubjectSet bundle,
    certInPool_eq env bundle c.Certificate w hw hb, isBundledRoot_iff env bundle hb _,
    ?_, hcache, hlater c.Certificate, ?_⟩
  · intro c2 hsub
    have h2 := certInPool_eq env bundle c2.Certificate w hw hb
    have hsame : env.isBundledRoot c2.Certificate = env.isBundledRoot c.Certificate := by
      simp only [Env.isBundledRoot, hsub]
    rw [hsame] at h2
    exact h2
  · intro c2
    exact ⟨env.isBundledRoot c2.Certificate, hlater c2.Certificate,
      isBundledRoot_iff env bundle hb _⟩

theorem isBundled_iff_raw_subject_in_bundle_witness :
    ∃ (b : Bool) (w1 : World),
      Certificate.IsBundled demoEnv ⟨demoRoot, none⟩ World.init = .ret b w1 ∧
      (b = true ↔ ∃ root ∈ [demoRoot], root.RawSubject = demoRoot.RawSubject) ∧
      (∀ c2 : Certificate, c2.Certificate.RawSubject = demoRoot.RawSubject →
        c2.IsBundled demoEnv World.init = .ret b w1) ∧
      w1.certPoolSubjectSetCache = some ((X509CertPool.Subjects [demoRoot]).foldl mapInsert []) ∧
      Certificate.IsBundled demoEnv ⟨demoRoot, none⟩ w1 = .ret b w1 ∧
      (∀ c2 : Certificate, ∃ b2 : Bool, c2.IsBundled demoEnv w1 = .ret b2 w1 ∧
        (b2 = true ↔ ∃ root ∈ [demoRoot], root.RawSubject = c2.Certificate.RawSubject)) :=
  isBundled_iff_raw_subject_in_bundle demoEnv [demoRoot] ⟨demoRoot, none⟩ World.init
    (World.init_coherent _) rfl

/-! ### Parsing private keys -/

/-- The function `parsePrivateKey` unwraps the first PEM block and runs the key
decoders on the key bytes. -/
theorem parsePrivateKey_eq (env : Env) (data : Bytes) :
    parsePrivateKey env data =
      match env.pemDecode data with
      | some (pemBlock, _) =>
        if HasSuffix pemBlock.BlockType "PRIVATE KEY" then env.decodeKeyBytes pemBlock.Bytes
        else .error (.errorString "Found non-key PEM block.")
      | none => env.decodeKeyBytes data := by
  unfold parsePrivateKey Env.decodeKeyBytes
  cases hd : env.pemDecode data with
  | none => rfl
  | some p =>
    obtain ⟨pemBlock, rest⟩ := p
    by_cases hs : HasSuffix pemBlock.BlockType "PRIVATE KEY" = true
    · simp only [hs, Bool.not_true, Bool.false_eq_true, if_false, if_true]
    · simp only [Bool.not_eq_true] at hs
      simp only [hs, Bool.not_false, if_true, Bool.false_eq_true, if_false]

theorem parsePrivateKey_of_keyBytes (env : Env) (data der : Bytes) (h : env.KeyBytes data der) :
    parsePrivateKey env data = env.decodeKeyBytes der := by
  rw [parsePrivateKey_eq]
  rcases h with ⟨hnone, hder⟩ | ⟨block, rest, hsome, hs, hder⟩
  · rw [hnone, hder]
  · rw [hsome, hder]
    simp only [hs, if_true]

/-- C18: on the key bytes of an input, `parsePrivateKey` returns the key of the first
decoder that yields one, in the order PKCS#1 RSA, PKCS#8 (whose key counts only
when it is RSA or ECDSA), SEC1 EC, and it fails if and only if none of the three
yields a key. -/
theorem parsePrivateKey_first_decoder_wins (env : Env) (hlib : env.Pkcs8OtherIsNotSec1)
    (data der : Bytes) (hder : env.KeyBytes data der) :
    (∀ k, env.ParsePKCS1PrivateKey der = .ok k → parsePrivateKey env data = .ok (.rsa k)) ∧
    (∀ e1 k, env.ParsePKCS1PrivateKey der = .error e1 →
      env.ParsePKCS8PrivateKey der = .ok (.rsa k) → parsePrivateKey env data = .ok (.rsa k)) ∧
    (∀ e1 k, env.ParsePKCS1PrivateKey der = .error e1 →
      env.ParsePKCS8PrivateKey der = .ok (.ecdsa k) →
      parsePrivateKey env data = .ok (.ecdsa k)) ∧
    (∀ e1 k, env.ParsePKCS1PrivateKey der = .error e1 →
      (∀ key, env.ParsePKCS8PrivateKey der = .ok key → ∃ kind, key = .other kind) →
      env.ParseECPrivateKey der = .ok k → parsePrivateKey env data = .ok (.ecdsa k)) ∧
    ((∃ err, parsePrivateKey env data = .error err) ↔
      (∃ e1, env.ParsePKCS1PrivateKey der = .error e1) ∧
      (∀ key, env.ParsePKCS8PrivateKey der = .ok key → ∃ kind, key = .other kind) ∧
      (∃ e3, env.ParseECPrivateKey der = .error e3)) := by
  rw [parsePrivateKey_of_keyBytes env data der hder]
  unfold Env.decodeKeyBytes
  refine ⟨?_, ?_, ?_, ?_, ?_⟩
  · intro k h1
    simp only [h1]
  · intro e1 k h1 h8
    simp only [h1, h8]
  · intro e1 k h1 h8
    simp only [h1, h8]
  · intro e1 k h1 h8 h3
    cases hp8 : env.ParsePKCS8PrivateKey der with
    | error e8 => simp only [h1, hp8, h3]
    | ok key =>
      obtain ⟨kind, hk⟩ := h8 key hp8
      subst hk
      obtain ⟨err, herr⟩ := hlib der kind hp8
      rw [herr] at h3
      cases h3
  · cases h1 : env.ParsePKCS1PrivateKey der with
    | ok k => simp
    | error e1 =>
      cases hp8 : env.ParsePKCS8PrivateKey der with
      | error e8 =>
        cases h3 : env.ParseECPrivateKey der with
        | ok k => simp
        | error e3 => simp
      | ok key =>
        cases key with
        | rsa k =>
          simp only [Except.ok.injEq, forall_eq']
          constructor
          · rintro ⟨err, herr⟩
            cases herr
          · rintro ⟨_, hk, _⟩
            obtain ⟨kind, hkind⟩ := hk
            cases hkind
        | ecdsa k =>
          simp only [Except.ok.injEq, forall_eq']
          constructor
          · rintro ⟨err, herr⟩
            cases herr
          · rintro ⟨_, hk, _⟩
            obtain ⟨kind, hkind⟩ := hk
            cases hkind
        | other kind =>
          obtain ⟨e3, h3⟩ := hlib der kind hp8
          simp only [Except.ok.injEq, forall_eq', h3]
          constructor
          · intro _
            exact ⟨⟨e1, rfl⟩, ⟨kind, rfl⟩, ⟨e3, rfl⟩⟩
          · intro _
            exact ⟨_, rfl⟩

theorem parsePrivateKey_first_decoder_wins_witness :
    parsePrivateKey demoEnv [45, 2, 6] = .ok (.ecdsa demoEcKey) ∧
    ∃ err, parsePrivateKey demoEnv [9] = .error err :=
  have hlib : demoEnv.Pkcs8OtherIsNotSec1 := by
    intro der kind h
    by_cases h8 : der = [8]
    · subst h8
      simp [demoEnv] at h
    · exact ⟨"asn1", by simp [demoEnv, h8]⟩
  ⟨(parsePrivateKey_first_decoder_wins demoEnv hlib [45, 2, 6] [6]
      (Or.inr ⟨⟨"EC PRIVATE KEY", [6]⟩, [], rfl, by decide, rfl⟩)).2.2.1 "asn1" demoEcKey rfl rfl,
   (parsePrivateKey_first_decoder_wins demoEnv hlib [9] [9] (Or.inl ⟨rfl, rfl⟩)).2.2.2.2.mpr
     ⟨⟨"asn1", rfl⟩,
      fun key hkey => ⟨"ed25519.PrivateKey", (Except.ok.inj hkey).symm⟩,
      ⟨"asn1", rfl⟩⟩⟩

/-- C19: when the first PEM block of the input has a type that does not end in
`PRIVATE KEY`, `parsePrivateKey` fails with "Found non-key PEM block." whatever
the key decoders are (none of them is consulted); when the type does end in
`PRIVATE KEY`, the result is that of the key decoders on the body of that block
alone; and when the input has no PEM block, it is that of the key decoders on
the whole input. -/
theorem parsePrivateKey_unwraps_first_block (env : Env) (data : Bytes) :
    (∀ block rest, env.pemDecode data = some (block, rest) →
      HasSuffix block.BlockType "PRIVATE KEY" = false →
      parsePrivateKey env data = .error (.errorString "Found non-key PEM block.") ∧
      ∀ env2 : Env, env2.pemDecode data = env.pemDecode data →
        parsePrivateKey env2 data = .error (.errorString "Found non-key PEM block.")) ∧
    (∀ block rest, env.pemDecode data = some (block, rest) →
      HasSuffix block.BlockType "PRIVATE KEY" = true →
      parsePrivateKey env data = env.decodeKeyBytes block.Bytes) ∧
    (env.pemDecode data = none → parsePrivateKey env data = env.decodeKeyBytes data) := by
  refine ⟨?_, ?_, ?_⟩
  · intro block rest hd hs
    refine ⟨?_, ?_⟩
    · rw [parsePrivateKey_eq, hd]
      simp only [hs, Bool.false_eq_true, if_false]
    · intro env2 h2
      rw [parsePrivateKey_eq, h2, hd]
      simp only [hs, Bool.false_eq_true, if_false]
  · intro block rest hd hs
    exact parsePrivateKey_of_keyBytes env data _ (Or.inr ⟨block, rest, hd, hs, rfl⟩)
  · intro hd
    exact parsePrivateKey_of_keyBytes env data _ (Or.inl ⟨hd, rfl⟩)

theorem parsePrivateKey_unwraps_first_block_witness :
    parsePrivateKey demoEnv [45, 0, 7] = .error (.errorString "Found non-key PEM block.") ∧
    parsePrivateKey demoEnv [45, 1, 7, 3] = demoEnv.decodeKeyBytes [7] ∧
    parsePrivateKey demoEnv [7] = demoEnv.decodeKeyBytes [7] :=
  ⟨((parsePrivateKey_unwraps_first_block demoEnv [45, 0, 7]).1 ⟨"CERTIFICATE", [7]⟩ []
      rfl (by decide)).1,
   (parsePrivateKey_unwraps_first_block demoEnv [45, 1, 7, 3]).2.1 ⟨"RSA PRIVATE KEY", [7]⟩ [3]
      rfl (by decide),
   (parsePrivateKey_unwraps_first_block demoEnv [7]).2.2 rfl⟩

/-- C20: for an input in which `pem.Decode` finds no block, `parseCertificates`
returns what the DER certificate-sequence decoder returns on the whole input: the
same certificates, or the same error. -/
theorem parseCertificates_without_pem_is_der (env : Env) (data : Bytes)
    (h : env.pemDecode data = none) :
    parseCertificates env data =
      match x509ParseCertificates env data with
      | .ok certs => .ok certs
      | .error err => .error (.errorString err) := by
  have := parseCertificates_eq env data data [] (.stop data h)
  simpa [certificateBodies] using this

theorem parseCertificates_without_pem_is_der_witness :
    parseCertificates demoEnv [1, 2] = .ok [demoLeaf, demoMid] ∧
    parseCertificates demoEnv [1, 9]
      = (match x509ParseCertificates demoEnv [1, 9] with
         | .ok certs => .ok certs
         | .error err => .error (.errorString err)) :=
  ⟨rfl, parseCertificates_without_pem_is_der demoEnv [1, 9] rfl⟩

/-! ### float64 rounding -/

theorem roundHalfEven_le (x : ℚ) (m : ℤ) (h : x < m + 1 / 2) : roundHalfEven x ≤ m := by
  have hf : (⌊x⌋ : ℚ) ≤ x := Int.floor_le x
  have hfm : ⌊x⌋ ≤ m := by
    have : (⌊x⌋ : ℚ) < m + 1 := by linarith
    have : (⌊x⌋ : ℚ) < ((m + 1 : ℤ) : ℚ) := by push_cast; linarith
    have := Int.cast_lt.mp this
    omega
  unfold roundHalfEven
  by_cases h1 : x - ⌊x⌋ < 1 / 2
  · simp only [h1, if_true]
    exact hfm
  · have hlt : ⌊x⌋ < m := by
      have : (⌊x⌋ : ℚ) < m := by linarith
      exact Int.cast_lt.mp this
    simp only [h1, if_false]
    split
    · omega
    · split <;> omega

theorem le_roundHalfEven (x : ℚ) (m : ℤ) (h : (m : ℚ) ≤ x) : m ≤ roundHalfEven x := by
  have hfm : m ≤ ⌊x⌋ := Int.le_floor.mpr h
  unfold roundHalfEven
  split
  · exact hfm
  · split
    · omega
    · split <;> omega

theorem two_zpow_pos (k : ℤ) : (0 : ℚ) < 2 ^ k := zpow_pos (by norm_num) k

theorem binade (x : ℚ) (hx : 0 < x) :
    (2 : ℚ) ^ Int.log 2 x ≤ x ∧ x < (2 : ℚ) ^ (Int.log 2 x + 1) := by
  have h1 := Int.zpow_log_le_self (b := 2) (r := x) (by norm_num) hx
  have h2 := Int.lt_zpow_succ_log_self (b := 2) (by norm_num) x
  simp only [Nat.cast_ofNat] at h1 h2
  exact ⟨h1, h2⟩

theorem f64_nonneg (x : ℚ) (hx : 0 ≤ x) : 0 ≤ f64 x := by
  unfold f64
  split
  · exact le_refl _
  · have hk := two_zpow_pos (Int.log 2 |x| - 52)
    have : (0 : ℤ) ≤ roundHalfEven (x / 2 ^ (Int.log 2 |x| - 52)) :=
      le_roundHalfEven _ 0 (by simpa using div_nonneg hx hk.le)
    have : (0 : ℚ) ≤ roundHalfEven (x / 2 ^ (Int.log 2 |x| - 52)) := by exact_mod_cast this
    exact mul_nonneg this hk.le

theorem f64_nonpos (x : ℚ) (hx : x ≤ 0) : f64 x ≤ 0 := by
  unfold f64
  split
  · exact le_refl _
  · have hk := two_zpow_pos (Int.log 2 |x| - 52)
    have hq : x / 2 ^ (Int.log 2 |x| - 52) ≤ 0 := div_nonpos_of_nonpos_of_nonneg hx hk.le
    have : roundHalfEven (x / 2 ^ (Int.log 2 |x| - 52)) ≤ 0 :=
      roundHalfEven_le _ 0 (by push_cast; linarith)
    have : (roundHalfEven (x / 2 ^ (Int.log 2 |x| - 52)) : ℚ) ≤ 0 := by exact_mod_cast this
    exact mul_nonpos_of_nonpos_of_nonneg this hk.le

theorem two_zpow_add (a b : ℤ) : (2 : ℚ) ^ (a + b) = 2 ^ a * 2 ^ b :=
  zpow_add₀ (by norm_num) a b

theorem two_zpow_mono {a b : ℤ} (h : a ≤ b) : (2 : ℚ) ^ a ≤ 2 ^ b :=
  zpow_le_zpow_right₀ (by norm_num) h

theorem f64_of_pos (x : ℚ) (hx : 0 < x) :
    f64 x = roundHalfEven (x / 2 ^ (Int.log 2 x - 52)) * 2 ^ (Int.log 2 x - 52) := by
  unfold f64
  rw [if_neg hx.ne', abs_of_pos hx]

/-- An upper bound on a rounded value: below the midpoint above a `float64` value,
a number rounds to at most that value. -/
theorem f64_le (x : ℚ) (m k : ℤ) (hm1 : 2 ^ 52 ≤ m) (hm2 : m < 2 ^ 53)
    (hx : x < (m + 1 / 2) * 2 ^ k) : f64 x ≤ m * 2 ^ k := by
  have hk := two_zpow_pos k
  have hmq1 : (4503599627370496 : ℚ) ≤ m := by exact_mod_cast hm1
  have hmq2 : (m : ℚ) + 1 ≤ 9007199254740992 := by
    have : m + 1 ≤ 9007199254740992 := by omega
    exact_mod_cast this
  by_cases hpos : 0 < x
  · obtain ⟨hb1, hb2⟩ := binade x hpos
    rw [f64_of_pos x hpos]
    have he := two_zpow_pos (Int.log 2 x - 52)
    rcases lt_trichotomy (Int.log 2 x - 52) k with hlt | heq | hgt
    · have h53 : (2 : ℚ) ^ (Int.log 2 x + 1) = 9007199254740992 * 2 ^ (Int.log 2 x - 52) := by
        have : Int.log 2 x + 1 = 53 + (Int.log 2 x - 52) := by ring
        rw [this, two_zpow_add]
        norm_num
      have hq : x / 2 ^ (Int.log 2 x - 52) < ((9007199254740992 : ℤ) : ℚ) + 1 / 2 := by
        rw [div_lt_iff₀ he]
        push_cast
        nlinarith
      have hr := roundHalfEven_le _ _ hq
      have hrq : (roundHalfEven (x / 2 ^ (Int.log 2 x - 52)) : ℚ) ≤ 9007199254740992 := by
        exact_mod_cast hr
      have hstep : (2 : ℚ) ^ (Int.log 2 x + 1) ≤ 2 ^ (52 + k) := two_zpow_mono (by omega)
      have h52 : (2 : ℚ) ^ (52 + k) = 4503599627370496 * 2 ^ k := by
        rw [two_zpow_add]
        norm_num
      calc (roundHalfEven (x / 2 ^ (Int.log 2 x - 52)) : ℚ) * 2 ^ (Int.log 2 x - 52)
          ≤ 9007199254740992 * 2 ^ (Int.log 2 x - 52) :=
            mul_le_mul_of_nonneg_right hrq he.le
        _ = 2 ^ (Int.log 2 x + 1) := h53.symm
        _ ≤ 2 ^ (52 + k) := hstep
        _ = 4503599627370496 * 2 ^ k := h52
        _ ≤ m * 2 ^ k := mul_le_mul_of_nonneg_right hmq1 hk.le
    · rw [heq]
      have hq : x / 2 ^ k < (m : ℚ) + 1 / 2 := by
        rw [div_lt_iff₀ hk]
        exact hx
      have hr := roundHalfEven_le _ _ hq
      have hrq : (roundHalfEven (x / 2 ^ k) : ℚ) ≤ m := by exact_mod_cast hr
      exact mul_le_mul_of_nonneg_right hrq hk.le
    · exfalso
      have hstep : (2 : ℚ) ^ (53 + k) ≤ 2 ^ Int.log 2 x := two_zpow_mono (by omega)
      have h53 : (2 : ℚ) ^ (53 + k) = 9007199254740992 * 2 ^ k := by
        rw [two_zpow_add]
        norm_num
      rw [h53] at hstep
      nlinarith
  · have hx0 : x ≤ 0 := not_lt.mp hpos
    have h1 := f64_nonpos x hx0
    have h2 : (0 : ℚ) ≤ m * 2 ^ k := mul_nonneg (by linarith) hk.le
    linarith

/-- A lower bound on a rounded value: a number at or above a `float64` value rounds
to at least that value. -/
theorem le_f64 (x : ℚ) (m k : ℤ) (hm1 : 2 ^ 52 ≤ m) (hm2 : m < 2 ^ 53)
    (hx : (m : ℚ) * 2 ^ k ≤ x) : (m : ℚ) * 2 ^ k ≤ f64 x := by
  have hk := two_zpow_pos k
  have hmq1 : (4503599627370496 : ℚ) ≤ m := by exact_mod_cast hm1
  have hmq2 : (m : ℚ) + 1 ≤ 9007199254740992 := by
    have : m + 1 ≤ 9007199254740992 := by omega
    exact_mod_cast this
  have hpos : 0 < x := lt_of_lt_of_le (mul_pos (by linarith) hk) hx
  obtain ⟨hb1, hb2⟩ := binade x hpos
  rw [f64_of_pos x hpos]
  have he := two_zpow_pos (Int.log 2 x - 52)
  rcases lt_trichotomy (Int.log 2 x - 52) k with hlt | heq | hgt
  · exfalso
    have hstep : (2 : ℚ) ^ (Int.log 2 x + 1) ≤ 2 ^ (52 + k) := two_zpow_mono (by omega)
    have h52 : (2 : ℚ) ^ (52 + k) = 4503599627370496 * 2 ^ k := by
      rw [two_zpow_add]
      norm_num
    rw [h52] at hstep
    nlinarith
  · rw [heq]
    have hq : (m : ℚ) ≤ x / 2 ^ k := by
      rw [le_div_iff₀ hk]
      exact hx
    have hr := le_roundHalfEven _ _ hq
    have hrq : (m : ℚ) ≤ roundHalfEven (x / 2 ^ k) := by exact_mod_cast hr
    exact mul_le_mul_of_nonneg_right hrq hk.le
  · have h52 : (2 : ℚ) ^ Int.log 2 x = 4503599627370496 * 2 ^ (Int.log 2 x - 52) := by
      have : Int.log 2 x = 52 + (Int.log 2 x - 52) := by ring
      rw [this, two_zpow_add]
      norm_num
    have hq : ((4503599627370496 : ℤ) : ℚ) ≤ x / 2 ^ (Int.log 2 x - 52) := by
      rw [le_div_iff₀ he]
      push_cast
      linarith
    have hr := le_roundHalfEven _ _ hq
    have hrq : (4503599627370496 : ℚ) ≤ roundHalfEven (x / 2 ^ (Int.log 2 x - 52)) := by
      exact_mod_cast hr
    have hstep : (2 : ℚ) ^ (53 + k) ≤ 2 ^ Int.log 2 x := two_zpow_mono (by omega)
    have h53 : (2 : ℚ) ^ (53 + k) = 9007199254740992 * 2 ^ k := by
      rw [two_zpow_add]
      norm_num
    calc (m : ℚ) * 2 ^ k ≤ 9007199254740992 * 2 ^ k :=
          mul_le_mul_of_nonneg_right (by linarith) hk.le
      _ = 2 ^ (53 + k) := h53.symm
      _ ≤ 2 ^ Int.log 2 x := hstep
      _ = 4503599627370496 * 2 ^ (Int.log 2 x - 52) := h52
      _ ≤ roundHalfEven (x / 2 ^ (Int.log 2 x - 52)) * 2 ^ (Int.log 2 x - 52) :=
          mul_le_mul_of_nonneg_right hrq he.le

theorem tdiv_tmod_hour (d : ℤ) :
    (0 ≤ d → d.tdiv 3600000000000 = d / 3600000000000 ∧
      d.tmod 3600000000000 = d % 3600000000000) ∧
    (d < 0 → d.tdiv 3600000000000 ≤ 0 ∧ d.tmod 3600000000000 ≤ 0) := by
  constructor
  · intro hd
    exact ⟨Int.tdiv_eq_ediv hd (by norm_num), Int.tmod_eq_emod hd (by norm_num)⟩
  · intro hd
    have hsum := Int.tmod_add_tdiv d 3600000000000
    have hneg : d.tdiv 3600000000000 = -((-d) / 3600000000000) := by
      have h1 : d = -(-d) := by omega
      have h2 : (-(-d)).tdiv 3600000000000 = -((-d).tdiv 3600000000000) := Int.neg_tdiv _ _
      rw [← h1] at h2
      rw [h2, Int.tdiv_eq_ediv (by omega) (by norm_num)]
    constructor
    · omega
    · omega

/-- Below 90 days the computed number of days is below 90. -/
theorem days_lt_of_duration_lt (d : ℤ) (hd : d < 7776000000000000) :
    f64 (durationHours d / 24) < 90 := by
  unfold durationHours
  by_cases hneg : d < 0
  · obtain ⟨hq, hr⟩ := (tdiv_tmod_hour d).2 hneg
    have hq' : ((d.tdiv 3600000000000 : ℤ) : ℚ) ≤ 0 := by exact_mod_cast hq
    have hr' : ((d.tmod 3600000000000 : ℤ) : ℚ) ≤ 0 := by exact_mod_cast hr
    have ha := f64_nonpos _ hq'
    have hb := f64_nonpos _ hr'
    have hc := f64_nonpos (f64 (d.tmod 3600000000000) / 3600000000000)
      (div_nonpos_of_nonpos_of_nonneg hb (by norm_num))
    have hs := f64_nonpos _ (add_nonpos ha hc)
    have ht := f64_nonpos (f64 (f64 (d.tdiv 3600000000000)
      + f64 (f64 (d.tmod 3600000000000) / 3600000000000)) / 24)
      (div_nonpos_of_nonpos_of_nonneg hs (by norm_num))
    linarith
  · have hd0 : 0 ≤ d := not_lt.mp hneg
    obtain ⟨hq, hr⟩ := (tdiv_tmod_hour d).1 hd0
    rw [hq, hr]
    have hq1 : d / 3600000000000 ≤ 2159 := by omega
    have hr1 : d % 3600000000000 ≤ 3599999999999 := by omega
    have hq' : ((d / 3600000000000 : ℤ) : ℚ) ≤ 2159 := by exact_mod_cast hq1
    have hr' : ((d % 3600000000000 : ℤ) : ℚ) ≤ 3599999999999 := by exact_mod_cast hr1
    have ha : f64 ((d / 3600000000000 : ℤ) : ℚ) ≤ 2159 := by
      have := f64_le ((d / 3600000000000 : ℤ) : ℚ) 4747691208736768 (-41) (by norm_num)
        (by norm_num) (by norm_num; linarith)
      norm_num at this
      exact this
    have hb : f64 ((d % 3600000000000 : ℤ) : ℚ) ≤ 3599999999999 := by
      have := f64_le ((d % 3600000000000 : ℤ) : ℚ) 7372799999997952 (-11) (by norm_num)
        (by norm_num) (by norm_num; linarith)
      norm_num at this
      exact this
    have hc : f64 (f64 ((d % 3600000000000 : ℤ) : ℚ) / 3600000000000)
        ≤ 9007199254738688 / 9007199254740992 := by
      have hdiv : f64 ((d % 3600000000000 : ℤ) : ℚ) / 3600000000000
          ≤ 3599999999999 / 3600000000000 :=
        div_le_div_of_nonneg_right hb (by norm_num)
      have := f64_le (f64 ((d % 3600000000000 : ℤ) : ℚ) / 3600000000000) 9007199254738688 (-53)
        (by norm_num) (by norm_num) (by norm_num; linarith)
      norm_num at this
      norm_num
      exact this
    have hs : f64 (f64 ((d / 3600000000000 : ℤ) : ℚ)
        + f64 (f64 ((d % 3600000000000 : ℤ) : ℚ) / 3600000000000))
        ≤ 4749890231992319 / 2199023255552 := by
      have := f64_le (f64 ((d / 3600000000000 : ℤ) : ℚ)
        + f64 (f64 ((d % 3600000000000 : ℤ) : ℚ) / 3600000000000)) 4749890231992319 (-41)
        (by norm_num) (by norm_num) (by norm_num; linarith)
      norm_num at this
      norm_num
      exact this
    have ht := f64_le (f64 (f64 ((d / 3600000000000 : ℤ) : ℚ)
        + f64 (f64 ((d % 3600000000000 : ℤ) : ℚ) / 3600000000000)) / 24) 6333186975989759 (-46)
        (by norm_num) (by norm_num) (by norm_num; linarith)
    norm_num at ht
    linarith

/-- From 90 days on the computed number of days is at least 90. -/
theorem days_ge_of_duration_ge (d : ℤ) (hd : 7776000000000000 ≤ d) :
    90 ≤ f64 (durationHours d / 24) := by
  unfold durationHours
  obtain ⟨hq, hr⟩ := (tdiv_tmod_hour d).1 (by omega)
  rw [hq, hr]
  have hq1 : 2160 ≤ d / 3600000000000 := by omega
  have hr1 : 0 ≤ d % 3600000000000 := by omega
  have hq' : (2160 : ℚ) ≤ ((d / 3600000000000 : ℤ) : ℚ) := by exact_mod_cast hq1
  have hr' : (0 : ℚ) ≤ ((d % 3600000000000 : ℤ) : ℚ) := by exact_mod_cast hr1
  have ha : 2160 ≤ f64 ((d / 3600000000000 : ℤ) : ℚ) := by
    have := le_f64 ((d / 3600000000000 : ℤ) : ℚ) 4749890231992320 (-41) (by norm_num)
      (by norm_num) (by norm_num; linarith)
    norm_num at this
    exact this
  have hb := f64_nonneg _ hr'
  have hc := f64_nonneg (f64 ((d % 3600000000000 : ℤ) : ℚ) / 3600000000000)
    (div_nonneg hb (by norm_num))
  have hs : 2160 ≤ f64 (f64 ((d / 3600000000000 : ℤ) : ℚ)
      + f64 (f64 ((d % 3600000000000 : ℤ) : ℚ) / 3600000000000)) := by
    have := le_f64 (f64 ((d / 3600000000000 : ℤ) : ℚ)
      + f64 (f64 ((d % 3600000000000 : ℤ) : ℚ) / 3600000000000)) 4749890231992320 (-41)
      (by norm_num) (by norm_num) (by norm_num; linarith)
    norm_num at this
    exact this
  have ht := le_f64 (f64 (f64 ((d / 3600000000000 : ℤ) : ℚ)
      + f64 (f64 ((d % 3600000000000 : ℤ) : ℚ) / 3600000000000)) / 24) 6333186975989760 (-46)
      (by norm_num) (by norm_num) (by norm_num; linarith)
  norm_num at ht
  exact ht

/-! ### The expiration rule -/

theorem timeSub_lt_iff (t u : ℤ) :
    timeSub t u < 7776000000000000 ↔ t - u < 7776000000000000 := by
  unfold timeSub
  split
  · constructor <;> intro _ <;> omega
  · split
    · constructor <;> intro _ <;> omega
    · exact Iff.rfl

theorem TryExpirationWarning_eq (env : Env) (c : Certificate) :
    TryExpirationWarning env c =
      if c.Certificate.NotAfter - env.now < 7776000000000000 then some (.ExpirationWarning c)
      else none := by
  unfold TryExpirationWarning Certificate.DaysToExpire
  by_cases h : c.Certificate.NotAfter - env.now < 7776000000000000
  · have hd := (timeSub_lt_iff _ _).mpr h
    have := days_lt_of_duration_lt _ hd
    simp only [this, if_true, h]
  · have hd : 7776000000000000 ≤ timeSub c.Certificate.NotAfter env.now := by
      have := (timeSub_lt_iff c.Certificate.NotAfter env.now).not.mpr h
      omega
    have := days_ge_of_duration_ge _ hd
    have hnot : ¬ f64 (durationHours (timeSub c.Certificate.NotAfter env.now) / 24) < 90 :=
      not_lt.mpr this
    simp only [hnot, if_false, h]

/-- C13: `TryExpirationWarning` yields an `ExpirationWarning` if and only if the time
from now to `NotAfter` is strictly less than 90 days (7776000000000000 ns), and
nothing otherwise. A certificate that expires in 10 days or has expired warns;
one that expires in exactly 90 days or in 200 days does not. The trust store
plays no part: the result is the same under every bundle. -/
theorem expiration_warning_iff_less_than_90_days (env : Env) (c : Certificate) :
    (TryExpirationWarning env c = some (.ExpirationWarning c) ↔
      c.Certificate.NotAfter - env.now < 7776000000000000) ∧
    (TryExpirationWarning env c = none ↔
      7776000000000000 ≤ c.Certificate.NotAfter - env.now) ∧
    (c.Certificate.NotAfter = env.now + 10 * 86400000000000 →
      TryExpirationWarning env c = some (.ExpirationWarning c)) ∧
    (c.Certificate.NotAfter ≤ env.now →
      TryExpirationWarning env c = some (.ExpirationWarning c)) ∧
    (c.Certificate.NotAfter = env.now + 90 * 86400000000000 →
      TryExpirationWarning env c = none) ∧
    (c.Certificate.NotAfter = env.now + 200 * 86400000000000 →
      TryExpirationWarning env c = none) ∧
    (∀ env2 : Env, env2.now = env.now →
      TryExpirationWarning env2 c = TryExpirationWarning env c) := by
  have heq := TryExpirationWarning_eq env c
  refine ⟨?_, ?_, ?_, ?_, ?_, ?_, ?_⟩
  · rw [heq]
    by_cases h : c.Certificate.NotAfter - env.now < 7776000000000000
    · simp [h]
    · simp [h]
  · rw [heq]
    by_cases h : c.Certificate.NotAfter - env.now < 7776000000000000
    · simp only [h, if_true]
      constructor
      · intro h1
        cases h1
      · intro h1
        omega
    · simp only [h, if_false, true_iff]
      omega
  · intro h
    rw [heq, if_pos (by omega)]
  · intro h
    rw [heq, if_pos (by omega)]
  · intro h
    rw [heq, if_neg (by omega)]
  · intro h
    rw [heq, if_neg (by omega)]
  · intro env2 h2
    rw [heq, TryExpirationWarning_eq env2 c, h2]

theorem expiration_warning_iff_less_than_90_days_witness :
    TryExpirationWarning demoEnv ⟨demoLeaf, none⟩ = some (.ExpirationWarning ⟨demoLeaf, none⟩) ∧
    TryExpirationWarning demoEnv ⟨{ demoLeaf with NotAfter := 90 * 86400000000000 }, none⟩
      = none :=
  ⟨(expiration_warning_iff_less_than_90_days demoEnv ⟨demoLeaf, none⟩).2.2.2.1 (by decide),
   (expiration_warning_iff_less_than_90_days demoEnv
      ⟨{ demoLeaf with NotAfter := 90 * 86400000000000 }, none⟩).2.2.2.2.1 (by decide)⟩

/-! ### The obsolete-algorithm and key-length rules -/

theorem TryObsoleteAlgorithmWarning_eq (env : Env) (bundle : X509CertPool) (c : Certificate)
    (w : World) (hw : w.Coherent env) (hb : env.CACerts = .ok bundle) :
    TryObsoleteAlgorithmWarning env c w =
      .ret (if c.Certificate.SignatureAlgorithm ∈
                [.SHA1WithRSA, .DSAWithSHA1, .ECDSAWithSHA1, .MD2WithRSA, .MD5WithRSA] ∧
              env.isBundledRoot c.Certificate = false
            then some (.ObsoleteAlgorithmWarning c) else none)
        (w.afterSubjectSet bundle) := by
  unfold TryObsoleteAlgorithmWarning Certificate.IsBundled
  rw [certInPool_eq env bundle c.Certificate w hw hb]
  cases hroot : env.isBundledRoot c.Certificate <;>
    cases halg : c.Certificate.SignatureAlgorithm <;> simp

theorem TryKeyTooShortWarning_eq (env : Env) (bundle : X509CertPool) (c : Certificate)
    (w : World) (hw : w.Coherent env) (hb : env.CACerts = .ok bundle) :
    ∃ w1, TryKeyTooShortWarning env c w =
      .ret (if c.hasShortRsaKey = true ∧ env.isBundledRoot c.Certificate = false
            then some (.KeyTooShortWarning c) else none) w1 ∧
      w1.Coherent env ∧ w.SameRecord w1 := by
  unfold TryKeyTooShortWarning Certificate.IsBundled Certificate.hasShortRsaKey
  cases hpub : c.Certificate.PublicKey with
  | rsa N E =>
    by_cases hlen : BitLen N < 2048
    · simp only [hlen, if_true]
      rw [certInPool_eq env bundle c.Certificate w hw hb]
      obtain ⟨hc1, _, _, hrec⟩ := afterSubjectSet_facts env bundle w hw hb
      refine ⟨w.afterSubjectSet bundle, ?_, hc1, hrec⟩
      cases hroot : env.isBundledRoot c.Certificate <;> simp
    · simp only [hlen, if_false]
      exact ⟨w, by simp, hw, ⟨rfl, rfl, rfl⟩⟩
  | ecdsa curve X Y => exact ⟨w, by simp, hw, ⟨rfl, rfl, rfl⟩⟩
  | other kind => exact ⟨w, by simp, hw, ⟨rfl, rfl, rfl⟩⟩

theorem hasShortRsaKey_iff (c : Certificate) :
    c.hasShortRsaKey = true ↔ ∃ N E, c.Certificate.PublicKey = .rsa N E ∧ BitLen N < 2048 := by
  unfold Certificate.hasShortRsaKey
  cases hpub : c.Certificate.PublicKey with
  | rsa N E => simp
  | ecdsa curve X Y => simp
  | other kind => simp

theorem BitLen_lt_iff (N : ℤ) (n : ℕ) : BitLen N < n + 1 ↔ N.natAbs < 2 ^ n := by
  unfold BitLen
  rw [Nat.lt_succ_iff, Nat.size_le]

/-- C14: `TryObsoleteAlgorithmWarning` yields an `ObsoleteAlgorithmWarning` if and only
if the signature algorithm is SHA1-with-RSA, DSA-with-SHA1, ECDSA-with-SHA1,
MD2-with-RSA or MD5-with-RSA and the certificate is not a bundled root, and
nothing otherwise: a certificate signed with SHA1-with-RSA warns when it is not
bundled and does not when it is a bundled root. -/
theorem obsolete_warning_iff_weak_algorithm_and_not_bundled (env : Env) (bundle : X509CertPool)
    (c : Certificate) (w : World) (hw : w.Coherent env) (hb : env.CACerts = .ok bundle) :
    ∃ (r : Option Warning) (w1 : World),
      TryObsoleteAlgorithmWarning env c w = .ret r w1 ∧
      (r = some (.ObsoleteAlgorithmWarning c) ∨ r = none) ∧
      (r = some (.ObsoleteAlgorithmWarning c) ↔
        c.Certificate.SignatureAlgorithm ∈
            [.SHA1WithRSA, .DSAWithSHA1, .ECDSAWithSHA1, .MD2WithRSA, .MD5WithRSA] ∧
          env.isBundledRoot c.Certificate = false) ∧
      (c.Certificate.SignatureAlgorithm = .SHA1WithRSA →
        env.isBundledRoot c.Certificate = false → r = some (.ObsoleteAlgorithmWarning c)) ∧
      (c.Certificate.SignatureAlgorithm = .SHA1WithRSA →
        env.isBundledRoot c.Certificate = true → r = none) ∧
      (env.isBundledRoot c.Certificate = true ↔
        ∃ root ∈ bundle, root.RawSubject = c.Certificate.RawSubject) := by
  refine ⟨_, _, TryObsoleteAlgorithmWarning_eq env bundle c w hw hb, ?_, ?_, ?_, ?_,
    isBundledRoot_iff env bundle hb _⟩
  · by_cases h : c.Certificate.SignatureAlgorithm ∈
        [.SHA1WithRSA, .DSAWithSHA1, .ECDSAWithSHA1, .MD2WithRSA, .MD5WithRSA] ∧
        env.isBundledRoot c.Certificate = false
    · exact Or.inl (if_pos h)
    · exact Or.inr (if_neg h)
  · by_cases h : c.Certificate.SignatureAlgorithm ∈
        [.SHA1WithRSA, .DSAWithSHA1, .ECDSAWithSHA1, .MD2WithRSA, .MD5WithRSA] ∧
        env.isBundledRoot c.Certificate = false
    · rw [if_pos h]
      exact ⟨fun _ => h, fun _ => rfl⟩
    · rw [if_neg h]
      constructor
      · intro h1
        cases h1
      · intro h1
        exact absurd h1 h
  · intro halg hroot
    exact if_pos ⟨by rw [halg]; simp, hroot⟩
  · intro halg hroot
    refine if_neg ?_
    rintro ⟨_, h2⟩
    rw [hroot] at h2
    cases h2

theorem obsolete_warning_iff_weak_algorithm_and_not_bundled_witness :
    (∃ w1, TryObsoleteAlgorithmWarning demoEnv ⟨demoSha1Leaf, none⟩ World.init
      = .ret (some (.ObsoleteAlgorithmWarning ⟨demoSha1Leaf, none⟩)) w1) ∧
    (∃ w1, TryObsoleteAlgorithmWarning demoEnv ⟨demoSha1Root, none⟩ World.init
      = .ret none w1) := by
  obtain ⟨r, w1, h, _, _, hwarn, _, _⟩ :=
    obsolete_warning_iff_weak_algorithm_and_not_bundled demoEnv [demoRoot]
      ⟨demoSha1Leaf, none⟩ World.init (World.init_coherent _) rfl
  obtain ⟨r2, w2, h2, _, _, _, hnone, _⟩ :=
    obsolete_warning_iff_weak_algorithm_and_not_bundled demoEnv [demoRoot]
      ⟨demoSha1Root, none⟩ World.init (World.init_coherent _) rfl
  rw [hwarn rfl rfl] at h
  rw [hnone rfl rfl] at h2
  exact ⟨⟨w1, h⟩, ⟨w2, h2⟩⟩

/-- C15: `TryKeyTooShortWarning` yields a `KeyTooShortWarning` if and only if the public
key is RSA, the bit length of its modulus is strictly below 2048 (the modulus is
below 2^2047 in absolute value), and the certificate is not a bundled root, and
nothing otherwise: RSA keys of 1024 and of 2047 bits on a certificate that is
not bundled warn, an RSA key of 2048 bits does not, and an ECDSA key or a key of
any other kind never warns. -/
theorem key_too_short_warning_iff_short_rsa_and_not_bundled (env : Env)
    (bundle : X509CertPool) (c : Certificate) (w : World) (hw : w.Coherent env)
    (hb : env.CACerts = .ok bundle) :
    ∃ (r : Option Warning) (w1 : World),
      TryKeyTooShortWarning env c w = .ret r w1 ∧
      (r = some (.KeyTooShortWarning c) ∨ r = none) ∧
      (r = some (.KeyTooShortWarning c) ↔
        (∃ N E, c.Certificate.PublicKey = .rsa N E ∧ BitLen N < 2048) ∧
          env.isBundledRoot c.Certificate = false) ∧
      (∀ N E, c.Certificate.PublicKey = .rsa N E → (BitLen N = 1024 ∨ BitLen N = 2047) →
        env.isBundledRoot c.Certificate = false → r = some (.KeyTooShortWarning c)) ∧
      (∀ N E, c.Certificate.PublicKey = .rsa N E → BitLen N = 2048 → r = none) ∧
      (∀ curve X Y, c.Certificate.PublicKey = .ecdsa curve X Y → r = none) ∧
      (∀ kind, c.Certificate.PublicKey = .other kind → r = none) ∧
      (∀ N : ℤ, BitLen N < 2048 ↔ N.natAbs < 2 ^ 2047) := by
  obtain ⟨w1, heq, _, _⟩ := TryKeyTooShortWarning_eq env bundle c w hw hb
  have hiff : ((if c.hasShortRsaKey = true ∧ env.isBundledRoot c.Certificate = false
        then some (Warning.KeyTooShortWarning c) else none) = some (.KeyTooShortWarning c)) ↔
      (∃ N E, c.Certificate.PublicKey = .rsa N E ∧ BitLen N < 2048) ∧
        env.isBundledRoot c.Certificate = false := by
    rw [← hasShortRsaKey_iff]
    by_cases h : c.hasShortRsaKey = true ∧ env.isBundledRoot c.Certificate = false
    · rw [if_pos h]
      exact ⟨fun _ => h, fun _ => rfl⟩
    · rw [if_neg h]
      constructor
      · intro h1
        cases h1
      · intro h1
        exact absurd h1 h
  have hnone : ∀ {p : Prop} [Decidable p], ¬ p →
      (if p then some (Warning.KeyTooShortWarning c) else none) = none := by
    intro p _ hp
    exact if_neg hp
  refine ⟨_, w1, heq, ?_, hiff, ?_, ?_, ?_, ?_, fun N => BitLen_lt_iff N 2047⟩
  · by_cases h : c.hasShortRsaKey = true ∧ env.isBundledRoot c.Certificate = false
    · exact Or.inl (if_pos h)
    · exact Or.inr (if_neg h)
  · intro N E hpub hlen hroot
    refine hiff.mpr ⟨⟨N, E, hpub, ?_⟩, hroot⟩
    rcases hlen with h | h <;> rw [h] <;> norm_num
  · intro N E hpub hlen
    refine hnone ?_
    rintro ⟨hshort, _⟩
    obtain ⟨N1, E1, h1, hl⟩ := (hasShortRsaKey_iff c).mp hshort
    rw [hpub] at h1
    cases h1
    rw [hlen] at hl
    exact absurd hl (by norm_num)
  · intro curve X Y hpub
    refine hnone ?_
    rintro ⟨hshort, _⟩
    obtain ⟨N1, E1, h1, _⟩ := (hasShortRsaKey_iff c).mp hshort
    rw [hpub] at h1
    cases h1
  · intro kind hpub
    refine hnone ?_
    rintro ⟨hshort, _⟩
    obtain ⟨N1, E1, h1, _⟩ := (hasShortRsaKey_iff c).mp hshort
    rw [hpub] at h1
    cases h1

theorem key_too_short_warning_iff_short_rsa_and_not_bundled_witness :
    (∃ w1, TryKeyTooShortWarning demoEnv ⟨demoLeaf, none⟩ World.init
      = .ret (some (.KeyTooShortWarning ⟨demoLeaf, none⟩)) w1) ∧
    (∃ w1, TryKeyTooShortWarning demoEnv
        ⟨{ demoLeaf with PublicKey := .ecdsa "P-256" 1 2 }, none⟩ World.init
      = .ret none w1) := by
  obtain ⟨r, w1, h, _, hiff, _, _, _, _, hbits⟩ :=
    key_too_short_warning_iff_short_rsa_and_not_bundled demoEnv [demoRoot]
      ⟨demoLeaf, none⟩ World.init (World.init_coherent _) rfl
  obtain ⟨r2, w2, h2, _, _, _, _, hec, _, _⟩ :=
    key_too_short_warning_iff_short_rsa_and_not_bundled demoEnv [demoRoot]
      ⟨{ demoLeaf with PublicKey := .ecdsa "P-256" 1 2 }, none⟩ World.init
      (World.init_coherent _) rfl
  rw [hiff.mpr ⟨⟨35, 3, rfl, (hbits 35).mpr (by norm_num)⟩, rfl⟩] at h
  rw [hec "P-256" 1 2 rfl] at h2
  exact ⟨⟨w1, h⟩, ⟨w2, h2⟩⟩

/-! ### All warnings of a certificate -/

/-- The loop of `Warnings` appends what each rule returns, threading the process
state from one rule to the next. -/
theorem Warnings_eq (env : Env) (c : Certificate) (w w2 w1 : World) (r2 r3 : Option Warning)
    (h2 : TryObsoleteAlgorithmWarning env c w = .ret r2 w2)
    (h3 : TryKeyTooShortWarning env c w2 = .ret r3 w1) :
    c.Warnings env w
      = .ret ((TryExpirationWarning env c).toList ++ r2.toList ++ r3.toList) w1 := by
  unfold Certificate.Warnings warningTriers
  cases h1 : TryExpirationWarning env c <;> cases r2 <;> cases r3 <;>
    simp only [warningsLoop, Go.pure_apply, h1, h2, h3, Option.toList, List.nil_append,
      List.singleton_append, List.append_nil, List.cons_append]

/-- Three optional values, each either absent or a fixed value, concatenate to a
sublist of the three fixed values. -/
theorem optionals_sublist {α : Type} (a b c : Option α) (x y z : α)
    (ha : a = some x ∨ a = none) (hb : b = some y ∨ b = none) (hc : c = some z ∨ c = none) :
    List.Sublist (a.toList ++ b.toList ++ c.toList) [x, y, z] ∧
    (a.toList ++ b.toList ++ c.toList).length ≤ 3 ∧
    (a.toList ++ b.toList ++ c.toList = [] ↔ a = none ∧ b = none ∧ c = none) := by
  rcases ha with rfl | rfl <;> rcases hb with rfl | rfl <;> rcases hc with rfl | rfl <;>
    simp [Option.toList]

/-- C12: `Warnings` returns, in the order expiration, obsolete algorithm, key too
short, the warnings of exactly those rules that fire, where each rule gives in
the loop what it gives when it is run alone: the result is the concatenation of
the three optional warnings, so it is a sublist of the three variants in that
order (at most three elements, at most one of each variant) and it is empty
exactly when no rule fires. -/
theorem warnings_are_the_fired_rules_in_order (env : Env) (bundle : X509CertPool)
    (c : Certificate) (w : World) (hw : w.Coherent env) (hb : env.CACerts = .ok bundle) :
    ∃ (r2 r3 : Option Warning) (w2 w3 w1 : World),
      TryObsoleteAlgorithmWarning env c w = .ret r2 w2 ∧
      TryKeyTooShortWarning env c w = .ret r3 w3 ∧
      c.Warnings env w
        = .ret ((TryExpirationWarning env c).toList ++ r2.toList ++ r3.toList) w1 ∧
      (TryExpirationWarning env c = some (.ExpirationWarning c) ∨
        TryExpirationWarning env c = none) ∧
      (r2 = some (.ObsoleteAlgorithmWarning c) ∨ r2 = none) ∧
      (r3 = some (.KeyTooShortWarning c) ∨ r3 = none) ∧
      List.Sublist ((TryExpirationWarning env c).toList ++ r2.toList ++ r3.toList)
        [.ExpirationWarning c, .ObsoleteAlgorithmWarning c, .KeyTooShortWarning c] ∧
      ((TryExpirationWarning env c).toList ++ r2.toList ++ r3.toList).length ≤ 3 ∧
      ((TryExpirationWarning env c).toList ++ r2.toList ++ r3.toList = [] ↔
        TryExpirationWarning env c = none ∧ r2 = none ∧ r3 = none) ∧
      w1.Coherent env := by
  have h2 := TryObsoleteAlgorithmWarning_eq env bundle c w hw hb
  obtain ⟨hc2, _, _, _⟩ := afterSubjectSet_facts env bundle w hw hb
  obtain ⟨w3, h3, _, _⟩ := TryKeyTooShortWarning_eq env bundle c w hw hb
  obtain ⟨w1, h31, hc1, _⟩ :=
    TryKeyTooShortWarning_eq env bundle c (w.afterSubjectSet bundle) hc2 hb
  have e1 : TryExpirationWarning env c = some (.ExpirationWarning c) ∨
      TryExpirationWarning env c = none := by
    unfold TryExpirationWarning
    by_cases h : c.DaysToExpire env < 90
    · exact Or.inl (if_pos h)
    · exact Or.inr (if_neg h)
  have e2 : (if c.Certificate.SignatureAlgorithm ∈
        [.SHA1WithRSA, .DSAWithSHA1, .ECDSAWithSHA1, .MD2WithRSA, .MD5WithRSA] ∧
        env.isBundledRoot c.Certificate = false
      then some (Warning.ObsoleteAlgorithmWarning c) else none)
        = some (.ObsoleteAlgorithmWarning c) ∨
      (if c.Certificate.SignatureAlgorithm ∈
        [.SHA1WithRSA, .DSAWithSHA1, .ECDSAWithSHA1, .MD2WithRSA, .MD5WithRSA] ∧
        env.isBundledRoot c.Certificate = false
      then some (Warning.ObsoleteAlgorithmWarning c) else none) = none := by
    by_cases h : c.Certificate.SignatureAlgorithm ∈
        [.SHA1WithRSA, .DSAWithSHA1, .ECDSAWithSHA1, .MD2WithRSA, .MD5WithRSA] ∧
        env.isBundledRoot c.Certificate = false
    · exact Or.inl (if_pos h)
    · exact Or.inr (if_neg h)
  have e3 : (if c.hasShortRsaKey = true ∧ env.isBundledRoot c.Certificate = false
        then some (Warning.KeyTooShortWarning c) else none) = some (.KeyTooShortWarning c) ∨
      (if c.hasShortRsaKey = true ∧ env.isBundledRoot c.Certificate = false
        then some (Warning.KeyTooShortWarning c) else none) = none := by
    by_cases h : c.hasShortRsaKey = true ∧ env.isBundledRoot c.Certificate = false
    · exact Or.inl (if_pos h)
    · exact Or.inr (if_neg h)
  obtain ⟨s1, s2, s3⟩ := optionals_sublist _ _ _ _ _ _ e1 e2 e3
  exact ⟨_, _, _, w3, w1, h2, h3, Warnings_eq env c w _ w1 _ _ h2 h31, e1, e2, e3,
    s1, s2, s3, hc1⟩

theorem warnings_are_the_fired_rules_in_order_witness :
    ∃ w1, Certificate.Warnings demoEnv ⟨demoSha1Leaf, none⟩ World.init
      = .ret [.ExpirationWarning ⟨demoSha1Leaf, none⟩,
              .ObsoleteAlgorithmWarning ⟨demoSha1Leaf, none⟩,
              .KeyTooShortWarning ⟨demoSha1Leaf, none⟩] w1 := by
  obtain ⟨r2, r3, w2, w3, w1, h2, h3, h, _, _, _, _, _, _, _⟩ :=
    warnings_are_the_fired_rules_in_order demoEnv [demoRoot] ⟨demoSha1Leaf, none⟩ World.init
      (World.init_coherent _) rfl
  have hexp : TryExpirationWarning demoEnv ⟨demoSha1Leaf, none⟩
      = some (.ExpirationWarning ⟨demoSha1Leaf, none⟩) := by
    rw [TryExpirationWarning_eq]
    rfl
  have hobs := TryObsoleteAlgorithmWarning_eq demoEnv [demoRoot] ⟨demoSha1Leaf, none⟩
    World.init (World.init_coherent _) rfl
  rw [if_pos ⟨by decide, rfl⟩, h2] at hobs
  obtain ⟨w4, hshort, _, _⟩ := TryKeyTooShortWarning_eq demoEnv [demoRoot]
    ⟨demoSha1Leaf, none⟩ World.init (World.init_coherent _) rfl
  have hs : Certificate.hasShortRsaKey ⟨demoSha1Leaf, none⟩ = true :=
    (hasShortRsaKey_iff _).mpr ⟨35, 3, rfl, (BitLen_lt_iff 35 2047).mpr (by norm_num)⟩
  rw [if_pos ⟨hs, rfl⟩, h3] at hshort
  simp only [Outcome.ret.injEq] at hobs hshort
  rw [hexp, hobs.1, hshort.1] at h
  exact ⟨w1, h⟩

/-! ### Writing a private key and reading it back -/

/-- C16: for every RSA and every ECDSA private key `k` held by a certificate,
`PrivateKeyToPEM` returns bytes on which `parsePrivateKey` succeeds and returns
`k`, given that the library decoders invert the library encoders on this key:
the bytes hold one block whose type ends in `PRIVATE KEY`, and the decoders in
the order PKCS#1, PKCS#8, SEC1 yield `k` on its body. -/
theorem privateKeyToPEM_then_parsePrivateKey (env : Env) (cert : X509Certificate)
    (k : CryptoPrivateKey)
    (hkind : (∃ r, k = .rsa r) ∨ (∃ e, k = .ecdsa e))
    (hrsa : ∀ r, k = .rsa r → env.Pkcs1Inverse r ∧
      env.PemInverse { BlockType := "RSA PRIVATE KEY", Bytes := env.MarshalPKCS1PrivateKey r })
    (hec : ∀ e, k = .ecdsa e → ∃ der, env.Sec1Inverse e der ∧
      env.PemInverse { BlockType := "EC PRIVATE KEY", Bytes := der }) :
    HasSuffix "RSA PRIVATE KEY" "PRIVATE KEY" = true ∧
    HasSuffix "EC PRIVATE KEY" "PRIVATE KEY" = true ∧
    ∃ (bytes : Bytes) (block : PemBlock),
      Certificate.PrivateKeyToPEM env { Certificate := cert, PrivateKey := some k } = .ok bytes ∧
      env.pemDecode bytes = some (block, []) ∧
      HasSuffix block.BlockType "PRIVATE KEY" = true ∧
      (block.BlockType = "RSA PRIVATE KEY" ∨ block.BlockType = "EC PRIVATE KEY") ∧
      env.decodeKeyBytes block.Bytes = .ok k ∧
      parsePrivateKey env bytes = .ok k := by
  have hsr : HasSuffix "RSA PRIVATE KEY" "PRIVATE KEY" = true := by decide
  have hse : HasSuffix "EC PRIVATE KEY" "PRIVATE KEY" = true := by decide
  refine ⟨hsr, hse, ?_⟩
  rcases hkind with ⟨r, rfl⟩ | ⟨e, rfl⟩
  · obtain ⟨hinv, hpem⟩ := hrsa r rfl
    have hdec := hpem []
    rw [List.append_nil] at hdec
    have hkey : env.decodeKeyBytes (env.MarshalPKCS1PrivateKey r) = .ok (.rsa r) := by
      unfold Env.decodeKeyBytes
      rw [hinv]
    have hout : Certificate.PrivateKeyToPEM env { Certificate := cert, PrivateKey := some (.rsa r) }
        = .ok (env.pemEncodeToMemory
            { BlockType := "RSA PRIVATE KEY", Bytes := env.MarshalPKCS1PrivateKey r }) := rfl
    refine ⟨_, _, hout, hdec, hsr, Or.inl rfl, hkey, ?_⟩
    rw [parsePrivateKey_of_keyBytes env _ (env.MarshalPKCS1PrivateKey r)
      (Or.inr ⟨_, _, hdec, hsr, rfl⟩)]
    exact hkey
  · obtain ⟨der, ⟨hmar, ⟨e1, h1⟩, ⟨e8, h8⟩, hsec⟩, hpem⟩ := hec e rfl
    have hdec := hpem []
    rw [List.append_nil] at hdec
    have hkey : env.decodeKeyBytes der = .ok (.ecdsa e) := by
      unfold Env.decodeKeyBytes
      rw [h1]
      simp only [h8, hsec]
    have hout : Certificate.PrivateKeyToPEM env { Certificate := cert, PrivateKey := some (.ecdsa e) }
        = .ok (env.pemEncodeToMemory { BlockType := "EC PRIVATE KEY", Bytes := der }) := by
      unfold Certificate.PrivateKeyToPEM
      simp only [hmar]
      rfl
    refine ⟨_, _, hout, hdec, hse, Or.inr rfl, hkey, ?_⟩
    rw [parsePrivateKey_of_keyBytes env _ der (Or.inr ⟨_, _, hdec, hse, rfl⟩)]
    exact hkey

theorem privateKeyToPEM_then_parsePrivateKey_witness :
    (∃ bytes, Certificate.PrivateKeyToPEM demoEnv ⟨demoLeaf, some (.rsa demoKey)⟩ = .ok bytes ∧
      parsePrivateKey demoEnv bytes = .ok (.rsa demoKey)) ∧
    (∃ bytes, Certificate.PrivateKeyToPEM demoEnv ⟨demoLeaf, some (.ecdsa demoEcKey)⟩ = .ok bytes ∧
      parsePrivateKey demoEnv bytes = .ok (.ecdsa demoEcKey)) := by
  obtain ⟨_, _, b1, _, h1, _, _, _, _, p1⟩ :=
    privateKeyToPEM_then_parsePrivateKey demoEnv demoLeaf (.rsa demoKey) (Or.inl ⟨_, rfl⟩)
      (fun r hr => by
        cases hr
        exact ⟨rfl, fun tail => rfl⟩)
      (fun e he => by cases he)
  obtain ⟨_, _, b2, _, h2, _, _, _, _, p2⟩ :=
    privateKeyToPEM_then_parsePrivateKey demoEnv demoLeaf (.ecdsa demoEcKey) (Or.inr ⟨_, rfl⟩)
      (fun r hr => by cases hr)
      (fun e he => by
        cases he
        exact ⟨[8], ⟨rfl, ⟨_, rfl⟩, ⟨_, rfl⟩, rfl⟩, fun tail => rfl⟩)
  exact ⟨⟨b1, h1, p1⟩, ⟨b2, h2, p2⟩⟩

/-! ### Writing a chain and reading it back -/

/-- Every certificate the decoding loop returns was in the accumulator or was
returned by the decoder of one certificate. -/
theorem x509ParseCertificatesLoop_decoded (env : Env) (P : X509Certificate → Prop)
    (hP : ∀ der c rest, env.derParseOne der = .ok (c, rest) → P c) :
    ∀ (fuel : Nat) (der : Bytes) (acc certs : List X509Certificate),
      x509ParseCertificatesLoop env fuel der acc = .ok certs →
      (∀ c ∈ acc, P c) → ∀ c ∈ certs, P c := by
  intro fuel
  induction fuel with
  | zero =>
    intro der acc certs h hacc
    simp only [x509ParseCertificatesLoop, Except.ok.injEq] at h
    rw [← h]
    exact hacc
  | succ n ih =>
    intro der acc certs h hacc
    unfold x509ParseCertificatesLoop at h
    by_cases hpos : der.length > 0
    · simp only [hpos, if_true] at h
      cases hone : env.derParseOne der with
      | error err =>
        rw [hone] at h
        cases h
      | ok p =>
        obtain ⟨cert, rest⟩ := p
        rw [hone] at h
        refine ih rest (acc ++ [cert]) certs h ?_
        intro c hc
        rcases List.mem_append.mp hc with hc | hc
        · exact hacc c hc
        · rw [List.mem_singleton.mp hc]
          exact hP der cert rest hone
    · simp only [hpos, if_false, Except.ok.injEq] at h
      rw [← h]
      exact hacc

/-- Every certificate `parseCertificates` returns was returned by the decoder of one
certificate. -/
theorem parseCertificates_decoded (env : Env) (P : X509Certificate → Prop)
    (hP : ∀ der c rest, env.derParseOne der = .ok (c, rest) → P c)
    (data : Bytes) (certs : List X509Certificate)
    (h : parseCertificates env data = .ok certs) : ∀ c ∈ certs, P c := by
  unfold parseCertificates at h
  simp only at h
  split at h
  · cases h
  · next rv hrv =>
    simp only [Except.ok.injEq] at h
    rw [← h]
    exact x509ParseCertificatesLoop_decoded env P hP _ _ [] rv hrv (by simp)

/-- The buffer of `IntermediatesToPEM` holds the encodings of the intermediates, one
after the other. -/
theorem IntermediatesToPEM_eq (env : Env) (c : CertificateChain) :
    c.IntermediatesToPEM env = (c.Intermediates.map (Certificate.CertificateToPEM env)).flatten := by
  have key : ∀ (l : List Certificate) (acc : Bytes),
      l.foldl (fun buf cert => buf ++ cert.CertificateToPEM env) acc
        = acc ++ (l.map (Certificate.CertificateToPEM env)).flatten := by
    intro l
    induction l with
    | nil => intro acc; simp
    | cons x xs ih =>
      intro acc
      simp only [List.foldl_cons, ih, List.map_cons, List.flatten_cons, List.append_assoc]
  unfold CertificateChain.IntermediatesToPEM
  rw [key]
  rfl

/-- The PEM scan of the encodings of certificates, written one after the other, finds
one `CERTIFICATE` block for each, in order, and leaves nothing. -/
theorem pemScan_of_encoded (env : Env) (certs : List X509Certificate)
    (hpem : ∀ c ∈ certs, env.PemInverse { BlockType := "CERTIFICATE", Bytes := c.Raw }) :
    env.PemScan
      (certs.map fun c => env.pemEncodeToMemory { BlockType := "CERTIFICATE", Bytes := c.Raw }).flatten
      (certs.map fun c => { BlockType := "CERTIFICATE", Bytes := c.Raw }) [] := by
  induction certs with
  | nil =>
    refine .stop [] ?_
    cases hd : env.pemDecode [] with
    | none => rfl
    | some p =>
      have := env.pemDecode_shrinks [] p.1 p.2 hd
      simp at this
  | cons x xs ih =>
    simp only [List.map_cons, List.flatten_cons]
    exact .block _ _ _ _ _ (hpem x (List.mem_cons_self _ _) _)
      (ih fun c hc => hpem c (List.mem_cons_of_mem _ hc))

/-- The bodies of `CERTIFICATE` blocks made from certificates are their `Raw` fields. -/
theorem certificateBodies_of_encoded (certs : List X509Certificate) :
    certificateBodies (certs.map fun c => { BlockType := "CERTIFICATE", Bytes := c.Raw })
      = certs.map (·.Raw) := by
  unfold certificateBodies
  induction certs with
  | nil => rfl
  | cons x xs ih =>
    simp only [List.map_cons, List.filter_cons, decide_True, if_true]
    rw [ih]

/-- Certificates written as PEM blocks one after the other are read back by
`parseCertificates`, in order. -/
theorem parseCertificates_of_encoded (env : Env) (first : X509Certificate)
    (more : List X509Certificate)
    (hpem : ∀ c ∈ first :: more, env.PemInverse { BlockType := "CERTIFICATE", Bytes := c.Raw })
    (hder : ∀ c ∈ first :: more, env.IsDerOf c.Raw c) :
    parseCertificates env
      ((first :: more).map fun c =>
        env.pemEncodeToMemory { BlockType := "CERTIFICATE", Bytes := c.Raw }).flatten
      = .ok (first :: more) := by
  rw [parseCertificates_eq env _ [] _ (pemScan_of_encoded env (first :: more) hpem)]
  rw [certificateBodies_of_encoded]
  have hne : (first :: more).map (·.Raw) ≠ [] := by simp
  simp only [hne, if_false]
  have hall : List.Forall₂ env.IsDerOf ((first :: more).map (·.Raw)) (first :: more) := by
    generalize first :: more = l at hder
    induction l with
    | nil => exact .nil
    | cons x xs ih =>
      exact .cons (hder x (List.mem_cons_self _ _))
        (ih fun c hc => hder c (List.mem_cons_of_mem _ hc))
  unfold x509ParseCertificates
  rw [x509ParseCertificatesLoop_concat env _ _ hall _ [] (Nat.lt_succ_self _)]
  rfl

/-- C17: for every chain that `ChainFromFullChainData` builds from a blob, the bytes
made of `CertificateToPEM` of the leaf followed by `IntermediatesToPEM` are
parsed by `parseCertificates` into the certificates of the blob, leaf first and
then the intermediates in order, and `ChainFromFullChainData` on those bytes
returns the same chain, given that the library decoders invert the library
encoders on decoded certificates; without intermediates, the encoding of the
single certificate is read back as that certificate. -/
theorem fullChain_pem_round_trip (env : Env) (hraw : env.RawIsDer)
    (hpem : env.CertificatePemInverse) (blob : Bytes) (chain : CertificateChain)
    (h : ChainFromFullChainData env blob = .ok chain) :
    ∃ leaf : Certificate, chain.Leaf = some leaf ∧
      parseCertificates env blob
        = .ok (leaf.Certificate :: chain.Intermediates.map (·.Certificate)) ∧
      parseCertificates env (leaf.CertificateToPEM env ++ chain.IntermediatesToPEM env)
        = .ok (leaf.Certificate :: chain.Intermediates.map (·.Certificate)) ∧
      ChainFromFullChainData env (leaf.CertificateToPEM env ++ chain.IntermediatesToPEM env)
        = .ok chain ∧
      (chain.Intermediates = [] →
        parseCertificates env (leaf.CertificateToPEM env) = .ok [leaf.Certificate]) := by
  unfold ChainFromFullChainData at h
  cases hp : parseCertificates env blob with
  | error err =>
    rw [hp] at h
    cases h
  | ok certs =>
    rw [hp] at h
    cases certs with
    | nil => cases h
    | cons first more =>
      simp only [Except.ok.injEq] at h
      subst h
      have hdec := parseCertificates_decoded env
        (fun c => ∃ der rest, env.derParseOne der = .ok (c, rest))
        (fun der c rest hc => ⟨der, rest, hc⟩) blob _ hp
      have hp1 : ∀ c ∈ first :: more,
          env.PemInverse { BlockType := "CERTIFICATE", Bytes := c.Raw } := by
        intro c hc
        obtain ⟨der, rest, hone⟩ := hdec c hc
        exact hpem der c rest hone
      have hd1 : ∀ c ∈ first :: more, env.IsDerOf c.Raw c := by
        intro c hc
        obtain ⟨der, rest, hone⟩ := hdec c hc
        exact hraw der c rest hone
      have hmap : (more.map fun x => ({ Certificate := x, PrivateKey := none } : Certificate)).map
          (·.Certificate) = more := by
        rw [List.map_map]
        exact List.map_id _
      have hbytes : Certificate.CertificateToPEM env { Certificate := first, PrivateKey := none }
            ++ CertificateChain.IntermediatesToPEM env
              { Leaf := some { Certificate := first, PrivateKey := none },
                Intermediates := more.map fun x => { Certificate := x, PrivateKey := none } }
          = ((first :: more).map fun c =>
              env.pemEncodeToMemory { BlockType := "CERTIFICATE", Bytes := c.Raw }).flatten := by
        rw [IntermediatesToPEM_eq]
        simp only [List.map_cons, List.flatten_cons, List.map_map]
        rfl
      have hre := parseCertificates_of_encoded env first more hp1 hd1
      refine ⟨_, rfl, ?_, ?_, ?_, ?_⟩
      · simp only [hmap]
      · rw [hbytes, hre]
        simp only [hmap]
      · unfold ChainFromFullChainData
        rw [hbytes, hre]
      · intro hnil
        have hmore : more = [] := by
          simpa using hnil
        subst hmore
        have hone := parseCertificates_of_encoded env first [] hp1 hd1
        simp only [List.map_cons, List.map_nil, List.flatten_cons, List.flatten_nil,
          List.append_nil] at hone
        exact hone

theorem demoEnv_rawIsDer : demoEnv.RawIsDer := by
  intro der c rest h
  have h1 : demoDerParseOne der = .ok (c, rest) := h
  unfold demoDerParseOne at h1
  split at h1 <;> cases h1 <;> (intro tail; rfl)

theorem demoEnv_certificatePemInverse : demoEnv.CertificatePemInverse := by
  intro der c rest h
  have h1 : demoDerParseOne der = .ok (c, rest) := h
  unfold demoDerParseOne at h1
  split at h1 <;> cases h1 <;> (intro tail; rfl)

theorem fullChain_pem_round_trip_witness :
    ChainFromFullChainData demoEnv [2, 1]
      = .ok { Leaf := some ⟨demoMid, none⟩, Intermediates := [⟨demoLeaf, none⟩] } ∧
    ChainFromFullChainData demoEnv [45, 0, 2, 45, 0, 1]
      = .ok { Leaf := some ⟨demoMid, none⟩, Intermediates := [⟨demoLeaf, none⟩] } ∧
    ∃ leaf : Certificate, some ⟨demoMid, none⟩ = some leaf ∧
      ChainFromFullChainData demoEnv
          (leaf.CertificateToPEM demoEnv ++
            CertificateChain.IntermediatesToPEM demoEnv
              { Leaf := some ⟨demoMid, none⟩, Intermediates := [⟨demoLeaf, none⟩] })
        = .ok { Leaf := some ⟨demoMid, none⟩, Intermediates := [⟨demoLeaf, none⟩] } := by
  refine ⟨rfl, rfl, ?_⟩
  obtain ⟨leaf, hl, _, _, hre, _⟩ :=
    fullChain_pem_round_trip demoEnv demoEnv_rawIsDer demoEnv_certificatePemInverse [2, 1]
      { Leaf := some ⟨demoMid, none⟩, Intermediates := [⟨demoLeaf, none⟩] } rfl
  exact ⟨leaf, hl, hre⟩

/-! ### The builder from a full-chain blob -/

/-- C21: `ChainFromFullChainData` fails when parsing the blob fails and when the blob
yields no certificate, and only then; otherwise the leaf is the first parsed
certificate and the intermediates are all the remaining parsed certificates, in
order and with none removed, so that one plus the number of intermediates is the
number of parsed certificates. The trust store is not consulted: a bundled root
among the parsed certificates stays among the intermediates. -/
theorem chainFromFullChainData_leaf_then_rest (env : Env) (chainData : Bytes) :
    (∀ err, parseCertificates env chainData = .error err →
      ChainFromFullChainData env chainData
        = .error (.errorString ("Unable to parse certificates: " ++ err.Error))) ∧
    (parseCertificates env chainData = .ok [] →
      ChainFromFullChainData env chainData
        = .error (.errorString "Found no certificates in the given file.")) ∧
    (∀ first more, parseCertificates env chainData = .ok (first :: more) →
      ∃ chain, ChainFromFullChainData env chainData = .ok chain ∧
        chain.Leaf = some { Certificate := first, PrivateKey := none } ∧
        chain.Intermediates.map (·.Certificate) = more ∧
        (∀ c ∈ chain.Intermediates, c.PrivateKey = none) ∧
        1 + chain.Intermediates.length = (first :: more).length ∧
        (∀ x ∈ more, env.isBundledRoot x = true →
          x ∈ chain.Intermediates.map (·.Certificate))) ∧
    ((∃ err, ChainFromFullChainData env chainData = .error err) ↔
      (∃ err, parseCertificates env chainData = .error err) ∨
        parseCertificates env chainData = .ok []) := by
  unfold ChainFromFullChainData
  cases hp : parseCertificates env chainData with
  | error err =>
    refine ⟨?_, ?_, ?_, ?_⟩
    · intro err1 h1
      cases h1
      rfl
    · intro h1
      cases h1
    · intro first more h1
      cases h1
    · exact ⟨fun _ => Or.inl ⟨err, rfl⟩, fun _ => ⟨_, rfl⟩⟩
  | ok certs =>
    cases certs with
    | nil =>
      refine ⟨?_, ?_, ?_, ?_⟩
      · intro err1 h1
        cases h1
      · intro _
        rfl
      · intro first more h1
        cases h1
      · exact ⟨fun _ => Or.inr rfl, fun _ => ⟨_, rfl⟩⟩
    | cons first more =>
      have hmap : (more.map fun x => ({ Certificate := x, PrivateKey := none } : Certificate)).map
          (·.Certificate) = more := by
        rw [List.map_map]
        exact List.map_id _
      refine ⟨?_, ?_, ?_, ?_⟩
      · intro err1 h1
        cases h1
      · intro h1
        cases h1
      · intro first1 more1 h1
        simp only [Except.ok.injEq, List.cons.injEq] at h1
        obtain ⟨rfl, rfl⟩ := h1
        refine ⟨_, rfl, rfl, hmap, ?_, ?_, ?_⟩
        · intro c hc
          obtain ⟨x, _, rfl⟩ := List.mem_map.mp hc
          rfl
        · simp only [List.length_map, List.length_cons]
          omega
        · intro x hx _
          rw [hmap]
          exact hx
      · constructor
        · rintro ⟨err, h1⟩
          cases h1
        · rintro (⟨err, h1⟩ | h1) <;> cases h1

theorem chainFromFullChainData_leaf_then_rest_witness :
    demoEnv.isBundledRoot demoRoot = true ∧
    ∃ chain, ChainFromFullChainData demoEnv [45, 0, 1, 45, 0, 3, 45, 0, 2] = .ok chain ∧
      chain.Leaf = some ⟨demoLeaf, none⟩ ∧
      chain.Intermediates.map (·.Certificate) = [demoRoot, demoMid] ∧
      1 + chain.Intermediates.length = 3 := by
  obtain ⟨chain, h, hl, hi, _, hn, _⟩ :=
    (chainFromFullChainData_leaf_then_rest demoEnv [45, 0, 1, 45, 0, 3, 45, 0, 2]).2.2.1
      demoLeaf [demoRoot, demoMid] rfl
  exact ⟨rfl, chain, h, hl, hi, hn⟩

/-! ### The errors of the builder from an intermediates blob -/

/-- The builder from an intermediates blob, once the blob has parsed and the bundle
has loaded: the trust engine is called once and its answer decides the result. -/
theorem chainFromIntermediatesData_eq (env : Env) (bundle : X509CertPool) (leaf : Certificate)
    (data : Bytes) (certs : List X509Certificate) (w : World) (hw : w.Coherent env)
    (hb : env.CACerts = .ok bundle) (hp : parseCertificates env data = .ok certs) :
    ChainFromCertificateAndIntermediatesData env leaf data w =
      match env.x509Verify leaf.Certificate
          { Roots := bundle, CurrentTime := env.now, Intermediates := certs, DNSName := "" } with
      | .error (.UnknownAuthorityError _) =>
        .ret (.error .UnknownAuthorityError)
          { w with certPoolCache := some bundle,
                   loads := if w.certPoolCache.isSome then w.loads else w.loads + 1,
                   verified := w.verified ++ [(leaf.Certificate,
                     { Roots := bundle, CurrentTime := env.now, Intermediates := certs,
                       DNSName := "" })] }
      | .error err =>
        .ret (.error (.errorString ("Unable to verify certificate chain: " ++ err.Error)))
          { w with certPoolCache := some bundle,
                   loads := if w.certPoolCache.isSome then w.loads else w.loads + 1,
                   verified := w.verified ++ [(leaf.Certificate,
                     { Roots := bundle, CurrentTime := env.now, Intermediates := certs,
                       DNSName := "" })] }
      | .ok [] =>
        .panic "runtime error: index out of range"
          { w with certPoolCache := some bundle,
                   loads := if w.certPoolCache.isSome then w.loads else w.loads + 1,
                   verified := w.verified ++ [(leaf.Certificate,
                     { Roots := bundle, CurrentTime := env.now, Intermediates := certs,
                       DNSName := "" })] }
      | .ok (first :: _) =>
        match collectIntermediates env first.tail []
            { w with certPoolCache := some bundle,
                     loads := if w.certPoolCache.isSome then w.loads else w.loads + 1,
                     verified := w.verified ++ [(leaf.Certificate,
                       { Roots := bundle, CurrentTime := env.now, Intermediates := certs,
                         DNSName := "" })] } with
        | .panic msg w3 => .panic msg w3
        | .ret intermediates w3 =>
          .ret (.ok { Leaf := some leaf, Intermediates := intermediates }) w3 := by
  have hpool : certs.foldl X509CertPool.AddCert NewCertPool = certs := by
    have key : ∀ (l acc : List X509Certificate),
        l.foldl X509CertPool.AddCert acc = acc ++ l := by
      intro l
      induction l with
      | nil => intro acc; simp
      | cons x xs ih =>
        intro acc
        simp only [List.foldl_cons, ih, X509CertPool.AddCert, List.append_assoc,
          List.singleton_append]
    rw [key]
    rfl
  unfold ChainFromCertificateAndIntermediatesData
  simp only [hp, hpool, MustCertPool_eq env bundle w hw.1 hb, x509CertificateVerify]
  cases hv : env.x509Verify leaf.Certificate
      { Roots := bundle, CurrentTime := env.now, Intermediates := certs, DNSName := "" } with
  | error e => cases e <;> rfl
  | ok chains => cases chains <;> rfl

/-- C22: `ChainFromCertificateAndIntermediatesData` returns `UnknownAuthorityError`
exactly when the blob parses and the trust engine reports an unknown authority for
the leaf; it returns an untyped error for every other failure of the trust
engine and for a blob that fails to parse (the engine is then not called); and
it returns a chain only when the trust engine succeeds. -/
theorem chainFromIntermediatesData_error_kinds (env : Env) (bundle : X509CertPool)
    (leaf : Certificate) (data : Bytes) (w : World) (hw : w.Coherent env)
    (hb : env.CACerts = .ok bundle) :
    (∀ err, parseCertificates env data = .error err →
      ChainFromCertificateAndIntermediatesData env leaf data w
        = .ret (.error (.errorString
            ("Unable to parse intermediate certificates: " ++ err.Error))) w) ∧
    (∀ certs, parseCertificates env data = .ok certs →
      (∀ msg, env.x509Verify leaf.Certificate
          { Roots := bundle, CurrentTime := env.now, Intermediates := certs, DNSName := "" }
            = .error (.UnknownAuthorityError msg) →
        ∃ w1, ChainFromCertificateAndIntermediatesData env leaf data w
            = .ret (.error .UnknownAuthorityError) w1 ∧
          w1.verified = w.verified ++ [(leaf.Certificate,
            { Roots := bundle, CurrentTime := env.now, Intermediates := certs,
              DNSName := "" })]) ∧
      (∀ e, env.x509Verify leaf.Certificate
          { Roots := bundle, CurrentTime := env.now, Intermediates := certs, DNSName := "" }
            = .error e → (∀ msg, e ≠ .UnknownAuthorityError msg) →
        ∃ w1, ChainFromCertificateAndIntermediatesData env leaf data w
            = .ret (.error (.errorString
                ("Unable to verify certificate chain: " ++ e.Error))) w1)) ∧
    ((∃ w1, ChainFromCertificateAndIntermediatesData env leaf data w
        = .ret (.error .UnknownAuthorityError) w1) ↔
      ∃ certs msg, parseCertificates env data = .ok certs ∧
        env.x509Verify leaf.Certificate
          { Roots := bundle, CurrentTime := env.now, Intermediates := certs, DNSName := "" }
            = .error (.UnknownAuthorityError msg)) ∧
    (∀ chain w1, ChainFromCertificateAndIntermediatesData env leaf data w = .ret (.ok chain) w1 →
      ∃ certs chains, parseCertificates env data = .ok certs ∧
        env.x509Verify leaf.Certificate
          { Roots := bundle, CurrentTime := env.now, Intermediates := certs, DNSName := "" }
            = .ok chains) := by
  have hperr : ∀ err, parseCertificates env data = .error err →
      ChainFromCertificateAndIntermediatesData env leaf data w
        = .ret (.error (.errorString
            ("Unable to parse intermediate certificates: " ++ err.Error))) w := by
    intro err hp
    unfold ChainFromCertificateAndIntermediatesData
    simp only [hp]
  refine ⟨hperr, ?_, ?_, ?_⟩
  · intro certs hp
    have heq := chainFromIntermediatesData_eq env bundle leaf data certs w hw hb hp
    constructor
    · intro msg hv
      rw [hv] at heq
      exact ⟨_, heq, rfl⟩
    · intro e hv hne
      rw [hv] at heq
      cases e with
      | UnknownAuthorityError msg => exact absurd rfl (hne msg)
      | HostnameError msg => exact ⟨_, heq⟩
      | Other msg => exact ⟨_, heq⟩
  · constructor
    · rintro ⟨w1, h⟩
      cases hp : parseCertificates env data with
      | error err =>
        rw [hperr err hp] at h
        cases h
      | ok certs =>
        have heq := chainFromIntermediatesData_eq env bundle leaf data certs w hw hb hp
        rw [h] at heq
        cases hv : env.x509Verify leaf.Certificate
            { Roots := bundle, CurrentTime := env.now, Intermediates := certs,
              DNSName := "" } with
        | error e =>
          rw [hv] at heq
          cases e with
          | UnknownAuthorityError msg => exact ⟨certs, msg, rfl, hv⟩
          | HostnameError msg => cases heq
          | Other msg => cases heq
        | ok chains =>
          rw [hv] at heq
          cases chains with
          | nil => cases heq
          | cons first more =>
            simp only at heq
            split at heq <;> cases heq
    · rintro ⟨certs, msg, hp, hv⟩
      have heq := chainFromIntermediatesData_eq env bundle leaf data certs w hw hb hp
      rw [hv] at heq
      exact ⟨_, heq⟩
  · intro chain w1 h
    cases hp : parseCertificates env data with
    | error err =>
      rw [hperr err hp] at h
      cases h
    | ok certs =>
      have heq := chainFromIntermediatesData_eq env bundle leaf data certs w hw hb hp
      rw [h] at heq
      cases hv : env.x509Verify leaf.Certificate
          { Roots := bundle, CurrentTime := env.now, Intermediates := certs,
            DNSName := "" } with
      | error e =>
        rw [hv] at heq
        cases e <;> cases heq
      | ok chains => exact ⟨certs, chains, rfl, hv⟩

theorem chainFromIntermediatesData_error_kinds_witness :
    (∃ w1, ChainFromCertificateAndIntermediatesData demoEnv ⟨demoLeaf, none⟩ [] World.init
      = .ret (.error .UnknownAuthorityError) w1) ∧
    ChainFromCertificateAndIntermediatesData demoEnv ⟨demoLeaf, none⟩ [9] World.init
      = .ret (.error (.errorString
          ("Unable to parse intermediate certificates: " ++ "asn1: structure error")))
        World.init := by
  have h := chainFromIntermediatesData_error_kinds demoEnv [demoRoot] ⟨demoLeaf, none⟩ []
    World.init (World.init_coherent _) rfl
  have h2 := chainFromIntermediatesData_error_kinds demoEnv [demoRoot] ⟨demoLeaf, none⟩ [9]
    World.init (World.init_coherent _) rfl
  exact ⟨h.2.2.1.mpr ⟨[], "x509: certificate signed by unknown authority", rfl, rfl⟩,
    h2.1 (.errorString "asn1: structure error") rfl⟩

/-! ### The blocks of the PEM output -/

/-- C23: `PrivateKeyToPEM` returns the encoding of one block of type `RSA PRIVATE KEY`
whose body is the PKCS#1 encoding for an RSA key, and of one block of type
`EC PRIVATE KEY` whose body is the SEC1 encoding for an ECDSA key (the error of
the SEC1 encoder when it gives none); for every other kind of key and for a
certificate without a key it returns an error, so bytes come out only for RSA
and ECDSA keys. `CertificateToPEM` returns the encoding of one `CERTIFICATE`
block whose body is the field `Raw`, and `IntermediatesToPEM` is the
concatenation of those encodings in the order of the intermediates, empty when
there is none. -/
theorem pem_output_blocks (env : Env) (cert : X509Certificate) :
    (∀ k, Certificate.PrivateKeyToPEM env { Certificate := cert, PrivateKey := some (.rsa k) }
      = .ok (env.pemEncodeToMemory
          { BlockType := "RSA PRIVATE KEY", Bytes := env.MarshalPKCS1PrivateKey k })) ∧
    (∀ k der, env.MarshalECPrivateKey k = .ok der →
      Certificate.PrivateKeyToPEM env { Certificate := cert, PrivateKey := some (.ecdsa k) }
        = .ok (env.pemEncodeToMemory { BlockType := "EC PRIVATE KEY", Bytes := der })) ∧
    (∀ k err, env.MarshalECPrivateKey k = .error err →
      Certificate.PrivateKeyToPEM env { Certificate := cert, PrivateKey := some (.ecdsa k) }
        = .error (.errorString err)) ∧
    (∀ kind,
      Certificate.PrivateKeyToPEM env { Certificate := cert, PrivateKey := some (.other kind) }
        = .error (.errorString ("Unknown private key type: " ++ kind))) ∧
    Certificate.PrivateKeyToPEM env { Certificate := cert, PrivateKey := none }
      = .error (.errorString "Unknown private key type: <nil>") ∧
    (∀ (key : Option CryptoPrivateKey) (bytes : Bytes),
      Certificate.PrivateKeyToPEM env { Certificate := cert, PrivateKey := key } = .ok bytes →
      (∃ k, key = some (.rsa k)) ∨ ∃ k, key = some (.ecdsa k)) ∧
    (∀ key, Certificate.CertificateToPEM env { Certificate := cert, PrivateKey := key }
      = env.pemEncodeToMemory { BlockType := "CERTIFICATE", Bytes := cert.Raw }) ∧
    (∀ chain : CertificateChain, chain.IntermediatesToPEM env
      = (chain.Intermediates.map fun c =>
          env.pemEncodeToMemory { BlockType := "CERTIFICATE", Bytes := c.Certificate.Raw }).flatten) ∧
    (∀ chain : CertificateChain, chain.Intermediates = [] → chain.IntermediatesToPEM env = []) := by
  refine ⟨fun k => rfl, ?_, ?_, fun kind => rfl, rfl, ?_, fun key => rfl, ?_, ?_⟩
  · intro k der h
    unfold Certificate.PrivateKeyToPEM
    simp only [h]
    rfl
  · intro k err h
    unfold Certificate.PrivateKeyToPEM
    simp only [h]
  · intro key bytes h
    cases key with
    | none => cases h
    | some k =>
      cases k with
      | rsa r => exact Or.inl ⟨r, rfl⟩
      | ecdsa e => exact Or.inr ⟨e, rfl⟩
      | other kind => cases h
  · intro chain
    rw [IntermediatesToPEM_eq]
    rfl
  · intro chain h
    rw [IntermediatesToPEM_eq, h]
    rfl

theorem pem_output_blocks_witness :
    Certificate.PrivateKeyToPEM demoEnv ⟨demoLeaf, some (.rsa demoKey)⟩ = .ok [45, 1, 7] ∧
    Certificate.PrivateKeyToPEM demoEnv ⟨demoLeaf, some (.ecdsa demoEcKey)⟩ = .ok [45, 2, 8] ∧
    CertificateChain.IntermediatesToPEM demoEnv ⟨some ⟨demoLeaf, none⟩, [⟨demoMid, none⟩, ⟨demoRoot, none⟩]⟩
      = [45, 0, 2, 45, 0, 3] :=
  ⟨(pem_output_blocks demoEnv demoLeaf).1 demoKey,
   (pem_output_blocks demoEnv demoLeaf).2.1 demoEcKey [8] rfl,
   (pem_output_blocks demoEnv demoLeaf).2.2.2.2.2.2.2.1
     ⟨some ⟨demoLeaf, none⟩, [⟨demoMid, none⟩, ⟨demoRoot, none⟩]⟩⟩

/-! ### The cache of the trust store -/

/-- With a loadable bundle, `CertPool` returns the bundle and loads it only when the
cache is unset. -/
theorem CertPool_eq (env : Env) (bundle : X509CertPool) (w : World)
    (hw : ∀ pool, w.certPoolCache = some pool → env.CACerts = .ok pool)
    (hb : env.CACerts = .ok bundle) :
    CertPool env w = .ret (.ok bundle)
      { w with certPoolCache := some bundle,
               loads := if w.certPoolCache.isSome then w.loads else w.loads + 1 } := by
  unfold CertPool
  cases hc : w.certPoolCache with
  | some pool =>
    have := hw pool hc
    rw [hb] at this
    cases this
    cases w
    simp_all
  | none => simp [hb]

/-- With a loadable bundle, `certPoolSubjectSet` returns the raw subjects of the
bundle and builds them only when the subject cache is unset. -/
theorem certPoolSubjectSet_eq (env : Env) (bundle : X509CertPool) (w : World)
    (hw : w.Coherent env) (hb : env.CACerts = .ok bundle) :
    certPoolSubjectSet env w
      = .ret (bundle.Subjects.foldl mapInsert []) (w.afterSubjectSet bundle) := by
  cases hc : w.certPoolSubjectSetCache with
  | some set =>
    obtain ⟨pool, hp, hset⟩ := hw.2 set hc
    rw [hb] at hp
    cases hp
    unfold certPoolSubjectSet
    simp only [hc, hset]
    simp [World.afterSubjectSet, hc]
  | none =>
    unfold certPoolSubjectSet
    simp only [hc]
    rw [MustCertPool_eq env bundle { w with certPoolSubjectSetCache := some [] } hw.1 hb]
    simp [World.afterSubjectSet, hc]

/-- One call of the trust store with a loadable bundle: the answer is that of the
bundle, the loader runs at most once and only when the pool cache is unset, and
a set pool cache stays as it is. -/
theorem PoolCall_run_ok (env : Env) (bundle : X509CertPool) (call : PoolCall) (w : World)
    (hw : w.Coherent env) (hb : env.CACerts = .ok bundle) :
    ∃ w1, call.run env w = .ret (call.answer bundle) w1 ∧ w1.Coherent env ∧
      w.loads ≤ w1.loads ∧ w1.loads ≤ w.loads + 1 ∧
      (w.certPoolCache = some bundle → w1.loads = w.loads ∧ w1.certPoolCache = some bundle) ∧
      (w1.loads = w.loads + 1 → w1.certPoolCache = some bundle) ∧
      (call ≠ .certPoolSubjectSet → w1.certPoolCache = some bundle) := by
  have hco : ({ w with certPoolCache := some bundle,
                       loads := if w.certPoolCache.isSome then w.loads else w.loads + 1 }
      : World).Coherent env := by
    refine ⟨?_, fun set hs => hw.2 set hs⟩
    intro pool hp
    simp at hp
    rw [hb, hp]
  have hloads : w.loads ≤ (if w.certPoolCache.isSome then w.loads else w.loads + 1) ∧
      (if w.certPoolCache.isSome then w.loads else w.loads + 1) ≤ w.loads + 1 := by
    split <;> omega
  have hsame : w.certPoolCache = some bundle →
      (if w.certPoolCache.isSome then w.loads else w.loads + 1) = w.loads := by
    intro h
    simp [h]
  cases call with
  | CertPool =>
    refine ⟨_, ?_, hco, hloads.1, hloads.2, fun h => ⟨hsame h, rfl⟩, fun _ => rfl, fun _ => rfl⟩
    simp only [PoolCall.run, CertPool_eq env bundle w hw.1 hb]
    rfl
  | MustCertPool =>
    refine ⟨_, ?_, hco, hloads.1, hloads.2, fun h => ⟨hsame h, rfl⟩, fun _ => rfl, fun _ => rfl⟩
    simp only [PoolCall.run, MustCertPool_eq env bundle w hw.1 hb]
    rfl
  | certPoolSubjectSet =>
    obtain ⟨hc1, _, _, _⟩ := afterSubjectSet_facts env bundle w hw hb
    refine ⟨w.afterSubjectSet bundle, ?_, hc1, ?_, ?_, ?_, ?_, fun h => absurd rfl h⟩
    · simp only [PoolCall.run, certPoolSubjectSet_eq env bundle w hw hb]
      rfl
    · unfold World.afterSubjectSet
      split
      · exact Nat.le_refl _
      · exact hloads.1
    · unfold World.afterSubjectSet
      split
      · exact Nat.le_succ _
      · exact hloads.2
    · intro h
      unfold World.afterSubjectSet
      split
      · exact ⟨rfl, h⟩
      · exact ⟨hsame h, rfl⟩
    · intro h
      unfold World.afterSubjectSet at h ⊢
      split
      · next hs =>
        simp only [hs, if_true] at h
        omega
      · rfl

/-- A sequence of calls that returns: its first call returned, and so did the rest. -/
theorem runPoolCalls_cons_ret (env : Env) (call : PoolCall) (more : List PoolCall) (w : World)
    (answers : List PoolAnswer) (w1 : World)
    (h : runPoolCalls env (call :: more) w = .ret answers w1) :
    ∃ a wm rest, call.run env w = .ret a wm ∧ runPoolCalls env more wm = .ret rest w1 ∧
      answers = a :: rest := by
  rw [runPoolCalls] at h
  cases hc : call.run env w with
  | panic msg wm =>
    simp only [hc] at h
    cases h
  | ret a wm =>
    simp only [hc] at h
    cases hr : runPoolCalls env more wm with
    | panic msg w2 =>
      simp only [hr] at h
      cases h
    | ret rest w2 =>
      simp only [hr, Outcome.ret.injEq] at h
      obtain ⟨rfl, rfl⟩ := h
      exact ⟨a, wm, rest, rfl, hr, rfl⟩

/-- C24: with a loadable bundle, every sequence of calls of `CertPool`, `MustCertPool`
and `certPoolSubjectSet` returns the bundle (or the subject set derived from it)
at every call; the loader runs at most once over the whole sequence, not at all
once the pool is cached, and a cached pool stays cached. When the loader fails,
`CertPool` returns an error and no pool and leaves the cache unset, `MustCertPool`
panics, and no sequence of calls returns a pool or caches one. -/
theorem pool_is_loaded_once_and_kept (env : Env) (w : World) (hw : w.Coherent env) :
    (∀ bundle, env.CACerts = .ok bundle → ∀ calls : List PoolCall, ∃ w1,
      runPoolCalls env calls w = .ret (calls.map (PoolCall.answer bundle)) w1 ∧
      w1.Coherent env ∧
      w.loads ≤ w1.loads ∧ w1.loads ≤ w.loads + 1 ∧
      (w.certPoolCache = some bundle → w1.loads = w.loads ∧ w1.certPoolCache = some bundle) ∧
      (w1.loads = w.loads + 1 → w1.certPoolCache = some bundle) ∧
      ((PoolCall.CertPool ∈ calls ∨ PoolCall.MustCertPool ∈ calls) →
        w1.certPoolCache = some bundle)) ∧
    (∀ err, env.CACerts = .error err →
      w.certPoolCache = none ∧
      CertPool env w
        = .ret (.error (.errorString ("Unable to load certificates from built-in store: " ++ err)))
            { w with certPoolCache := none, loads := w.loads + 1 } ∧
      MustCertPool env w
        = .panic ("Unable to load certificates from built-in store: " ++ err)
            { w with certPoolCache := none, loads := w.loads + 1 } ∧
      (∃ msg w1, certPoolSubjectSet env w = .panic msg w1) ∧
      (∀ calls answers w1, runPoolCalls env calls w = .ret answers w1 →
        w1.certPoolCache = none ∧ w1.certPoolSubjectSetCache = none ∧
        w1.loads = w.loads + calls.length ∧
        ∀ a ∈ answers, a = .pool (.error (.errorString
          ("Unable to load certificates from built-in store: " ++ err))))) := by
  constructor
  · intro bundle hb calls
    induction calls generalizing w with
    | nil => exact ⟨w, rfl, hw, Nat.le_refl _, Nat.le_succ _, fun h => ⟨rfl, h⟩,
        fun h => absurd h (by omega), fun h => by simp at h⟩
    | cons call more ih =>
      obtain ⟨w1, h1, hc1, l1, l2, k1, n1, m1⟩ := PoolCall_run_ok env bundle call w hw hb
      obtain ⟨w2, h2, hc2, l3, l4, k2, n2, m2⟩ := ih w1 hc1
      have hcase : w1.loads = w.loads ∨ w1.certPoolCache = some bundle := by
        by_cases h : w1.loads = w.loads + 1
        · exact Or.inr (n1 h)
        · exact Or.inl (by omega)
      refine ⟨w2, ?_, hc2, by omega, ?_, ?_, ?_, ?_⟩
      · simp only [runPoolCalls, h1, h2, List.map_cons]
      · rcases hcase with h | h
        · omega
        · have := (k2 h).1
          omega
      · intro h
        obtain ⟨e1, c1⟩ := k1 h
        obtain ⟨e2, c2⟩ := k2 c1
        exact ⟨by omega, c2⟩
      · intro h
        rcases hcase with h3 | h3
        · exact n2 (by omega)
        · exact (k2 h3).2
      · intro h
        by_cases hcall : call = .certPoolSubjectSet
        · subst hcall
          refine m2 ?_
          rcases h with h | h
          · exact Or.inl (by simpa using h)
          · exact Or.inr (by simpa using h)
        · exact (k2 (m1 hcall)).2
  · intro err hb
    have hnone : ∀ w0 : World, w0.Coherent env →
        w0.certPoolCache = none ∧ w0.certPoolSubjectSetCache = none := by
      intro w0 h0
      constructor
      · cases hc : w0.certPoolCache with
        | none => rfl
        | some pool =>
          have := h0.1 pool hc
          rw [hb] at this
          cases this
      · cases hc : w0.certPoolSubjectSetCache with
        | none => rfl
        | some set =>
          obtain ⟨pool, hp, _⟩ := h0.2 set hc
          rw [hb] at hp
          cases hp
    have hcert : ∀ w0 : World, w0.certPoolCache = none →
        CertPool env w0
          = .ret (.error (.errorString
              ("Unable to load certificates from built-in store: " ++ err)))
            { w0 with certPoolCache := none, loads := w0.loads + 1 } := by
      intro w0 h0
      unfold CertPool
      simp only [h0, hb]
    have hmust : ∀ w0 : World, w0.certPoolCache = none →
        MustCertPool env w0
          = .panic ("Unable to load certificates from built-in store: " ++ err)
              { w0 with certPoolCache := none, loads := w0.loads + 1 } := by
      intro w0 h0
      unfold MustCertPool
      rw [hcert w0 h0]
      rfl
    have hset : ∀ w0 : World, w0.certPoolCache = none → w0.certPoolSubjectSetCache = none →
        ∃ msg w1, certPoolSubjectSet env w0 = .panic msg w1 := by
      intro w0 h0 h1
      unfold certPoolSubjectSet
      simp only [h1]
      rw [hmust { w0 with certPoolSubjectSetCache := some [] } h0]
      exact ⟨_, _, rfl⟩
    obtain ⟨hn1, hn2⟩ := hnone w hw
    refine ⟨hn1, hcert w hn1, hmust w hn1, hset w hn1 hn2, ?_⟩
    intro calls
    have key : ∀ (calls : List PoolCall) (w0 : World), w0.certPoolCache = none →
        w0.certPoolSubjectSetCache = none → ∀ answers w1,
        runPoolCalls env calls w0 = .ret answers w1 →
        w1.certPoolCache = none ∧ w1.certPoolSubjectSetCache = none ∧
        w1.loads = w0.loads + calls.length ∧
        ∀ a ∈ answers, a = .pool (.error (.errorString
          ("Unable to load certificates from built-in store: " ++ err))) := by
      intro calls
      induction calls with
      | nil =>
        intro w0 h0 h1 answers w1 h
        simp only [runPoolCalls, Outcome.ret.injEq] at h
        obtain ⟨rfl, rfl⟩ := h
        exact ⟨h0, h1, rfl, fun a ha => by cases ha⟩
      | cons call more ih =>
        intro w0 h0 h1 answers w1 h
        obtain ⟨a, wm, rest, hrun, hrest, rfl⟩ := runPoolCalls_cons_ret env call more w0 answers w1 h
        cases call with
        | CertPool =>
          simp only [PoolCall.run, hcert w0 h0, Outcome.ret.injEq] at hrun
          obtain ⟨rfl, rfl⟩ := hrun
          obtain ⟨a1, a2, a3, a4⟩ :=
            ih { w0 with certPoolCache := none, loads := w0.loads + 1 } rfl h1 rest w1 hrest
          refine ⟨a1, a2, ?_, ?_⟩
          · rw [a3]
            simp only [List.length_cons]
            omega
          · intro a ha
            rcases List.mem_cons.mp ha with rfl | ha
            · rfl
            · exact a4 a ha
        | MustCertPool =>
          simp only [PoolCall.run, hmust w0 h0] at hrun
          cases hrun
        | certPoolSubjectSet =>
          obtain ⟨msg, w2, hp⟩ := hset w0 h0 h1
          simp only [PoolCall.run, hp] at hrun
          cases hrun
    exact key calls w hn1 hn2

theorem pool_is_loaded_once_and_kept_witness :
    ∃ w1, runPoolCalls demoEnv
        [.certPoolSubjectSet, .CertPool, .MustCertPool, .certPoolSubjectSet, .CertPool] World.init
      = .ret [.subjects [[3]], .pool (.ok [demoRoot]), .must [demoRoot], .subjects [[3]],
              .pool (.ok [demoRoot])] w1 ∧
      w1.loads ≤ 1 ∧ w1.certPoolCache = some [demoRoot] := by
  obtain ⟨w1, h, _, _, hl, _, _, hc⟩ :=
    (pool_is_loaded_once_and_kept demoEnv World.init (World.init_coherent _)).1 [demoRoot] rfl
      [.certPoolSubjectSet, .CertPool, .MustCertPool, .certPoolSubjectSet, .CertPool]
  exact ⟨w1, h, hl, hc (Or.inl (by decide))⟩

/-! ### A walk that never ends -/

/-- An iteration that ends at the bottom of the loop body is followed by the rest of
the walk from the new variables. -/
theorem internetWalk_of_step (env : Env) (s s1 : WalkState)
    (h : internetWalkStep env s = some s1) (fuel : Nat) :
    internetWalk env (fuel + 1) s.currentCert s.isLeafCert s.rv s.world
      = internetWalk env fuel s1.currentCert s1.isLeafCert s1.rv s1.world := by
  unfold internetWalkStep at h
  rw [internetWalk]
  cases hb : s.currentCert.IsBundled env s.world with
  | panic msg w1 =>
    simp only [hb] at h
    cases h
  | ret b w1 =>
    cases b with
    | true =>
      simp only [hb] at h
      cases h
    | false =>
      simp only [hb] at h ⊢
      by_cases hlen : s.currentCert.Certificate.IssuingCertificateURL.length = 0
      · simp only [hlen, if_true] at h
        cases h
      · simp only [hlen, if_false] at h ⊢
        cases hs : s.currentCert.ReadableSubject w1 with
        | panic msg w2 =>
          simp only [hs] at h
          cases h
        | ret subject w2 =>
          simp only [hs] at h ⊢
          cases hf : fetchFirst env s.currentCert.Certificate.IssuingCertificateURL
              (.errorString ("Error fetching intermediates: cert for " ++ subject
                ++ " doesn't point to parent")) w2 with
          | panic msg w3 =>
            simp only [hf] at h
            cases h
          | ret rf w3 =>
            cases rf with
            | error err =>
              simp only [hf] at h
              cases h
            | ok nextCert =>
              simp only [hf, Option.some.injEq] at h ⊢
              rw [← h]

/-- An iteration that does not end at the bottom of the loop body ends the walk: the
function returns or panics in it. -/
theorem internetWalk_of_no_step (env : Env) (s : WalkState)
    (h : internetWalkStep env s = none) (fuel : Nat) :
    ∃ out, internetWalk env (fuel + 1) s.currentCert s.isLeafCert s.rv s.world = some out := by
  unfold internetWalkStep at h
  rw [internetWalk]
  cases hb : s.currentCert.IsBundled env s.world with
  | panic msg w1 => exact ⟨_, rfl⟩
  | ret b w1 =>
    cases b with
    | true => exact ⟨_, rfl⟩
    | false =>
      simp only [hb] at h ⊢
      by_cases hlen : s.currentCert.Certificate.IssuingCertificateURL.length = 0
      · simp only [hlen, if_true]
        cases hs : s.currentCert.ReadableSubject w1 <;> exact ⟨_, rfl⟩
      · simp only [hlen, if_false] at h ⊢
        cases hs : s.currentCert.ReadableSubject w1 with
        | panic msg w2 => exact ⟨_, rfl⟩
        | ret subject w2 =>
          simp only [hs] at h ⊢
          cases hf : fetchFirst env s.currentCert.Certificate.IssuingCertificateURL
              (.errorString ("Error fetching intermediates: cert for " ++ subject
                ++ " doesn't point to parent")) w2 with
          | panic msg w3 => exact ⟨_, rfl⟩
          | ret rf w3 =>
            cases rf with
            | error err => exact ⟨_, rfl⟩
            | ok nextCert =>
              simp only [hf] at h
              cases h

/-- The iteration at a certificate that is not a bundled root, whose key identifier
can be printed and which has a next certificate: the loop goes on with the next
certificate, has fetched at least one more URL, and has appended the current
certificate unless it is the leaf. -/
theorem internetWalkStep_next (env : Env) (bundle : X509CertPool) (hb : env.CACerts = .ok bundle)
    (s : WalkState) (hw : s.world.Coherent env)
    (hroot : env.isBundledRoot s.currentCert.Certificate = false)
    (id : Bytes) (hskid : s.currentCert.Certificate.SubjectKeyId.upTo 4 = some id)
    (next : X509Certificate) (hnext : env.nextCertificate s.currentCert.Certificate = some next) :
    ∃ w2, internetWalkStep env s
        = some { currentCert := Certificate.ofX509 next, isLeafCert := false,
                 rv := if !s.isLeafCert then
                         { s.rv with Intermediates := s.rv.Intermediates ++ [s.currentCert] }
                       else s.rv,
                 world := w2 } ∧
      s.world.fetched.length < w2.fetched.length ∧ s.world.fetched <+: w2.fetched ∧
      w2.Coherent env := by
  obtain ⟨before, url, after, hurls, hok, hfail⟩ := List.findSome?_eq_some_iff.mp hnext
  obtain ⟨wb, hbun, hcb, hrb⟩ := IsBundled_ok env bundle s.currentCert s.world hw hb
  obtain ⟨hhop, hfind⟩ := hopFetches_first_success env before after url next hfail hok
  rw [← hurls] at hhop hfind
  have hlen : ¬ s.currentCert.Certificate.IssuingCertificateURL.length = 0 := by
    rw [hurls]
    simp
  obtain ⟨rf, wf, hf, f1, _, f3, f4, fok, _⟩ :=
    fetchFirst_spec env s.currentCert.Certificate.IssuingCertificateURL
      ("Error fetching intermediates: cert for "
        ++ (hexBytes id ++ " (" ++ s.currentCert.Certificate.SubjectCommonName ++ ")")
        ++ " doesn't point to parent") wb
  have hrf := fok next hfind
  subst hrf
  have hfetched : wf.fetched = s.world.fetched ++ (before ++ [url]) := by
    rw [f1, hhop, hrb.1]
  refine ⟨wf, ?_, ?_, ?_, coherent_of_caches env wb wf hcb f3 f4⟩
  · unfold internetWalkStep
    simp only [hbun, hroot, hlen, if_false, Certificate.ReadableSubject, hskid, Go.pure_apply, hf]
    rfl
  · rw [hfetched]
    simp
  · rw [hfetched]
    exact List.prefix_append _ _

/-- The loop variables after `n` iterations are those from which the walk goes on:
a walk with `n` more iterations to spend is the walk from them. -/
theorem internetWalk_of_states (env : Env) (n : Nat) :
    ∀ (s0 s : WalkState), internetWalkStates env n s0 = some s → ∀ fuel : Nat,
      internetWalk env (fuel + n) s0.currentCert s0.isLeafCert s0.rv s0.world
        = internetWalk env fuel s.currentCert s.isLeafCert s.rv s.world := by
  induction n with
  | zero =>
    intro s0 s h fuel
    simp only [internetWalkStates, Option.some.injEq] at h
    rw [← h]
    rfl
  | succ n ih =>
    intro s0 s h fuel
    rw [internetWalkStates] at h
    cases hstep : internetWalkStep env s0 with
    | none =>
      simp only [hstep] at h
      cases h
    | some s1 =>
      simp only [hstep] at h
      have harith : fuel + (n + 1) = (fuel + n) + 1 := by omega
      rw [harith, internetWalk_of_step env s0 s1 hstep (fuel + n)]
      exact ih s1 s h fuel

/-- The walk on certificates whose key identifier can be printed has no hop limit and
detects no cycle. On a set of such certificates that the hops do not leave (none
of them a bundled root, each with an issuer URL whose fetch yields a certificate
of the set, such as a certificate whose issuer URL returns itself), the walk
returns under no bound on its iterations, and for every `n` the loop completes
`n + 2` iterations, after which it has fetched more than `n` URLs and appended
more than `n` intermediates, and from which `ChainFromCertificateAndInternet`
goes on. -/
theorem internetWalk_never_returns_on_cycle (env : Env) (bundle : X509CertPool)
    (hb : env.CACerts = .ok bundle) (S : X509Certificate → Prop)
    (hS : ∀ c, S c → env.isBundledRoot c = false ∧ (∃ id, c.SubjectKeyId.upTo 4 = some id) ∧
      ∃ next, S next ∧ env.nextCertificate c = some next)
    (leaf : Certificate) (hleaf : S leaf.Certificate) (w : World) (hw : w.Coherent env) :
    (∀ fuel, ChainFromCertificateAndInternet env fuel leaf w = none) ∧
    (∀ n, ∃ s : WalkState,
      internetWalkStates env (n + 2) (WalkState.start leaf w) = some s ∧
      (∀ fuel, ChainFromCertificateAndInternet env (fuel + (n + 2)) leaf w
        = internetWalk env fuel s.currentCert s.isLeafCert s.rv s.world) ∧
      S s.currentCert.Certificate ∧
      s.rv.Leaf = some leaf ∧
      n < s.rv.Intermediates.length ∧
      w.fetched.length + n < s.world.fetched.length ∧
      w.fetched <+: s.world.fetched) := by
  constructor
  · have key : ∀ (fuel : Nat) (s : WalkState), S s.currentCert.Certificate →
        s.world.Coherent env →
        internetWalk env fuel s.currentCert s.isLeafCert s.rv s.world = none := by
      intro fuel
      induction fuel with
      | zero =>
        intro s _ _
        rfl
      | succ n ih =>
        intro s hcur hw0
        obtain ⟨hroot, ⟨id, hid⟩, next, hnS, hnext⟩ := hS _ hcur
        obtain ⟨w2, hstep, _, _, hc2⟩ :=
          internetWalkStep_next env bundle hb s hw0 hroot id hid next hnext
        rw [internetWalk_of_step env s _ hstep n]
        exact ih
          ({ currentCert := Certificate.ofX509 next, isLeafCert := false,
             rv := if !s.isLeafCert then
                     { s.rv with Intermediates := s.rv.Intermediates ++ [s.currentCert] }
                   else s.rv,
             world := w2 } : WalkState) hnS hc2
    intro fuel
    exact key fuel (WalkState.start leaf w) hleaf hw
  · have key : ∀ (n : Nat) (s0 : WalkState), S s0.currentCert.Certificate →
        s0.world.Coherent env → ∃ s : WalkState,
        internetWalkStates env n s0 = some s ∧ S s.currentCert.Certificate ∧
        s.world.Coherent env ∧ s.rv.Leaf = s0.rv.Leaf ∧
        (s0.rv.Intermediates.length + n
          ≤ s.rv.Intermediates.length + (if s0.isLeafCert ∧ 0 < n then 1 else 0)) ∧
        s0.world.fetched.length + n ≤ s.world.fetched.length ∧
        s0.world.fetched <+: s.world.fetched := by
      intro n
      induction n with
      | zero =>
        intro s0 h0 hw0
        exact ⟨s0, rfl, h0, hw0, rfl, by simp, Nat.le_refl _, List.prefix_refl _⟩
      | succ n ih =>
        intro s0 h0 hw0
        obtain ⟨hroot, ⟨id, hid⟩, next, hnS, hnext⟩ := hS _ h0
        obtain ⟨w2, hstep, hlt, hpre, hc2⟩ :=
          internetWalkStep_next env bundle hb s0 hw0 hroot id hid next hnext
        obtain ⟨s, hs, hsS, hsc, hsl, hsi, hsf, hsp⟩ := ih
          ({ currentCert := Certificate.ofX509 next, isLeafCert := false,
             rv := if !s0.isLeafCert then
                     { s0.rv with Intermediates := s0.rv.Intermediates ++ [s0.currentCert] }
                   else s0.rv,
             world := w2 } : WalkState) hnS hc2
        refine ⟨s, ?_, hsS, hsc, ?_, ?_, ?_, ?_⟩
        · simp only [internetWalkStates, hstep]
          exact hs
        · rw [hsl]
          cases s0.isLeafCert <;> rfl
        · simp only [Bool.false_eq_true, false_and, if_false, Nat.add_zero] at hsi
          cases hl : s0.isLeafCert with
          | true =>
            simp only [hl, Bool.not_true, Bool.false_eq_true, if_false] at hsi
            simp only [true_and, Nat.zero_lt_succ, if_true]
            omega
          | false =>
            simp only [hl, Bool.not_false, if_true, List.length_append,
              List.length_singleton] at hsi
            simp only [Bool.false_eq_true, false_and, if_false]
            omega
        · simp only at hsf
          omega
        · exact hpre.trans hsp
    intro n
    obtain ⟨s, hs, hsS, _, hsl, hsi, hsf, hsp⟩ := key (n + 2) (WalkState.start leaf w) hleaf hw
    refine ⟨s, hs, fun fuel => internetWalk_of_states env (n + 2) (WalkState.start leaf w) s hs fuel,
      hsS, hsl, ?_, ?_, hsp⟩
    · simp only [WalkState.start, List.length_nil, true_and, Nat.zero_lt_succ, if_true] at hsi
      omega
    · simp only [WalkState.start] at hsf
      omega

/-- The walk in a network in which the issuer URL of the leaf returns the leaf itself:
it returns under no bound, and after three iterations it has fetched more than
one URL and appended more than one intermediate. -/
theorem internetWalk_never_returns_on_self_loop :
    loopEnv.nextCertificate demoLeaf = some demoLeaf ∧
    (∀ fuel, ChainFromCertificateAndInternet loopEnv fuel ⟨demoLeaf, none⟩ World.init = none) ∧
    ∃ s : WalkState,
      internetWalkStates loopEnv 3 (WalkState.start ⟨demoLeaf, none⟩ World.init) = some s ∧
      1 < s.rv.Intermediates.length ∧ 1 < s.world.fetched.length := by
  have h := internetWalk_never_returns_on_cycle loopEnv [demoRoot] rfl (fun c => c = demoLeaf)
    (fun c hc => by
      subst hc
      exact ⟨rfl, ⟨[0, 0, 0, 1], rfl⟩, demoLeaf, rfl, rfl⟩)
    ⟨demoLeaf, none⟩ rfl World.init (World.init_coherent _)
  obtain ⟨s, hs, _, _, _, hi, hf, _⟩ := h.2 1
  exact ⟨rfl, h.1, s, hs, hi, by simpa [World.init] using hf⟩

/-- C25, the code at the failing input: a certificate that is not a bundled root,
carries no subject key identifier and has an issuer URL whose fetch returns
that same certificate. The walk does not go round the cycle: under every bound
of at least one iteration it panics in the first iteration, when it builds the
text of the error for the hop, having fetched nothing and appended nothing. -/
theorem walk_panics_on_cycle_without_key_identifier :
    loopNoSkidEnv.isBundledRoot demoLeafNoSkid = false ∧
    demoLeafNoSkid.SubjectKeyId = none ∧
    demoLeafNoSkid.IssuingCertificateURL = ["u1", "u2"] ∧
    loopNoSkidEnv.fetchCertificate "u1" = none ∧
    loopNoSkidEnv.fetchCertificate "u2" = some demoLeafNoSkid ∧
    loopNoSkidEnv.nextCertificate demoLeafNoSkid = some demoLeafNoSkid ∧
    (∀ fuel : Nat,
      ChainFromCertificateAndInternet loopNoSkidEnv (fuel + 1) ⟨demoLeafNoSkid, none⟩ World.init
        = some (.panic "runtime error: slice bounds out of range"
            { certPoolCache := some [demoRoot], certPoolSubjectSetCache := some [[3]],
              loads := 1, fetched := [], verified := [], stderr := [] })) ∧
    internetWalkStep loopNoSkidEnv (WalkState.start ⟨demoLeafNoSkid, none⟩ World.init) = none :=
  ⟨rfl, rfl, rfl, rfl, rfl, rfl, fun _ => rfl, rfl⟩

/-! ### Printing a certificate without a subject key identifier -/

/-- The method `ReadableSubject` panics exactly when the key identifier has a capacity
below four bytes, and it leaves the process state as it is. -/
theorem ReadableSubject_eq (c : Certificate) (w : World) :
    c.ReadableSubject w =
      match c.Certificate.SubjectKeyId.upTo 4 with
      | none => .panic "runtime error: slice bounds out of range" w
      | some id => .ret (hexBytes id ++ " (" ++ c.Certificate.SubjectCommonName ++ ")") w := by
  unfold Certificate.ReadableSubject
  cases c.Certificate.SubjectKeyId.upTo 4 <;> rfl

/-- The loop over the intermediates panics when printing one of them panics in every
process state. -/
theorem intermediatesInfoLoop_panics (fmt : Formatters) (env : Env) (wrapLength : Int)
    (bad : Certificate)
    (hbad : ∀ w, ∃ msg w1, bad.InfoLines fmt env (wrapLength - 2) w = .panic msg w1) :
    ∀ (certs : List Certificate), bad ∈ certs → ∀ (index : Nat) (lines : Lines) (w : World),
      ∃ msg w1, intermediatesInfoLoop fmt env wrapLength certs index lines w = .panic msg w1 := by
  intro certs
  induction certs with
  | nil =>
    intro h
    cases h
  | cons cert more ih =>
    intro hmem index lines w
    rw [intermediatesInfoLoop]
    cases hc : cert.InfoLines fmt env (wrapLength - 2) w with
    | panic msg w1 =>
      simp only [hc]
      exact ⟨msg, w1, rfl⟩
    | ret info w1 =>
      simp only [hc]
      rcases List.mem_cons.mp hmem with rfl | hmore
      · obtain ⟨msg, w2, hp⟩ := hbad w
        rw [hp] at hc
        cases hc
      · exact ih hmore _ _ _

/-- C26: `ReadableSubject` returns a string for every certificate whose subject key
identifier has at least four bytes (the hex of the first four and the common
name), and for every certificate whose subject key identifier is absent the
slice of four bytes is out of range and the call panics. The same panic ends
`Certificate.InfoLines` at its first line, `CertificateChain.InfoLines` for a
chain with such a leaf or such an intermediate, and the walk of
`ChainFromCertificateAndInternet` at such a certificate that is not a bundled
root, on the path of the error "doesn't point to parent" included. -/
theorem readableSubject_panics_without_key_identifier (fmt : Formatters) (env : Env)
    (c : Certificate) (w : World) :
    (∀ s : GoSlice, c.Certificate.SubjectKeyId = some s → 4 ≤ s.elems.length →
      c.ReadableSubject w
        = .ret (hexBytes (s.elems.take 4) ++ " (" ++ c.Certificate.SubjectCommonName ++ ")") w) ∧
    (c.Certificate.SubjectKeyId = none →
      c.ReadableSubject w = .panic "runtime error: slice bounds out of range" w ∧
      (∀ wrapLength, c.InfoLines fmt env wrapLength w
        = .panic "runtime error: slice bounds out of range" w) ∧
      (∀ (chain : CertificateChain) wrapLength, chain.Leaf = some c →
        chain.InfoLines fmt env wrapLength w
          = .panic "runtime error: slice bounds out of range" w) ∧
      (∀ (chain : CertificateChain) wrapLength, c ∈ chain.Intermediates →
        ∃ msg w1, chain.InfoLines fmt env wrapLength w = .panic msg w1) ∧
      (∀ bundle, w.Coherent env → env.CACerts = .ok bundle →
        env.isBundledRoot c.Certificate = false →
        ∀ (fuel : Nat) (isLeafCert : Bool) (rv : CertificateChain),
          ∃ w1, internetWalk env (fuel + 1) c isLeafCert rv w
              = some (.panic "runtime error: slice bounds out of range" w1) ∧
            w1.fetched = w.fetched) ∧
      (∀ bundle, w.Coherent env → env.CACerts = .ok bundle →
        env.isBundledRoot c.Certificate = false →
        ∀ fuel : Nat, ∃ w1, ChainFromCertificateAndInternet env (fuel + 1) c w
            = some (.panic "runtime error: slice bounds out of range" w1) ∧
          w1.fetched = w.fetched)) := by
  constructor
  · intro s hs hlen
    rw [ReadableSubject_eq, hs]
    have hup : ByteSlice.upTo (some s) 4 = some (s.elems.take 4) := by
      have h1 : 4 ≤ s.elems.length + s.spare.length := by omega
      simp only [ByteSlice.upTo, h1, if_true]
      rw [List.take_append_of_le_length hlen]
    rw [hup]
  · intro hnone
    have hsub : ∀ w0 : World,
        c.ReadableSubject w0 = .panic "runtime error: slice bounds out of range" w0 := by
      intro w0
      rw [ReadableSubject_eq, hnone]
      rfl
    have hinfo : ∀ (wrapLength : Int) (w0 : World), c.InfoLines fmt env wrapLength w0
        = .panic "runtime error: slice bounds out of range" w0 := by
      intro wrapLength w0
      unfold Certificate.InfoLines
      simp only [hsub w0]
    have hwalk : ∀ bundle, w.Coherent env → env.CACerts = .ok bundle →
        env.isBundledRoot c.Certificate = false →
        ∀ (fuel : Nat) (isLeafCert : Bool) (rv : CertificateChain),
          ∃ w1, internetWalk env (fuel + 1) c isLeafCert rv w
              = some (.panic "runtime error: slice bounds out of range" w1) ∧
            w1.fetched = w.fetched := by
      intro bundle hw hb hroot fuel isLeafCert rv
      obtain ⟨wb, hbun, _, hrb⟩ := IsBundled_ok env bundle c w hw hb
      refine ⟨wb, ?_, hrb.1⟩
      rw [internetWalk]
      simp only [hbun, hroot, hsub wb]
      split <;> rfl
    refine ⟨hsub w, fun wrapLength => hinfo wrapLength w, ?_, ?_, hwalk, ?_⟩
    · intro chain wrapLength hleaf
      unfold CertificateChain.InfoLines
      simp only [hleaf, hinfo]
    · intro chain wrapLength hmem
      have hloop := intermediatesInfoLoop_panics fmt env wrapLength c
        (fun w0 => ⟨_, _, hinfo _ w0⟩) chain.Intermediates hmem
      unfold CertificateChain.InfoLines
      cases hl : chain.Leaf with
      | none => exact hloop _ _ _
      | some leaf =>
        simp only []
        cases hi : leaf.InfoLines fmt env (wrapLength - 2) w with
        | panic msg w1 => exact ⟨msg, w1, rfl⟩
        | ret info w1 =>
          simp only []
          exact hloop _ _ _
    · intro bundle hw hb hroot fuel
      exact hwalk bundle hw hb hroot fuel true _

theorem readableSubject_panics_without_key_identifier_witness :
    Certificate.ReadableSubject ⟨demoLeaf, none⟩ World.init = .ret "00000001 (cn)" World.init ∧
    (∀ wrapLength, CertificateChain.InfoLines demoFormatters
        demoEnv ⟨some ⟨demoLeafNoSkid, none⟩, []⟩ wrapLength World.init
      = .panic "runtime error: slice bounds out of range" World.init) ∧
    ∃ w1, ChainFromCertificateAndInternet demoEnv 1 ⟨demoLeafNoSkid, none⟩ World.init
      = some (.panic "runtime error: slice bounds out of range" w1) ∧ w1.fetched = [] := by
  have h1 := (readableSubject_panics_without_key_identifier
    demoFormatters demoEnv ⟨demoLeaf, none⟩ World.init).1
    ⟨[0, 0, 0, 1], []⟩ rfl (by decide)
  have h2 := (readableSubject_panics_without_key_identifier
    demoFormatters demoEnv ⟨demoLeafNoSkid, none⟩
    World.init).2 rfl
  exact ⟨h1, fun wrapLength => h2.2.2.1 _ wrapLength rfl,
    h2.2.2.2.2.2 [demoRoot] (World.init_coherent _) rfl rfl 0⟩

/-! ### The readable issuer -/

/-- The three cases of `ReadableIssuer`, and the panic of the third one when the
authority key identifier cannot be sliced to four bytes. -/
theorem ReadableIssuer_eq (c : Certificate) (w : World) :
    c.ReadableIssuer w =
      match c.Certificate.AuthorityKeyId with
      | none => .ret "Unsigned" w
      | some aki =>
        if aki.elems = c.Certificate.SubjectKeyId.bytes then .ret "Self-signed" w
        else if 4 ≤ aki.elems.length + aki.spare.length then
          .ret (hexBytes ((aki.elems ++ aki.spare).take 4) ++ " ("
            ++ c.Certificate.IssuerCommonName ++ ")") w
        else .panic "runtime error: slice bounds out of range" w := by
  unfold Certificate.ReadableIssuer
  cases ha : c.Certificate.AuthorityKeyId with
  | none => rfl
  | some aki =>
    simp only [ByteSlice.bytes, ByteSlice.upTo]
    by_cases he : aki.elems = c.Certificate.SubjectKeyId.bytes
    · simp only [ByteSlice.bytes] at he
      simp only [he, if_true]
      rfl
    · simp only [ByteSlice.bytes] at he
      simp only [he, if_false]
      by_cases hl : 4 ≤ aki.elems.length + aki.spare.length
      · simp only [hl, if_true]
        rfl
      · simp only [hl, if_false]
        rfl

/-- C28, the code at the failing input: a certificate whose authority key identifier
is present, has one byte and differs from the subject key identifier.
`ReadableIssuer` panics when the slice has no spare capacity, and prints the
bytes that follow the identifier in memory when it has. A certificate without
an authority key identifier gives "Unsigned", and one whose two identifiers are
equal gives "Self-signed". -/
theorem readableIssuer_fails_on_short_authority_key_identifier :
    demoShortAki.AuthorityKeyId = some ⟨[171], []⟩ ∧
    demoShortAki.SubjectKeyId = some ⟨[0, 0, 0, 1], []⟩ ∧
    Certificate.ReadableIssuer ⟨demoShortAki, none⟩ World.init
      = .panic "runtime error: slice bounds out of range" World.init ∧
    Certificate.ReadableIssuer ⟨demoShortAkiSpare, none⟩ World.init
      = .ret "ab308201 (ca)" World.init ∧
    Certificate.ReadableIssuer ⟨demoLeaf, none⟩ World.init = .ret "Unsigned" World.init ∧
    Certificate.ReadableIssuer
        ⟨{ demoLeaf with AuthorityKeyId := some ⟨[0, 0, 0, 1], [7]⟩ }, none⟩ World.init
      = .ret "Self-signed" World.init ∧
    Certificate.ReadableIssuer
        ⟨{ demoLeaf with AuthorityKeyId := some ⟨[0, 0, 0, 2, 9], []⟩ }, none⟩ World.init
      = .ret "00000002 (ca)" World.init :=
  ⟨rfl, rfl, rfl, rfl, rfl, rfl, rfl⟩

/-! ### The description of the short-key warning -/

set_option maxRecDepth 100000

/-- The modulus 2 ^ 1023 has 1024 bits. -/
theorem BitLen_two_pow_1023 : BitLen (2 ^ 1023) = 1024 := by
  unfold BitLen
  have h : (2 ^ 1023 : Int).natAbs = 2 ^ 1023 := by
    rw [Int.natAbs_pow]
    norm_num
  rw [h, Nat.size_pow]

/-- The description of the short-key warning for a key whose bit length prints as
`1024`. -/
theorem KeyTooShortWarning_description_1024 (fmt : Formatters) (env : Env) (c : Certificate)
    (h : c.ReadableKeyBitLength = "1024") :
    Warning.Description fmt env (.KeyTooShortWarning c)
      = "This certificate has a key that's too short (%!d(string=1024) bits) for today's "
        ++ "standards. RSA keys should have at least 2048 bits, and ECDSA curves "
        ++ "should respect the requirements established by the CA/B forum. You "
        ++ "should probably replace this certificate." := by
  show formatDescription
      ("\nThis certificate has a key that's too short ("
        ++ sprintfBadVerbD c.ReadableKeyBitLength
        ++ " bits) for today's\n"
        ++ "standards. RSA keys should have at least 2048 bits, and ECDSA curves\n"
        ++ "should respect the requirements established by the CA/B forum. You\n"
        ++ "should probably replace this certificate.\n") = _
  rw [h]
  rfl

/-- C27, the code at the failing input: a certificate with an RSA key of 1024 bits.
`ReadableKeyBitLength` returns the text `1024`, and `Description` formats that
text with the verb `%d`, which is for integers: the description holds
`(%!d(string=1024) bits)` where `(1024 bits)` was meant, and the text
`1024 bits` occurs nowhere in it. The description is one line without a newline
and without a space at either end. -/
theorem keyTooShort_description_misprints_bit_length (fmt : Formatters) (env : Env) :
    demoRsa1024.PublicKey = .rsa (2 ^ 1023) 65537 ∧
    BitLen (2 ^ 1023) = 1024 ∧
    Certificate.ReadableKeyBitLength ⟨demoRsa1024, none⟩ = "1024" ∧
    Warning.Description fmt env (.KeyTooShortWarning ⟨demoRsa1024, none⟩)
      = "This certificate has a key that's too short (%!d(string=1024) bits) for today's "
        ++ "standards. RSA keys should have at least 2048 bits, and ECDSA curves "
        ++ "should respect the requirements established by the CA/B forum. You "
        ++ "should probably replace this certificate." ∧
    ¬ ("1024 bits".data
        <:+: (Warning.Description fmt env (.KeyTooShortWarning ⟨demoRsa1024, none⟩)).data) ∧
    "(%!d(string=1024) bits)".data
        <:+: (Warning.Description fmt env (.KeyTooShortWarning ⟨demoRsa1024, none⟩)).data ∧
    '\n' ∉ (Warning.Description fmt env (.KeyTooShortWarning ⟨demoRsa1024, none⟩)).data ∧
    (Warning.Description fmt env (.KeyTooShortWarning ⟨demoRsa1024, none⟩)).data.head? = some 'T' ∧
    (Warning.Description fmt env (.KeyTooShortWarning ⟨demoRsa1024, none⟩)).data.getLast?
      = some '.' := by
  have hbits : Certificate.ReadableKeyBitLength ⟨demoRsa1024, none⟩ = "1024" := by
    show Nat.repr (BitLen (2 ^ 1023)) = "1024"
    rw [BitLen_two_pow_1023]
    rfl
  rw [KeyTooShortWarning_description_1024 fmt env _ hbits]
  refine ⟨rfl, BitLen_two_pow_1023, hbits, rfl, ?_, ?_, ?_, ?_, ?_⟩
  · decide
  · decide
  · decide
  · rfl
  · rfl

end Chaintool
